import Mathlib

/-!
# Time clusters, partition weights and the partition offset table

A shallow embedding of `src/tools/model/Weights.cpp` (time-cluster assignment,
normalisation and partitioner weights) and of `PUML::Group::setSize`
(`src/PUML/Group.h`), with the properties proved about them.

Conventions of the embedding

* `getCluster` is embedded twice.  `getCluster` takes the timesteps as rationals
  and computes exactly; it is the version inside `computeVertexWeights`.
  `getClusterDouble` takes them as `double`s (`Binary64`: IEEE 754 binary64 with
  the infinities and NaN, products rounded to nearest, ties to even) and is the
  version of the statements about the value, the lower bound and the termination
  of `getCluster`.
* `int` expressions of `ipow` and of the weights are reduced modulo `2 ^ 32` into
  the `int` range (`wrapInt`, two's complement).  The sum
  `otherTimeCluster + difference` of `enforceMaximumDifference` is embedded twice:
  as the mathematical sum (`localFace`, `receive`) and as an `int` sum
  (`localFaceInt`, `receiveInt`); the two agree as long as no sum leaves the `int`
  range.  Counters of reductions and of elements are unbounded integers; `size_t`
  values of the offset table are naturals reduced modulo `2 ^ 64`.
* A loop that need not terminate carries a fuel argument counting the loop
  bodies it may execute; `none` then means that the fuel did not suffice.
* `MPI_Abort`, a failing `assert` and an access outside an array are modelled
  as `none`.
-/

namespace PUML

/-! ## `getCluster` (Weights.cpp, lines 14-29) -/

/-- The `while (upper <= timestep) { upper *= rate; ++cluster; }` loop of
`getCluster`, with `upper` and `timestep` as rationals and exact products
(`getClusterLoopDouble` is the loop over `double`).  `fuel` bounds the number of
loop bodies that may be executed. -/
def getClusterLoop (timestep : ℚ) (rate : ℕ) : ℕ → ℚ → ℕ → Option ℕ
  | 0, upper, cluster => if upper ≤ timestep then none else some cluster
  | fuel + 1, upper, cluster =>
    if upper ≤ timestep then getClusterLoop timestep rate fuel (upper * rate) (cluster + 1)
    else some cluster

/-- `unsigned getCluster(double timestep, double globalMinTimestep, unsigned rate)`
in exact arithmetic: the timesteps are rationals and no product is rounded
(`getClusterDouble` is the function over `double`). -/
def getCluster (fuel : ℕ) (timestep globalMinTimestep : ℚ) (rate : ℕ) : Option ℕ :=
  if rate = 1 then some 0
  else getClusterLoop timestep rate fuel (rate * globalMinTimestep) 0

/-! ## `ipow` (Weights.cpp, lines 31-42) -/

/-- The value of an `int` expression: the mathematical result reduced modulo
`2 ^ 32` into the range `-2 ^ 31 .. 2 ^ 31 - 1` (two's complement). -/
def wrapInt (x : ℤ) : ℤ := (x + 2 ^ 31) % 2 ^ 32 - 2 ^ 31

/-- The `while (--y) { result *= x; }` loop of `ipow`, in `int` arithmetic. -/
def ipowLoop (x : ℤ) : ℕ → ℤ → ℤ → Option ℤ
  | 0, _, _ => none
  | fuel + 1, y, result =>
    if wrapInt (y - 1) ≠ 0 then ipowLoop x fuel (wrapInt (y - 1)) (wrapInt (result * x))
    else some result

/-- `int ipow(int x, int y)`.  `ndebug` tells whether the `assert` is compiled
out.  The loop tests its condition `y mod 2 ^ 32` times before the counter is 0,
which is the fuel it gets. -/
def ipow (ndebug : Bool) (x y : ℤ) : Option ℤ :=
  if !ndebug && !decide (y > 0) then none
  else if y = 0 then some 1
  else ipowLoop x (y % 2 ^ 32).toNat y x

/-! ## The distributed mesh as seen by Weights.cpp -/

/-- The four faces of a tetrahedron, `apf::Downward faces` as filled by
`mesh->getDownward(element, 2, faces)`. -/
structure Downward where
  f0 : ℕ
  f1 : ℕ
  f2 : ℕ
  f3 : ℕ

/-- The faces in the order of the loops `for (f = 0; f < 4; ++f)`. -/
def Downward.toList (d : Downward) : List ℕ := [d.f0, d.f1, d.f2, d.f3]

/-- The mesh part of one process.  Elements are numbered in the order of
`mesh->begin(3)` / `mesh->iterate(it)`; faces are numbered locally. -/
structure Part where
  /-- Downward adjacency of every local element. -/
  elements : List Downward
  /-- The "boundary condition" tag of a face, when the face has one. -/
  boundary : ℕ → Option ℤ
  /-- For a face on a partition boundary (`mesh->isShared`), the peer rank and
  the face number on the peer, as `apf::getOtherCopy` returns them. -/
  other : ℕ → Option (ℕ × ℕ)

instance : Inhabited Part := ⟨⟨[], fun _ => none, fun _ => none⟩⟩

/-- Faces of local element `e`. -/
def Part.faces (part : Part) (e : ℕ) : List ℕ :=
  match part.elements[e]? with
  | some d => d.toList
  | none => []

/-- Upward adjacency `mesh->getUp(face, elements)`: the local elements that
have `f` among their faces. -/
def Part.getUp (part : Part) (f : ℕ) : List ℕ :=
  (List.range part.elements.length).filter (fun e => decide (f ∈ part.faces e))

/-- All processes; the position in the list is the MPI rank. -/
abbrev Mesh := List Part

/-- The part of rank `p`. -/
def part (mesh : Mesh) (p : ℕ) : Part := mesh.getD p default

/-- An `int` tag on the elements of all processes: rank, element, value. -/
abbrev IntTag := ℕ → ℕ → ℤ

/-- `mesh->setIntTag(element, tag, &v)` on one process; also the assignment
`a[e] = v` to an array that is modelled as a function of the index. -/
def setTag (tag : ℕ → ℤ) (e : ℕ) (v : ℤ) : ℕ → ℤ :=
  fun x => if x = e then v else tag x

/-! ## `countDynamicRuptureFaces` (Weights.cpp, lines 116-142) -/

/-- The value stored in the `dynamicRupture` tag of element `e`: the number of
its faces whose boundary tag is 3. -/
def Part.dynamicRupture (part : Part) (e : ℕ) : ℤ :=
  (part.faces e).foldl (fun n f => n + (if part.boundary f = some 3 then 1 else 0)) 0

/-- `localNumDrFaces`: the number of local elements with `dynamicRupture > 0`. -/
def localNumDrFaces (part : Part) : ℤ :=
  (List.range part.elements.length).foldl
    (fun n e => if part.dynamicRupture e > 0 then n + 1 else n) 0

/-- `countDynamicRuptureFaces`: the `dynamicRupture` tag and `globalNumDrFaces`
(the `MPI_SUM` reduction of the local counts). -/
def countDynamicRuptureFaces (mesh : Mesh) : IntTag × ℤ :=
  (fun p e => (part mesh p).dynamicRupture e,
   ((List.range mesh.length).map fun p => localNumDrFaces (part mesh p)).sum)

/-! ## `enforceDynamicRuptureGTS` (Weights.cpp, lines 144-179) -/

/-- `std::numeric_limits<int>::max()`. -/
def INT_MAX : ℤ := 2147483647

/-- First loop of `enforceDynamicRuptureGTS`: the least cluster of the local
elements with `dynamicRupture > 0`, starting from `INT_MAX`. -/
def localMinCluster (part : Part) (dr cl : ℕ → ℤ) : ℤ :=
  (List.range part.elements.length).foldl
    (fun m e => if dr e > 0 then min m (cl e) else m) INT_MAX

/-- `MPI_Allreduce(..., MPI_MIN, ...)` over the values of all ranks. -/
def allreduceMin : List ℤ → ℤ
  | [] => INT_MAX
  | x :: xs => xs.foldl min x

/-- `globalMinCluster` as every rank obtains it. -/
def globalMinCluster (mesh : Mesh) (dr cl : IntTag) : ℤ :=
  allreduceMin ((List.range mesh.length).map fun p => localMinCluster (part mesh p) (dr p) (cl p))

/-- Second loop of `enforceDynamicRuptureGTS` on one rank: the new cluster tag
and `numberOfReductions`. -/
def gtsAssign (part : Part) (dr cl : ℕ → ℤ) (globalMin : ℤ) : (ℕ → ℤ) × ℤ :=
  (List.range part.elements.length).foldl
    (fun st e =>
      if dr e > 0 ∧ st.1 e ≠ globalMin then (setTag st.1 e globalMin, st.2 + 1) else st)
    (cl, 0)

/-- `enforceDynamicRuptureGTS` run collectively: the new cluster tag of every
rank and the value every rank returns. -/
def enforceDynamicRuptureGTS (mesh : Mesh) (dr cl : IntTag) : IntTag × (ℕ → ℤ) :=
  (fun p => (gtsAssign (part mesh p) (dr p) (cl p) (globalMinCluster mesh dr cl)).1,
   fun p => (gtsAssign (part mesh p) (dr p) (cl p) (globalMinCluster mesh dr cl)).2)

/-! ## `enforceMaximumDifference` (Weights.cpp, lines 181-286) -/

/-- State of the loop over the faces of one element in the local pass. -/
structure FaceLoop where
  timeCluster : ℤ
  difference : ℤ
  numberOfReductions : ℤ

/-- One iteration of `for (f = 0; f < 4; ++f)` in the local pass, for element
`e` and face `f`; `none` is the `MPI_Abort` of a face without two elements.  The
sum `otherTimeCluster + difference` is the mathematical sum (`localFaceInt` has
the `int` sum). -/
def localFace (part : Part) (dr cl : ℕ → ℤ) (e : ℕ) (st : FaceLoop) (f : ℕ) :
    Option FaceLoop :=
  let boundary := (part.boundary f).getD (-1)
  if boundary = -1 ∨ boundary = 3 ∨ boundary = 6 then
    if (part.other f).isNone then
      match part.getUp f with
      | [e0, e1] =>
        let neighbour := if e0 = e then e1 else e0
        let difference := if dr neighbour > 0 then 0 else st.difference
        if st.timeCluster > cl neighbour + difference then
          some ⟨cl neighbour + difference, difference, st.numberOfReductions + 1⟩
        else
          some ⟨st.timeCluster, difference, st.numberOfReductions⟩
      | _ => none
    else some st
  else some st

/-- Body of the element loop of the local pass. -/
def localElement (part : Part) (maxDifference : ℤ) (dr : ℕ → ℤ) (st : (ℕ → ℤ) × ℤ) (e : ℕ) :
    Option ((ℕ → ℤ) × ℤ) :=
  ((part.faces e).foldlM (localFace part dr st.1 e) ⟨st.1 e, maxDifference, st.2⟩).map
    fun r => (setTag st.1 e r.timeCluster, r.numberOfReductions)

/-- The local pass of one rank (lines 189-234): new cluster tag and the
reductions counted so far. -/
def localPass (part : Part) (maxDifference : ℤ) (dr cl : ℕ → ℤ) : Option ((ℕ → ℤ) × ℤ) :=
  (List.range part.elements.length).foldlM (localElement part maxDifference dr) (cl, 0)

/-- What is packed for one shared face: destination rank, the face on the
destination, and the sender's cluster and `dynamicRupture`. -/
structure Message where
  peer : ℕ
  entity : ℕ
  timeCluster : ℤ
  dynamicRupture : ℤ
deriving DecidableEq

/-- Everything one rank packs between `PCU_Comm_Begin` and `PCU_Comm_Send`
(lines 236-257). -/
def outbox (part : Part) (dr cl : ℕ → ℤ) : List Message :=
  (List.range part.elements.length).flatMap fun e =>
    (part.faces e).filterMap fun f =>
      (part.other f).map fun o => ⟨o.1, o.2, cl e, dr e⟩

/-- One iteration of `while (PCU_Comm_Receive())` (lines 259-283); `none` is
the `MPI_Abort` of a received face without exactly one local element.  The sum
`otherTimeCluster + difference` is the mathematical sum (`receiveInt` has the
`int` sum). -/
def receive (part : Part) (maxDifference : ℤ) (st : (ℕ → ℤ) × ℤ) (m : Message) :
    Option ((ℕ → ℤ) × ℤ) :=
  let difference := if m.dynamicRupture > 0 then 0 else maxDifference
  match part.getUp m.entity with
  | [e] =>
    if st.1 e > m.timeCluster + difference then
      some (setTag st.1 e (m.timeCluster + difference), st.2 + 1)
    else some st
  | _ => none

/-- One rank of `enforceMaximumDifference`, given the rank's state after its
local pass and the messages in the order in which they arrive. -/
def remotePass (part : Part) (maxDifference : ℤ) (rank : ℕ) (arrived : List Message)
    (st : (ℕ → ℤ) × ℤ) : Option ((ℕ → ℤ) × ℤ) :=
  (arrived.filter fun m => m.peer = rank).foldlM (receive part maxDifference) st

/-- The messages of all ranks, packed from the cluster tag `cl`. -/
def allSent (mesh : Mesh) (dr cl : IntTag) : List Message :=
  (List.range mesh.length).flatMap fun q => outbox (part mesh q) (dr q) (cl q)

/-- One rank of `enforceMaximumDifference` when all ranks run it together.
`arrive` is the order in which the network delivers the packed messages.  The
result is `none` when a rank calls `MPI_Abort`. -/
def enforceMaximumDifferenceOn (mesh : Mesh) (maxDifference : ℤ)
    (arrive : List Message → List Message) (dr cl : IntTag) (rank : ℕ) :
    Option ((ℕ → ℤ) × ℤ) :=
  if ∀ q < mesh.length, (localPass (part mesh q) maxDifference (dr q) (cl q)).isSome then
    let after : IntTag := fun q =>
      ((localPass (part mesh q) maxDifference (dr q) (cl q)).getD (cl q, 0)).1
    (localPass (part mesh rank) maxDifference (dr rank) (cl rank)).bind
      (remotePass (part mesh rank) maxDifference rank (arrive (allSent mesh dr after)))
  else none

/-- `enforceMaximumDifference` run collectively: the new cluster tag of every
rank and the value every rank returns; `none` when some rank aborts the job. -/
def enforceMaximumDifference (mesh : Mesh) (maxDifference : ℤ)
    (arrive : List Message → List Message) (dr cl : IntTag) : Option (IntTag × (ℕ → ℤ)) :=
  if ∀ q < mesh.length,
      (enforceMaximumDifferenceOn mesh maxDifference arrive dr cl q).isSome then
    some (fun p => ((enforceMaximumDifferenceOn mesh maxDifference arrive dr cl p).getD
                      (cl p, 0)).1,
          fun p => ((enforceMaximumDifferenceOn mesh maxDifference arrive dr cl p).getD
                      (cl p, 0)).2)
  else none

/-! ## The normalisation loop of `computeVertexWeights` (lines 314-330) -/

/-- `MPI_Allreduce(..., MPI_SUM, ...)` of one value per rank. -/
def allreduceSum (n : ℕ) (v : ℕ → ℤ) : ℤ := ((List.range n).map v).sum

/-- Body of the `do ... while` loop: the new cluster tag and
`globalNumberOfReductions`. -/
def normalizeStep (mesh : Mesh) (maxDifference : ℤ) (arrive : List Message → List Message)
    (globalNumDrFaces : ℤ) (dr cl : IntTag) : Option (IntTag × ℤ) :=
  let gts : IntTag × (ℕ → ℤ) :=
    if globalNumDrFaces > 0 then enforceDynamicRuptureGTS mesh dr cl else (cl, fun _ => 0)
  (enforceMaximumDifference mesh maxDifference arrive dr gts.1).map fun smooth =>
    (smooth.1, allreduceSum mesh.length fun p => gts.2 p + smooth.2 p)

/-- How a run of the loop ends. -/
inductive Run (α : Type) where
  /-- The loop was left with this state. -/
  | done : α → Run α
  /-- A rank called `MPI_Abort`. -/
  | aborted : Run α
  /-- More iterations than the fuel allows. -/
  | outOfFuel : Run α

/-- The loop `do { ... } while (globalNumberOfReductions > 0)`.  `fuel` bounds the
number of iterations; the result holds the final cluster tag and the number of
iterations that were executed, counted from `iterations`. -/
def normalizeLoop (mesh : Mesh) (maxDifference : ℤ) (arrive : List Message → List Message)
    (globalNumDrFaces : ℤ) (dr : IntTag) : ℕ → ℕ → IntTag → Run (IntTag × ℕ)
  | 0, _, _ => Run.outOfFuel
  | fuel + 1, iterations, cl =>
    match normalizeStep mesh maxDifference arrive globalNumDrFaces dr cl with
    | none => Run.aborted
    | some (cl', globalNumberOfReductions) =>
      if globalNumberOfReductions > 0 then
        normalizeLoop mesh maxDifference arrive globalNumDrFaces dr fuel (iterations + 1) cl'
      else Run.done (cl', iterations + 1)

/-! ## Vertex weights (Weights.cpp, lines 332-364) -/

/-- State of the loop over the elements that fills `vwgt` and the local
histogram (lines 348-364).  Arrays are functions of the index. -/
structure WeightLoop where
  localClusterHistogram : ℕ → ℤ
  vwgt : ℕ → ℤ
  iElem : ℕ

/-- Body of that loop for element `e`.  `none`: the histogram index is outside
`new int[maxCluster+1]`, or `ipow` gives no result.  The exponent and the weight
are `int` expressions. -/
def weightElement (ndebug : Bool) (ncon : ℕ) (maxCluster : ℕ) (timestepRate drToCellRatio : ℤ)
    (dr cl : ℕ → ℤ) (st : WeightLoop) (e : ℕ) : Option WeightLoop :=
  let timeCluster := cl e
  let dynamicRupture := dr e
  if 0 ≤ timeCluster ∧ timeCluster ≤ maxCluster then
    (ipow ndebug timestepRate (wrapInt (maxCluster - timeCluster))).map fun pw =>
      let vwgt := setTag st.vwgt (ncon * st.iElem)
        (wrapInt (wrapInt (1 + wrapInt (drToCellRatio * dynamicRupture)) * pw))
      ⟨setTag st.localClusterHistogram timeCluster.toNat
          (st.localClusterHistogram timeCluster.toNat + 1),
        if ncon > 1 then
          setTag vwgt (ncon * st.iElem + 1) (if dynamicRupture > 0 then 1 else 0)
        else vwgt,
        st.iElem + 1⟩
  else none

/-- The weight loop of one rank, started with a zeroed histogram. -/
def vertexWeights (ndebug : Bool) (ncon : ℕ) (maxCluster : ℕ) (timestepRate drToCellRatio : ℤ)
    (part : Part) (dr cl : ℕ → ℤ) : Option WeightLoop :=
  (List.range part.elements.length).foldlM
    (weightElement ndebug ncon maxCluster timestepRate drToCellRatio dr cl)
    ⟨fun _ => 0, fun _ => 0, 0⟩

/-- `ncon` as set at lines 332-336. -/
def numConstraints (enableDRWeights : Bool) (globalNumDrFaces : ℤ) : ℕ :=
  if enableDRWeights then (if globalNumDrFaces > 0 then 2 else 1) else 1

/-- The value of an `int` rate as the `unsigned` parameter of `getCluster`. -/
def toUnsigned (x : ℤ) : ℕ := (x % 2 ^ 32).toNat

/-- What `computeVertexWeights` leaves behind on all ranks. -/
structure VertexWeights where
  /-- The `timeCluster` tag. -/
  timeCluster : IntTag
  ncon : ℕ
  maxCluster : ℕ
  /-- The returned array of every rank. -/
  vwgt : ℕ → ℕ → ℤ
  /-- The local histogram of every rank. -/
  localClusterHistogram : ℕ → ℕ → ℤ
  /-- The histogram reduced to rank 0. -/
  globalClusterHistogram : ℕ → ℤ

/-- `computeVertexWeights` run on all ranks.  The results of `computeTimesteps`
(the `timestep` tag and the two reduced timesteps) are inputs.  One `fuel` bounds
every loop that may not terminate. -/
def computeVertexWeights (mesh : Mesh) (arrive : List Message → List Message) (ndebug : Bool)
    (fuel : ℕ) (timestep : ℕ → ℕ → ℚ) (globalMinTimestep globalMaxTimestep : ℚ)
    (timestepRate drToCellRatio : ℤ) (enableDRWeights : Bool) : Option VertexWeights :=
  let dr := (countDynamicRuptureFaces mesh).1
  let globalNumDrFaces := (countDynamicRuptureFaces mesh).2
  let rate := toUnsigned timestepRate
  let initial : ℕ → ℕ → Option ℕ := fun p e =>
    getCluster fuel (timestep p e) globalMinTimestep rate
  if ∀ p < mesh.length, ∀ e < (part mesh p).elements.length, (initial p e).isSome then
    let normalized : Option IntTag :=
      if timestepRate > 1 then
        match normalizeLoop mesh 1 arrive globalNumDrFaces dr fuel 0
            (fun p e => ((initial p e).getD 0 : ℕ)) with
        | Run.done r => some r.1
        | _ => none
      else some (fun p e => ((initial p e).getD 0 : ℕ))
    normalized.bind fun cl =>
      (getCluster fuel globalMaxTimestep globalMinTimestep rate).bind fun maxCluster =>
        let ncon := numConstraints enableDRWeights globalNumDrFaces
        let loop : ℕ → Option WeightLoop := fun p =>
          vertexWeights ndebug ncon maxCluster timestepRate drToCellRatio (part mesh p)
            (dr p) (cl p)
        if ∀ p < mesh.length, (loop p).isSome then
          some
            { timeCluster := cl
              ncon := ncon
              maxCluster := maxCluster
              vwgt := fun p => ((loop p).getD ⟨fun _ => 0, fun _ => 0, 0⟩).vwgt
              localClusterHistogram := fun p =>
                ((loop p).getD ⟨fun _ => 0, fun _ => 0, 0⟩).localClusterHistogram
              globalClusterHistogram := fun c =>
                allreduceSum mesh.length fun p =>
                  ((loop p).getD ⟨fun _ => 0, fun _ => 0, 0⟩).localClusterHistogram c }
        else none
  else none

/-! ## `PUML::Group` (Group.h): the offset table and `setSize` -/

/-- `std::numeric_limits<size_t>::max()`, the mark of an offset that is not set. -/
def SIZE_MAX : ℕ := 2 ^ 64 - 1

/-- The state of a `Group` that `setSize` reads and writes. -/
structure Group where
  /-- The vector `m_offset`. -/
  m_offset : List ℕ
  /-- The arguments of the calls of the pure virtual `setOffset` so far, oldest
  first. -/
  persisted : List ℕ
deriving DecidableEq

/-- `Group(name, numPartitions, comm)`: `numPartitions + 1` entries, the first
one 0 and the others `SIZE_MAX`. -/
def Group.new (numPartitions : ℕ) : Group :=
  ⟨(List.range (numPartitions + 1)).map fun i => if i = 0 then 0 else SIZE_MAX, []⟩

/-- `setSize` without `PARALLEL`.  `setOffset` is the result of the storage hook.
`none`: `m_offset[basePartition]` is read outside the vector. -/
def Group.setSize (setOffset : ℕ → Bool) (g : Group) (partition size : ℕ) :
    Option (Bool × Group) :=
  let basePartition := partition
  match g.m_offset[basePartition]? with
  | none => none
  | some o =>
    if o = SIZE_MAX then some (false, g)
    else
      some (setOffset (partition + 1),
        ⟨if basePartition + 1 < g.m_offset.length then
            g.m_offset.set (basePartition + 1) ((o + size) % 2 ^ 64)
          else g.m_offset,
          g.persisted ++ [partition + 1]⟩)

/-- The search for the least reported partition (lines 163-167). -/
def findBase (buf : List (ℕ × ℕ)) (partition : ℕ) : ℕ :=
  buf.foldl (fun base x => if x.1 < base then x.1 else base) partition

/-- The loop at lines 178-183: the reported sizes are stored behind their
partitions, until a partition lies outside the table. -/
def bucket : List (ℕ × ℕ) → List ℕ → List ℕ
  | [], offset => offset
  | x :: rest, offset =>
    if (x.1 + 1) % 2 ^ 64 ≥ offset.length then offset
    else bucket rest (offset.set ((x.1 + 1) % 2 ^ 64) x.2)

/-- The loop at lines 184-189 for the values `i` of the list. -/
def accumulate (basePartition : ℕ) : List ℕ → List ℕ → List ℕ
  | [], offset => offset
  | i :: rest, offset =>
    if basePartition + i + 1 ≥ offset.length then offset
    else
      accumulate basePartition rest
        (offset.set (basePartition + i + 1)
          ((offset.getD (basePartition + i + 1) 0 + offset.getD (basePartition + i) 0) % 2 ^ 64))

/-- `setSize` with `PARALLEL` on rank `mpiRank`; `buf` is the buffer after
`MPI_Allgather`, one pair (partition, size) per rank, the rank's own arguments
at position `mpiRank`. -/
def Group.setSizeParallel (setOffset : ℕ → Bool) (g : Group) (mpiRank : ℕ)
    (buf : List (ℕ × ℕ)) : Option (Bool × Group) :=
  let partition := (buf.getD mpiRank (0, 0)).1
  let basePartition := findBase buf partition
  match g.m_offset[basePartition]? with
  | none => none
  | some o =>
    if o = SIZE_MAX then some (false, g)
    else
      some (setOffset (partition + 1),
        ⟨accumulate basePartition (List.range buf.length) (bucket buf g.m_offset),
          g.persisted ++ [partition + 1]⟩)

/-- `size(partition)`: the difference of two neighbouring offsets, in `size_t`. -/
def Group.size (g : Group) (partition : ℕ) : Option ℕ :=
  match g.m_offset[partition + 1]?, g.m_offset[partition]? with
  | some a, some b => some ((a + 2 ^ 64 - b) % 2 ^ 64)
  | _, _ => none

/-- Registration of the sizes of the partitions `first`, `first + 1`, ... in this
order, without `PARALLEL`. -/
def Group.setSizes (setOffset : ℕ → Bool) : Group → ℕ → List ℕ → Option Group
  | g, _, [] => some g
  | g, first, s :: rest =>
    (g.setSize setOffset first s).bind fun r => Group.setSizes setOffset r.2 (first + 1) rest


/-- A sequence of `setSize` calls without `PARALLEL`, each a pair (partition, size). -/
def Group.setSizeCalls (setOffset : ℕ → Bool) : Group → List (ℕ × ℕ) → Option Group
  | g, [] => some g
  | g, c :: rest =>
    (g.setSize setOffset c.1 c.2).bind fun r => Group.setSizeCalls setOffset r.2 rest

/-- A sequence of collective `setSize` calls with `PARALLEL` as rank `mpiRank`
sees them, each given by its gathered buffer. -/
def Group.setSizeRounds (setOffset : ℕ → Bool) (mpiRank : ℕ) :
    Group → List (List (ℕ × ℕ)) → Option Group
  | g, [] => some g
  | g, buf :: rest =>
    (g.setSizeParallel setOffset mpiRank buf).bind fun r =>
      Group.setSizeRounds setOffset mpiRank r.2 rest

/-- The size most recently passed to `setSize` for partition `p` in a history of
(partition, size) pairs. -/
def registered (calls : List (ℕ × ℕ)) (p : ℕ) : Option ℕ :=
  calls.foldl (fun r c => if c.1 = p then some c.2 else r) none

/-- The entries of an offset table that are set do not decrease with the index. -/
def SetEntriesMonotone (offset : List ℕ) : Prop :=
  ∀ (i j a b : ℕ), i ≤ j → offset[i]? = some a → offset[j]? = some b →
    a ≠ SIZE_MAX → b ≠ SIZE_MAX → a ≤ b

/-- The invariant of the offset table: `offset[0] = 0`; every later entry is the
mark `SIZE_MAX` or a cumulative count, that is the entry before it plus the size
registered for the partition before it; the entries that are set are monotone. -/
def OffsetInvariant (offset : List ℕ) (reg : ℕ → Option ℕ) : Prop :=
  offset[0]? = some 0 ∧
  (∀ (i a : ℕ), offset[i + 1]? = some a →
    a = SIZE_MAX ∨ ∃ b s, offset[i]? = some b ∧ reg i = some s ∧ a = b + s) ∧
  SetEntriesMonotone offset


/-- The facts about the offset table that registration in order maintains, for a
table with `P` partitions and the history `hist` of registered pairs. -/
structure TableInv (P : ℕ) (t : List ℕ) (hist : List (ℕ × ℕ)) : Prop where
  len : t.length = P + 1
  zero : t[0]? = some 0
  sorted : ∀ (i j a b : ℕ), i ≤ j → t[i]? = some a → t[j]? = some b → a ≤ b
  bound : ∀ (i a : ℕ), t[i]? = some a → a = SIZE_MAX ∨ a ≤ (hist.map (·.2)).sum
  frontier : ∀ (i : ℕ), 0 < i → i ≤ P → (∀ c ∈ hist, c.1 + 1 < i) → t[i]? = some SIZE_MAX
  link : ∀ (i a : ℕ), t[i + 1]? = some a →
    a = SIZE_MAX ∨ ∃ b s, t[i]? = some b ∧ registered hist i = some s ∧ a = b + s


/-! ## Concrete meshes used as test inputs -/

/-- A part with three elements; element 0 has the two faces 0 and 1 with boundary
tag 3, which it shares with the elements 1 and 2; all other faces carry tag 1. -/
def twoFaultFaces : Part :=
  ⟨[⟨0, 1, 2, 3⟩, ⟨0, 4, 5, 6⟩, ⟨1, 7, 8, 9⟩],
   fun f => if f = 0 ∨ f = 1 then some 3 else some 1, fun _ => none⟩

/-- The scenario of the specification on two ranks: rank 0 holds the elements 0
and 1, rank 1 the elements 2 and 3; face 0 of rank 0 (in element 0) and face 0 of
rank 1 (in element 2) are the two copies of one untagged partition-boundary face;
every other face carries tag 1. -/
def scenario : Mesh :=
  [⟨[⟨0, 1, 2, 3⟩, ⟨4, 5, 6, 7⟩], fun f => if f = 0 then none else some 1,
     fun f => if f = 0 then some (1, 0) else none⟩,
   ⟨[⟨0, 1, 2, 3⟩, ⟨4, 5, 6, 7⟩], fun f => if f = 0 then none else some 1,
     fun f => if f = 0 then some (0, 0) else none⟩]

/-- The timesteps 1, 2 (rank 0) and 4, 1 (rank 1) of the scenario. -/
def scenarioTimestep : ℕ → ℕ → ℚ := fun p e =>
  if p = 0 then (if e = 0 then 1 else 2) else (if e = 0 then 4 else 1)


/-! ## Notions used in the statements about the normalisation loop -/

/-- A fixed point of the normalisation loop: `enforceDynamicRuptureGTS` reports no
reduction on any rank, and the sweep of `enforceMaximumDifference` that follows it
returns and reports no reduction on any rank. -/
def FixedPoint (mesh : Mesh) (maxDifference : ℤ) (arrive : List Message → List Message)
    (dr cl : IntTag) : Prop :=
  (∀ p < mesh.length, (enforceDynamicRuptureGTS mesh dr cl).2 p = 0) ∧
  ∃ res, enforceMaximumDifference mesh maxDifference arrive dr
      (enforceDynamicRuptureGTS mesh dr cl).1 = some res ∧
    ∀ p < mesh.length, res.2 p = 0

/-- The faces that the local pass of `enforceMaximumDifference` looks at: no
boundary tag (read as -1), or one of the tags -1, 3, 6. -/
def Part.regular (part : Part) (f : ℕ) : Prop :=
  (part.boundary f).getD (-1) = -1 ∨ (part.boundary f).getD (-1) = 3 ∨
    (part.boundary f).getD (-1) = 6

/-- A part with two elements that share face 0, which carries boundary tag 5; all
other faces carry tag 1. -/
def absorbingInside : Part :=
  ⟨[⟨0, 1, 2, 3⟩, ⟨0, 4, 5, 6⟩], fun f => if f = 0 then some 5 else some 1, fun _ => none⟩


/-! ## `computeEdgeWeights` (Weights.cpp, lines 379-406) -/

/-- The entry `faces[f]` of the downward adjacency of element `e`. -/
def Part.face (part : Part) (e f : ℕ) : ℕ := (part.faces e).getD f 0

/-- Body of the loop `for (f = 0; f < 4; ++f)` of `computeEdgeWeights` for element
`e`; the state is the array `adjwgt` and `pos`.  `none`: `adjwgt[pos]` is written
outside the array. -/
def edgeFace (part : Part) (dualGraph : ℕ → ℤ) (e : ℕ) (st : List ℤ × ℕ) (f : ℕ) :
    Option (List ℤ × ℕ) :=
  if dualGraph (e * 4 + f) ≥ 0 then
    if part.boundary (part.face e f) = some 3 then
      if st.2 < st.1.length then some (st.1.set st.2 100, st.2 + 1) else none
    else some (st.1, st.2 + 1)
  else some st

/-- `computeEdgeWeights` on one rank: `adjwgt`, filled with 1 and then marked with
100 at the positions of the graph edges through faces with boundary tag 3. -/
def computeEdgeWeights (part : Part) (dualGraph : ℕ → ℤ) (nEdges : ℕ) : Option (List ℤ) :=
  ((List.range part.elements.length).foldlM
    (fun st e => (List.range 4).foldlM (edgeFace part dualGraph e) st)
    (List.replicate nEdges 1, 0)).map (·.1)

/-- The slots (element, face) of the dual graph in element-major, face-minor
order. -/
def allSlots (part : Part) : List (ℕ × ℕ) :=
  (List.range part.elements.length).flatMap fun e => (List.range 4).map fun f => (e, f)

/-- The slots of the dual graph that hold a graph edge (a non-negative entry), in
element-major, face-minor order. -/
def edgeSlots (part : Part) (dualGraph : ℕ → ℤ) : List (ℕ × ℕ) :=
  (allSlots part).filter fun s => decide (dualGraph (s.1 * 4 + s.2) ≥ 0)

/-- The edge weights as the specification states them: one entry per graph edge,
100 when the face of the slot carries boundary tag 3 and 1 otherwise. -/
def edgeWeightsReference (part : Part) (dualGraph : ℕ → ℤ) : List ℤ :=
  (edgeSlots part dualGraph).map fun s =>
    if part.boundary (part.face s.1 s.2) = some 3 then 100 else 1


/-! ## Further notions and meshes used in the statements -/

/-- The face step of the local pass as the specification states it: the allowed
difference of a face is 0 when the neighbour through that face has
`dynamicRupture > 0` and `maxDifference` otherwise, whatever the faces visited
before; everything else is `localFace`. -/
def localFaceReference (part : Part) (maxDifference : ℤ) (dr cl : ℕ → ℤ) (e : ℕ)
    (st : FaceLoop) (f : ℕ) : Option FaceLoop :=
  localFace part dr cl e ⟨st.timeCluster, maxDifference, st.numberOfReductions⟩ f

/-- The local pass as the specification states it, with `localFaceReference` for
the face step. -/
def localPassReference (part : Part) (maxDifference : ℤ) (dr cl : ℕ → ℤ) :
    Option ((ℕ → ℤ) × ℤ) :=
  (List.range part.elements.length).foldlM
    (fun st e =>
      ((part.faces e).foldlM (localFaceReference part maxDifference dr st.1 e)
        ⟨st.1 e, maxDifference, st.2⟩).map
        fun r => (setTag st.1 e r.timeCluster, r.numberOfReductions))
    (cl, 0)

/-- A part with four elements: element 0 meets element 1 in the untagged face 0
and element 2 in the untagged face 1; element 1 meets element 3 in face 4, which
carries boundary tag 3; all other faces carry tag 1.  The elements 1 and 3 have
`dynamicRupture > 0`, the elements 0 and 2 have not. -/
def faultBesideRegular : Part :=
  ⟨[⟨0, 1, 2, 3⟩, ⟨0, 4, 5, 6⟩, ⟨1, 7, 8, 9⟩, ⟨4, 10, 11, 12⟩],
   fun f => if f = 0 ∨ f = 1 then none else if f = 4 then some 3 else some 1, fun _ => none⟩

/-- The clusters 2, 2, 1, 2 of the four elements of `faultBesideRegular`. -/
def faultBesideRegularCluster : ℕ → ℤ := fun e => if e = 2 then 1 else 2


/-! ## The phases of `computeVertexWeights` taken one by one -/

/-- A sequence of calls of `enforceDynamicRuptureGTS` (`true`) and of sweeps of
`enforceMaximumDifference` (`false`), each applied to the cluster tag that the
call before it has left; `none` when a sweep ends in `MPI_Abort`. -/
def normalizeMoves (mesh : Mesh) (maxDifference : ℤ) (arrive : List Message → List Message)
    (dr : IntTag) : List Bool → IntTag → Option IntTag
  | [], cl => some cl
  | true :: rest, cl =>
    normalizeMoves mesh maxDifference arrive dr rest (enforceDynamicRuptureGTS mesh dr cl).1
  | false :: rest, cl =>
    (enforceMaximumDifference mesh maxDifference arrive dr cl).bind fun res =>
      normalizeMoves mesh maxDifference arrive dr rest res.1

/-- The scenario of the specification on one rank: four elements, of which the
elements 0 and 2 share the untagged face 0; every other face carries tag 1 and
belongs to one element. -/
def scenarioLocal : Part :=
  ⟨[⟨0, 1, 2, 3⟩, ⟨4, 5, 6, 7⟩, ⟨0, 8, 9, 10⟩, ⟨11, 12, 13, 14⟩],
   fun f => if f = 0 then none else some 1, fun _ => none⟩


/-! ## `enforceMaximumDifference` with the sums computed in `int`

In `localFace` and `receive` above the sum `otherTimeCluster + difference` is the
mathematical sum.  The definitions of this section are the same code with that
sum as the `int` expression it is in Weights.cpp (lines 225-226 and 278-279); the
two versions agree as long as no sum leaves the range of `int`. -/

/-- One iteration of `for (f = 0; f < 4; ++f)` in the local pass, for element
`e` and face `f`, with the `int` sum; `none` is the `MPI_Abort` of a face without
two elements. -/
def localFaceInt (part : Part) (dr cl : ℕ → ℤ) (e : ℕ) (st : FaceLoop) (f : ℕ) :
    Option FaceLoop :=
  let boundary := (part.boundary f).getD (-1)
  if boundary = -1 ∨ boundary = 3 ∨ boundary = 6 then
    if (part.other f).isNone then
      match part.getUp f with
      | [e0, e1] =>
        let neighbour := if e0 = e then e1 else e0
        let difference := if dr neighbour > 0 then 0 else st.difference
        if st.timeCluster > wrapInt (cl neighbour + difference) then
          some ⟨wrapInt (cl neighbour + difference), difference, st.numberOfReductions + 1⟩
        else some ⟨st.timeCluster, difference, st.numberOfReductions⟩
      | _ => none
    else some st
  else some st

/-- Body of the element loop of the local pass, with the `int` sum. -/
def localElementInt (part : Part) (maxDifference : ℤ) (dr : ℕ → ℤ) (st : (ℕ → ℤ) × ℤ)
    (e : ℕ) : Option ((ℕ → ℤ) × ℤ) :=
  ((part.faces e).foldlM (localFaceInt part dr st.1 e) ⟨st.1 e, maxDifference, st.2⟩).map
    fun r => (setTag st.1 e r.timeCluster, r.numberOfReductions)

/-- The local pass of one rank, with the `int` sum. -/
def localPassInt (part : Part) (maxDifference : ℤ) (dr cl : ℕ → ℤ) :
    Option ((ℕ → ℤ) × ℤ) :=
  (List.range part.elements.length).foldlM (localElementInt part maxDifference dr) (cl, 0)

/-- One iteration of `while (PCU_Comm_Receive())`, with the `int` sum. -/
def receiveInt (part : Part) (maxDifference : ℤ) (st : (ℕ → ℤ) × ℤ) (m : Message) :
    Option ((ℕ → ℤ) × ℤ) :=
  let difference := if m.dynamicRupture > 0 then 0 else maxDifference
  match part.getUp m.entity with
  | [e] =>
    if st.1 e > wrapInt (m.timeCluster + difference) then
      some (setTag st.1 e (wrapInt (m.timeCluster + difference)), st.2 + 1)
    else some st
  | _ => none

/-- The remote pass of one rank, with the `int` sum. -/
def remotePassInt (part : Part) (maxDifference : ℤ) (rank : ℕ) (arrived : List Message)
    (st : (ℕ → ℤ) × ℤ) : Option ((ℕ → ℤ) × ℤ) :=
  (arrived.filter fun m => m.peer = rank).foldlM (receiveInt part maxDifference) st

/-- One rank of `enforceMaximumDifference` when all ranks run it together, with
the `int` sum. -/
def enforceMaximumDifferenceOnInt (mesh : Mesh) (maxDifference : ℤ)
    (arrive : List Message → List Message) (dr cl : IntTag) (rank : ℕ) :
    Option ((ℕ → ℤ) × ℤ) :=
  if ∀ q < mesh.length, (localPassInt (part mesh q) maxDifference (dr q) (cl q)).isSome then
    let after : IntTag := fun q =>
      ((localPassInt (part mesh q) maxDifference (dr q) (cl q)).getD (cl q, 0)).1
    (localPassInt (part mesh rank) maxDifference (dr rank) (cl rank)).bind
      (remotePassInt (part mesh rank) maxDifference rank (arrive (allSent mesh dr after)))
  else none

/-- `enforceMaximumDifference` run collectively, with the `int` sum: the new
cluster tag of every rank and the value every rank returns; `none` when some rank
aborts the job. -/
def enforceMaximumDifferenceInt (mesh : Mesh) (maxDifference : ℤ)
    (arrive : List Message → List Message) (dr cl : IntTag) : Option (IntTag × (ℕ → ℤ)) :=
  if ∀ q < mesh.length,
      (enforceMaximumDifferenceOnInt mesh maxDifference arrive dr cl q).isSome then
    some (fun p => ((enforceMaximumDifferenceOnInt mesh maxDifference arrive dr cl p).getD
                      (cl p, 0)).1,
          fun p => ((enforceMaximumDifferenceOnInt mesh maxDifference arrive dr cl p).getD
                      (cl p, 0)).2)
  else none


/-! ## `double` arithmetic (IEEE 754 binary64, round to nearest, ties to even)

`getCluster` multiplies and compares `double`s.  The section gives the values of
a `double`, the correctly rounded product and the comparison `<=`, and the
function `getCluster` over them. -/

/-- The values of a `double`: `finite s m e` is `(-1) ^ s * m * 2 ^ e` (with
`s = true` for the sign bit set), `infinite s` is `-inf` for `s = true` and `+inf`
for `s = false`, and `nan` is a NaN. -/
inductive Binary64
  | finite (sign : Bool) (m : ℕ) (e : ℤ)
  | infinite (sign : Bool)
  | nan
deriving DecidableEq

namespace Binary64

/-- A representation with a significand below `2 ^ 53` and an exponent between
`-1074` and `971`: every `double` that is not an infinity or a NaN has one, and
every such triple is the value of a `double`. -/
def IsDouble : Binary64 → Prop
  | finite _ m e => m < 2 ^ 53 ∧ -1074 ≤ e ∧ e ≤ 971
  | infinite _ => True
  | nan => True

instance (x : Binary64) : Decidable x.IsDouble := by
  cases x <;> unfold IsDouble <;> infer_instance

/-- A `double` that compares greater than 0: a finite one with a clear sign bit
and a significand other than 0, or `+inf`. -/
def IsPositive : Binary64 → Prop
  | finite s m _ => s = false ∧ 0 < m
  | infinite s => s = false
  | nan => False

instance (x : Binary64) : Decidable x.IsPositive := by
  cases x <;> unfold IsPositive <;> infer_instance

/-- The exact value of a finite `double` as a rational number (0 for the
infinities and NaN). -/
def toRat : Binary64 → ℚ
  | finite s m e => (if s then -1 else 1) * (m : ℚ) * (2 : ℚ) ^ e
  | infinite _ => 0
  | nan => 0

/-- The loop that counts the binary digits of `n`. -/
def sizeLoop : ℕ → ℕ → ℕ
  | 0, _ => 0
  | fuel + 1, n => if n = 0 then 0 else sizeLoop fuel (n / 2) + 1

/-- The number of binary digits of `n`. -/
def bitLength (n : ℕ) : ℕ := sizeLoop n n

/-- The `double` nearest to `(-1) ^ s * n * 2 ^ E`, ties going to the even
significand.  `sh` is the number of low bits of `n` that do not fit: what is above
53 bits, and what lies below the least exponent `-1074`.  With `sh ≤ 0` the value
is a `double` itself unless its exponent is above 971; with `sh > 0` the `sh` low
bits are rounded away.  A result of `2 ^ 1024` or more is an infinity. -/
def round (s : Bool) (n : ℕ) (E : ℤ) : Binary64 :=
  if n = 0 then finite s 0 (-1074)
  else
    let sh : ℤ := max ((bitLength n : ℤ) - 53) (-1074 - E)
    if sh ≤ 0 then
      if 971 < E + sh then infinite s else finite s (n * 2 ^ (-sh).toNat) (E + sh)
    else
      let q := n / 2 ^ sh.toNat
      let r := n % 2 ^ sh.toNat
      let q1 := if 2 ^ sh.toNat < 2 * r ∨ (2 * r = 2 ^ sh.toNat ∧ q % 2 = 1) then q + 1 else q
      if q1 = 2 ^ 53 then
        if 971 < E + sh + 1 then infinite s else finite s (2 ^ 52) (E + sh + 1)
      else
        if 971 < E + sh then infinite s else finite s q1 (E + sh)

/-- The product `x * y` of two `double`s. -/
def mul (x y : Binary64) : Binary64 :=
  match x, y with
  | nan, _ => nan
  | finite _ _ _, nan => nan
  | infinite _, nan => nan
  | infinite s, infinite t => infinite (s != t)
  | infinite s, finite t n _ => if n = 0 then nan else infinite (s != t)
  | finite s m _, infinite t => if m = 0 then nan else infinite (s != t)
  | finite s m e, finite t n f => round (s != t) (m * n) (e + f)

/-- The integer `(-1) ^ s * m * 2 ^ (e - e0)`, for `e0 ≤ e`. -/
def scaled (s : Bool) (m : ℕ) (e e0 : ℤ) : ℤ :=
  (if s then -(m : ℤ) else (m : ℤ)) * 2 ^ (e - e0).toNat

/-- The comparison `x <= y` of two `double`s: false when one of them is a NaN. -/
def le (x y : Binary64) : Bool :=
  match x, y with
  | nan, _ => false
  | finite _ _ _, nan => false
  | infinite _, nan => false
  | infinite true, finite _ _ _ => true
  | infinite true, infinite _ => true
  | infinite false, finite _ _ _ => false
  | infinite false, infinite t => !t
  | finite _ _ _, infinite t => !t
  | finite s m e, finite t n f =>
    decide (scaled s m e (min e f) ≤ scaled t n f (min e f))

/-- The conversion of an `unsigned` to `double`, which is exact. -/
def ofUnsigned (x : ℕ) : Binary64 := finite false x 0

end Binary64

/-- The loop of `getCluster` with `upper` and `timestep` of type `double`; the
counter `cluster` is an `unsigned`.  `fuel` bounds the number of loop bodies that
may be executed. -/
def getClusterLoopDouble (timestep : Binary64) (rate : ℕ) : ℕ → Binary64 → ℕ → Option ℕ
  | 0, upper, cluster => if upper.le timestep then none else some cluster
  | fuel + 1, upper, cluster =>
    if upper.le timestep then
      getClusterLoopDouble timestep rate fuel (upper.mul (Binary64.ofUnsigned rate))
        ((cluster + 1) % 2 ^ 32)
    else some cluster

/-- `unsigned getCluster(double timestep, double globalMinTimestep, unsigned rate)`
with the arithmetic of `double`: `upper = rate * globalMinTimestep` converts
`rate` and rounds the product. -/
def getClusterDouble (fuel : ℕ) (timestep globalMinTimestep : Binary64) (rate : ℕ) : Option ℕ :=
  if rate = 1 then some 0
  else getClusterLoopDouble timestep rate fuel ((Binary64.ofUnsigned rate).mul globalMinTimestep) 0

/-- The value of `upper` in `getCluster` after `k` loop bodies: the product
`rate ^ (k + 1) * globalMinTimestep` as the code computes it, rounded after every
multiplication. -/
def upperAfter (rate : ℕ) (globalMinTimestep : Binary64) : ℕ → Binary64
  | 0 => (Binary64.ofUnsigned rate).mul globalMinTimestep
  | k + 1 => (upperAfter rate globalMinTimestep k).mul (Binary64.ofUnsigned rate)

/-- The `double` 0.3. -/
def threeTenths : Binary64 := Binary64.finite false 5404319552844595 (-54)

/-- The `double` 0.8999999999999999, the `double` next below 0.9. -/
def belowNineTenths : Binary64 := Binary64.finite false 8106479329266892 (-53)


/-- A `double` that is `+inf` or positive and finite with a value of at least
`v * 2 ^ (-1074)`. -/
def Binary64.AtLeast (v : ℕ) : Binary64 → Prop
  | Binary64.finite s m e =>
    s = false ∧ m < 2 ^ 53 ∧ -1074 ≤ e ∧ e ≤ 971 ∧ v ≤ m * 2 ^ (e + 1074).toNat
  | Binary64.infinite s => s = false
  | Binary64.nan => False


/-- A `double` that is neither an infinity nor a NaN. -/
def Binary64.IsFinite : Binary64 → Prop
  | Binary64.finite _ _ _ => True
  | Binary64.infinite _ => False
  | Binary64.nan => False

instance (x : Binary64) : Decidable x.IsFinite := by
  cases x <;> unfold Binary64.IsFinite <;> infer_instance

/-- The product `rate ^ c * globalMinTimestep` as `getCluster` computes it:
`globalMinTimestep` itself for `c = 0`, and the value of `upper` after `c - 1`
loop bodies otherwise. -/
def computedPower (rate : ℕ) (globalMinTimestep : Binary64) : ℕ → Binary64
  | 0 => globalMinTimestep
  | c + 1 => upperAfter rate globalMinTimestep c

/-- The cluster tag after the first loop of `computeVertexWeights` (lines
305-312) with timesteps of type `double`: the value of `getCluster` for the
timestep of every element. -/
def initialClustersDouble (fuel : ℕ) (timestep : ℕ → ℕ → Binary64)
    (globalMinTimestep : Binary64) (rate : ℕ) : IntTag :=
  fun p e => ((getClusterDouble fuel (timestep p e) globalMinTimestep rate).getD 0 : ℕ)

/-- A sequence of calls of `enforceDynamicRuptureGTS` (`true`) and of sweeps of
`enforceMaximumDifference` with the sums computed in `int` (`false`), each applied
to the cluster tag that the call before it has left; `none` when a sweep ends in
`MPI_Abort`. -/
def normalizeMovesInt (mesh : Mesh) (maxDifference : ℤ) (arrive : List Message → List Message)
    (dr : IntTag) : List Bool → IntTag → Option IntTag
  | [], cl => some cl
  | true :: rest, cl =>
    normalizeMovesInt mesh maxDifference arrive dr rest (enforceDynamicRuptureGTS mesh dr cl).1
  | false :: rest, cl =>
    (enforceMaximumDifferenceInt mesh maxDifference arrive dr cl).bind fun res =>
      normalizeMovesInt mesh maxDifference arrive dr rest res.1

/-- The timesteps 1.0, 2.0 (rank 0) and 4.0, 1.0 (rank 1) of the scenario as
`double`s. -/
def scenarioTimestepDouble : ℕ → ℕ → Binary64 := fun p e =>
  if p = 0 then (if e = 0 then Binary64.ofUnsigned 1 else Binary64.ofUnsigned 2)
  else (if e = 0 then Binary64.ofUnsigned 4 else Binary64.ofUnsigned 1)

/-- Timesteps on one rank with four elements: 0.8999999999999999 for element 1
and 0.3 for the others. -/
def roundedTimestep : ℕ → ℕ → Binary64 := fun _ e =>
  if e = 1 then belowNineTenths else threeTenths


/-! ## `getCluster` -/

/-- The loop of `getCluster`, started at `rate ^ (cluster + 1) * gm`, leaves after `k` bodies when
the bound is passed for the first time `k` steps later. -/
theorem getClusterLoop_eq (timestep gm : ℚ) (rate : ℕ) :
    ∀ (k fuel cluster : ℕ), (∀ j < k, (rate : ℚ) ^ (cluster + j + 1) * gm ≤ timestep) →
      timestep < (rate : ℚ) ^ (cluster + k + 1) * gm → k ≤ fuel →
      getClusterLoop timestep rate fuel ((rate : ℚ) ^ (cluster + 1) * gm) cluster
        = some (cluster + k) := by
  intro k
  induction k with
  | zero =>
    intro fuel cluster _ hlt _
    have h : ¬ ((rate : ℚ) ^ (cluster + 1) * gm ≤ timestep) := by
      simpa using hlt
    cases fuel <;> simp [getClusterLoop, h]
  | succ k ih =>
    intro fuel cluster hle hlt hk
    obtain ⟨fuel, rfl⟩ : ∃ f, fuel = f + 1 := ⟨fuel - 1, by omega⟩
    have h0 : (rate : ℚ) ^ (cluster + 1) * gm ≤ timestep := by
      simpa using hle 0 (Nat.succ_pos k)
    have hstep : (rate : ℚ) ^ (cluster + 1) * gm * rate = (rate : ℚ) ^ (cluster + 1 + 1) * gm := by
      ring
    rw [getClusterLoop, if_pos h0, hstep, ih fuel (cluster + 1)]
    · congr 1; omega
    · intro j hj
      have := hle (j + 1) (by omega)
      have e : cluster + 1 + j + 1 = cluster + (j + 1) + 1 := by omega
      rw [e]; exact this
    · have e : cluster + 1 + k + 1 = cluster + (k + 1) + 1 := by omega
      rw [e]; exact hlt
    · omega

theorem wrapInt_of_range (x : ℤ) (h1 : -2 ^ 31 ≤ x) (h2 : x < 2 ^ 31) : wrapInt x = x := by
  unfold wrapInt
  omega

theorem wrapInt_emod (x : ℤ) : wrapInt x % 2 ^ 32 = x % 2 ^ 32 := by
  unfold wrapInt
  omega

/-- Two `int` expressions have the same value exactly when their mathematical
results agree modulo `2 ^ 32`. -/
theorem wrapInt_eq_iff (x y : ℤ) : wrapInt x = wrapInt y ↔ x % 2 ^ 32 = y % 2 ^ 32 := by
  unfold wrapInt
  omega

theorem wrapInt_wrapInt (x : ℤ) : wrapInt (wrapInt x) = wrapInt x :=
  (wrapInt_eq_iff _ _).mpr (wrapInt_emod x)

theorem wrapInt_mul (a b a' b' : ℤ) (ha : wrapInt a = wrapInt a') (hb : wrapInt b = wrapInt b') :
    wrapInt (a * b) = wrapInt (a' * b') := by
  rw [wrapInt_eq_iff] at ha hb ⊢
  rw [Int.mul_emod, ha, hb, ← Int.mul_emod]

theorem wrapInt_add (a b a' b' : ℤ) (ha : wrapInt a = wrapInt a') (hb : wrapInt b = wrapInt b') :
    wrapInt (a + b) = wrapInt (a' + b') := by
  rw [wrapInt_eq_iff] at ha hb ⊢
  omega

/-- The loop of `ipow`, started with a counter `y` that is `k + 1` modulo `2 ^ 32`,
runs `k` bodies and returns `result * x ^ k` as an `int`. -/
theorem ipowLoop_spec (x : ℤ) : ∀ (k : ℕ) (y result : ℤ), y % 2 ^ 32 = (k : ℤ) + 1 →
    ∃ r, ipowLoop x (k + 1) y result = some r ∧ wrapInt r = wrapInt (result * x ^ k) := by
  intro k
  induction k with
  | zero =>
    intro y result hy
    have h0 : wrapInt (y - 1) = 0 := by
      unfold wrapInt
      simp only [Nat.cast_zero] at hy
      omega
    refine ⟨result, ?_, by simp⟩
    rw [ipowLoop, if_neg (by simp [h0])]
  | succ k ih =>
    intro y result hy
    have h0 : wrapInt (y - 1) ≠ 0 := by
      unfold wrapInt
      push_cast at hy
      omega
    have h1 : wrapInt (y - 1) % 2 ^ 32 = (k : ℤ) + 1 := by
      rw [wrapInt_emod]
      push_cast at hy
      omega
    obtain ⟨r, hr, hw⟩ := ih (wrapInt (y - 1)) (wrapInt (result * x)) h1
    refine ⟨r, ?_, ?_⟩
    · rw [ipowLoop, if_pos h0]
      exact hr
    · rw [hw, pow_succ, ← mul_assoc, mul_right_comm]
      exact wrapInt_mul _ _ _ _ (wrapInt_wrapInt _) rfl

/-- Whenever `ipow` has a result: with the assertion compiled in the exponent is
positive, for the exponent 0 the result is 1, and the result is the power as an
`int`. -/
theorem ipow_eq_some (ndebug : Bool) (x y pw : ℤ) (h : ipow ndebug x y = some pw) :
    (ndebug = false → 0 < y) ∧ (y = 0 → pw = 1) ∧
      wrapInt pw = wrapInt (x ^ (y % 2 ^ 32).toNat) := by
  unfold ipow at h
  split at h
  · cases h
  · rename_i hguard
    have hg : ndebug = false → 0 < y := by
      intro hd
      subst hd
      simpa using hguard
    by_cases hy : y = 0
    · rw [if_pos hy] at h
      cases h
      subst hy
      exact ⟨hg, fun _ => rfl, by simp⟩
    · rw [if_neg hy] at h
      refine ⟨hg, fun h0 => absurd h0 hy, ?_⟩
      by_cases hmod : y % 2 ^ 32 = 0
      · rw [hmod] at h
        simp [ipowLoop] at h
      · obtain ⟨k, hk⟩ : ∃ k : ℕ, y % 2 ^ 32 = (k : ℤ) + 1 :=
          ⟨(y % 2 ^ 32 - 1).toNat, by omega⟩
        have hfuel : (y % 2 ^ 32).toNat = k + 1 := by omega
        obtain ⟨r, hr, hw⟩ := ipowLoop_spec x k y x hk
        rw [hfuel, hr] at h
        cases h
        rw [hw, hfuel, pow_succ, mul_comm]

theorem setTag_same (tag : ℕ → ℤ) (e : ℕ) (v : ℤ) : setTag tag e v e = v := by
  simp [setTag]

theorem setTag_other (tag : ℕ → ℤ) (e x : ℕ) (v : ℤ) (h : x ≠ e) : setTag tag e v x = tag x := by
  simp [setTag, h]

/-- A loop over `0, ..., k` is the loop over `0, ..., k - 1` followed by the body for `k`. -/
theorem foldlM_range_succ {α : Type} (f : α → ℕ → Option α) (init : α) (k : ℕ) :
    (List.range (k + 1)).foldlM f init = ((List.range k).foldlM f init).bind fun a => f a k := by
  rw [List.range_succ, List.foldlM_append]
  cases (List.range k).foldlM f init with
  | none => rfl
  | some a =>
    show List.foldlM f a [k] = f a k
    rw [List.foldlM_cons]
    cases f a k <;> rfl

/-- The value that the weight loop writes as first weight, from the result of
`ipow`. -/
theorem weight_value (timestepRate drToCellRatio dynamicRupture d pw : ℤ)
    (hpw : wrapInt pw = wrapInt (timestepRate ^ (wrapInt d % 2 ^ 32).toNat)) :
    wrapInt (wrapInt (1 + wrapInt (drToCellRatio * dynamicRupture)) * pw) =
      wrapInt ((1 + drToCellRatio * dynamicRupture) * timestepRate ^ (d % 2 ^ 32).toNat) := by
  rw [wrapInt_emod] at hpw
  apply wrapInt_mul _ _ _ _ _ hpw
  rw [wrapInt_wrapInt]
  exact wrapInt_add _ _ _ _ rfl (wrapInt_wrapInt _)

/-- What the weight loop has written after its first `k` elements: the first weight
is `(1 + drToCellRatio * dynamicRupture) * timestepRate ^ (maxCluster - cluster)` as
an `int`. -/
theorem weightLoop_written (ndebug : Bool) (ncon maxCluster : ℕ) (timestepRate drToCellRatio : ℤ)
    (dr cl : ℕ → ℤ) (hncon : 1 ≤ ncon) :
    ∀ (k : ℕ) (w : WeightLoop),
      (List.range k).foldlM
        (weightElement ndebug ncon maxCluster timestepRate drToCellRatio dr cl)
        ⟨fun _ => 0, fun _ => 0, 0⟩ = some w →
      w.iElem = k ∧
      ∀ i < k, (0 ≤ cl i ∧ cl i ≤ maxCluster ∧ (cl i = maxCluster → ndebug = true)) ∧
        w.vwgt (ncon * i) =
          wrapInt ((1 + drToCellRatio * dr i) *
            timestepRate ^ (((maxCluster : ℤ) - cl i) % 2 ^ 32).toNat) ∧
        (1 < ncon → w.vwgt (ncon * i + 1) = if dr i > 0 then 1 else 0) := by
  intro k
  induction k with
  | zero =>
    intro w h
    simp only [List.range_zero, List.foldlM_nil] at h
    cases h
    exact ⟨rfl, fun i hi => absurd hi (Nat.not_lt_zero i)⟩
  | succ k ih =>
    intro w h
    rw [foldlM_range_succ] at h
    cases hprev : (List.range k).foldlM
        (weightElement ndebug ncon maxCluster timestepRate drToCellRatio dr cl)
        ⟨fun _ => 0, fun _ => 0, 0⟩ with
    | none => rw [hprev] at h; cases h
    | some w0 =>
      rw [hprev] at h
      obtain ⟨hk, hold⟩ := ih w0 hprev
      simp only [Option.some_bind, weightElement] at h
      split at h
      · rename_i hrange
        cases hpw : ipow ndebug timestepRate (wrapInt ((maxCluster : ℤ) - cl k)) with
        | none => rw [hpw] at h; simp at h
        | some pw =>
          rw [hpw] at h
          simp only [Option.map_some', Option.some.injEq] at h
          obtain ⟨hdbg, -, hpow⟩ := ipow_eq_some _ _ _ _ hpw
          have hval := weight_value timestepRate drToCellRatio (dr k) ((maxCluster : ℤ) - cl k)
            pw hpow
          have hassert : cl k = maxCluster → ndebug = true := by
            intro hc
            cases hd : ndebug with
            | true => rfl
            | false =>
              have := hdbg hd
              rw [hc, sub_self] at this
              exact absurd this (by decide)
          subst h
          refine ⟨by simp [hk], ?_⟩
          intro i hi
          have hmul : ∀ j, j < k → ncon * j + ncon ≤ ncon * k := by
            intro j hj
            calc ncon * j + ncon = ncon * (j + 1) := by ring
              _ ≤ ncon * k := Nat.mul_le_mul_left _ hj
          by_cases hik : i = k
          · subst hik
            refine ⟨⟨hrange.1, hrange.2, hassert⟩, ?_, ?_⟩
            · by_cases hn : ncon > 1
              · simp only [hn, if_true, hk]
                rw [setTag_other _ _ _ _ (by omega), setTag_same, hval]
              · simp only [hn, if_false, hk]
                rw [setTag_same, hval]
            · intro hn
              simp only [show ncon > 1 from hn, if_true, hk]
              rw [setTag_same]
          · have hi' : i < k := by omega
            obtain ⟨h1, h2, h3⟩ := hold i hi'
            have := hmul i hi'
            refine ⟨h1, ?_, ?_⟩
            · by_cases hn : ncon > 1
              · simp only [hn, if_true, hk]
                rw [setTag_other _ _ _ _ (by omega), setTag_other _ _ _ _ (by omega)]
                exact h2
              · simp only [hn, if_false, hk]
                rw [setTag_other _ _ _ _ (by omega)]
                exact h2
            · intro hn
              simp only [show ncon > 1 from hn, if_true, hk]
              rw [setTag_other _ _ _ _ (by omega), setTag_other _ _ _ _ (by omega)]
              exact h3 hn
      · cases h

/-- The parts of a result of `computeVertexWeights`: the exponent base, the number
of constraints, and on every rank the weight loop run on the final cluster tag. -/
theorem computeVertexWeights_eq_some {mesh : Mesh} {arrive : List Message → List Message}
    {ndebug : Bool} {fuel : ℕ} {timestep : ℕ → ℕ → ℚ} {globalMinTimestep globalMaxTimestep : ℚ}
    {timestepRate drToCellRatio : ℤ} {enableDRWeights : Bool} {r : VertexWeights}
    (h : computeVertexWeights mesh arrive ndebug fuel timestep globalMinTimestep
      globalMaxTimestep timestepRate drToCellRatio enableDRWeights = some r) :
    getCluster fuel globalMaxTimestep globalMinTimestep (toUnsigned timestepRate)
      = some r.maxCluster ∧
    r.ncon = numConstraints enableDRWeights (countDynamicRuptureFaces mesh).2 ∧
    ∀ p < mesh.length, ∃ w,
      vertexWeights ndebug r.ncon r.maxCluster timestepRate drToCellRatio (part mesh p)
        ((countDynamicRuptureFaces mesh).1 p) (r.timeCluster p) = some w ∧
      r.vwgt p = w.vwgt ∧ r.localClusterHistogram p = w.localClusterHistogram := by
  unfold computeVertexWeights at h
  simp only [] at h
  split at h
  · rw [Option.bind_eq_some] at h
    obtain ⟨cl, -, h⟩ := h
    rw [Option.bind_eq_some] at h
    obtain ⟨maxCluster, hmax, h⟩ := h
    split at h
    · rename_i hall
      simp only [Option.some.injEq] at h
      subst h
      refine ⟨hmax, rfl, ?_⟩
      intro p hp
      have hsome := hall p hp
      rw [Option.isSome_iff_exists] at hsome
      obtain ⟨w, hw⟩ := hsome
      exact ⟨w, hw, by simp [hw], by simp [hw]⟩
    · cases h
  · cases h

theorem numConstraints_pos (enableDRWeights : Bool) (globalNumDrFaces : ℤ) :
    1 ≤ numConstraints enableDRWeights globalNumDrFaces := by
  unfold numConstraints
  split
  · split <;> omega
  · omega

theorem dynamicRupture_foldl_nonneg (boundary : ℕ → Option ℤ) (faces : List ℕ) (n : ℤ)
    (hn : 0 ≤ n) :
    0 ≤ faces.foldl (fun n f => n + (if boundary f = some 3 then 1 else 0)) n := by
  induction faces generalizing n with
  | nil => exact hn
  | cons f rest ih =>
    simp only [List.foldl_cons]
    apply ih
    split <;> omega

theorem dynamicRupture_nonneg (part : Part) (e : ℕ) : 0 ≤ part.dynamicRupture e :=
  dynamicRupture_foldl_nonneg part.boundary _ 0 le_rfl


/-- The clusters that `getCluster` gives in the scenario, for every fuel from 2 on. -/
theorem getCluster_scenario (fuel : ℕ) :
    getCluster (fuel + 2) 1 1 (toUnsigned 2) = some 0 ∧
    getCluster (fuel + 2) 2 1 (toUnsigned 2) = some 1 ∧
    getCluster (fuel + 2) 4 1 (toUnsigned 2) = some 2 := by
  have : toUnsigned 2 = 2 := by decide
  rw [this]
  refine ⟨?_, ?_, ?_⟩ <;> cases fuel <;> norm_num [getCluster, getClusterLoop]

/-- The initial clusters of the scenario: 0, 1 on rank 0 and 2, 0 on rank 1. -/
theorem getCluster_scenarioTimestep (p e : ℕ) :
    getCluster 4 (scenarioTimestep p e) 1 (toUnsigned 2)
      = some (if p = 0 then (if e = 0 then 0 else 1) else (if e = 0 then 2 else 0)) := by
  unfold scenarioTimestep
  split_ifs
  · exact (getCluster_scenario 2).1
  · exact (getCluster_scenario 2).2.1
  · exact (getCluster_scenario 2).2.2
  · exact (getCluster_scenario 2).1

/-- The scenario of the specification runs through `computeVertexWeights`, also with
the `assert` of `ipow` compiled in. -/
theorem scenario_returns :
    (computeVertexWeights scenario id false 4 scenarioTimestep 1 4 2 1 true).isSome = true := by
  simp only [computeVertexWeights, getCluster_scenarioTimestep, (getCluster_scenario 2).2.2]
  decide

/-- The clusters of the timesteps 1 and `2 ^ 32` for `rate = 2`, `globalMin = 1`. -/
theorem getCluster_two_pow_32 :
    getCluster 40 1 1 (toUnsigned 2) = some 0 ∧
    getCluster 40 4294967296 1 (toUnsigned 2) = some 32 := by
  have h2 : toUnsigned 2 = 2 := by decide
  rw [h2]
  refine ⟨by norm_num [getCluster, getClusterLoop], ?_⟩
  have h := getClusterLoop_eq 4294967296 1 2 32 40 0
    (fun j hj => by
      have h1 : ((2 : ℕ) : ℚ) ^ (0 + j + 1) ≤ ((2 : ℕ) : ℚ) ^ 32 :=
        pow_le_pow_right₀ (by norm_num) (by omega)
      calc ((2 : ℕ) : ℚ) ^ (0 + j + 1) * 1 ≤ ((2 : ℕ) : ℚ) ^ 32 * 1 := by
            exact mul_le_mul_of_nonneg_right h1 (by norm_num)
        _ = 4294967296 := by norm_num)
    (by norm_num) (by omega)
  simp only [getCluster]
  rw [if_neg (by decide)]
  simpa using h

set_option maxRecDepth 100000 in
/-- Counterexample to **C10** as stated: two elements without a common face that
the sweep looks at, timesteps 1 and `2 ^ 32`, `globalMin = 1`, `rate = 2`,
`drToCellRatio = 1`, the `assert` of `ipow` compiled out.  The clusters are 0 and
32, `maxCluster` is 32, and the first weight of element 0 is `2 ^ 32` computed in
`int`, which is 0; the first weight of element 1 is 1. -/
theorem first_weight_overflows :
    (1 : ℤ) ≤ 2 ∧ (0 : ℤ) ≤ 1 ∧
    (computeVertexWeights [absorbingInside] id true 40
        (fun _ e => if e = 0 then 1 else 4294967296) 1 4294967296 2 1 false).map
      (fun r => (r.maxCluster, r.ncon, (List.range 2).map fun e =>
        (r.timeCluster 0 e, r.vwgt 0 (r.ncon * e))))
      = some (32, 1, [(0, 0), (32, 1)]) := by
  have hinit : ∀ e : ℕ, getCluster 40 (if e = 0 then 1 else 4294967296) 1 (toUnsigned 2)
      = some (if e = 0 then 0 else 32) := by
    intro e
    split_ifs
    · exact getCluster_two_pow_32.1
    · exact getCluster_two_pow_32.2
  refine ⟨by decide, by decide, ?_⟩
  simp only [computeVertexWeights, hinit, getCluster_two_pow_32.2]
  decide

/-- **C10**, amended.  For `rate ≥ 1` and `drToCellRatio ≥ 0`, whenever
`computeVertexWeights` returns (`maxCluster` being an `unsigned`), the first weight
`vwgt[ncon*i]` of every element for which the product
`(1 + drToCellRatio * dynamicRupture) * rate ^ (maxCluster - cluster)` does not
exceed `INT_MAX` is at least 1. -/
theorem computeVertexWeights_weight_ge_one {mesh : Mesh}
    {arrive : List Message → List Message} {ndebug : Bool} {fuel : ℕ} {timestep : ℕ → ℕ → ℚ}
    {globalMinTimestep globalMaxTimestep : ℚ} {timestepRate drToCellRatio : ℤ}
    {enableDRWeights : Bool} {r : VertexWeights}
    (hrate : 1 ≤ timestepRate) (hratio : 0 ≤ drToCellRatio)
    (hrun : computeVertexWeights mesh arrive ndebug fuel timestep globalMinTimestep
      globalMaxTimestep timestepRate drToCellRatio enableDRWeights = some r)
    (hM : r.maxCluster < 2 ^ 32) :
    ∀ p < mesh.length, ∀ i < (part mesh p).elements.length,
      (1 + drToCellRatio * (part mesh p).dynamicRupture i)
        * timestepRate ^ ((r.maxCluster : ℤ) - r.timeCluster p i).toNat ≤ INT_MAX →
      1 ≤ r.vwgt p (r.ncon * i) := by
  intro p hp i hi hfit
  obtain ⟨-, hncon, hloop⟩ := computeVertexWeights_eq_some hrun
  obtain ⟨w, hw, hv, -⟩ := hloop p hp
  have := (weightLoop_written ndebug r.ncon r.maxCluster timestepRate drToCellRatio _ _
    (by rw [hncon]; exact numConstraints_pos _ _) _ w hw).2 i hi
  have hdr : 0 ≤ (part mesh p).dynamicRupture i := dynamicRupture_nonneg _ _
  have h1 : 1 ≤ 1 + drToCellRatio * (part mesh p).dynamicRupture i := by
    have := mul_nonneg hratio hdr
    omega
  have h2 : 1 ≤ timestepRate ^ ((r.maxCluster : ℤ) - r.timeCluster p i).toNat :=
    one_le_pow₀ hrate
  have hge : 1 ≤ (1 + drToCellRatio * (part mesh p).dynamicRupture i)
      * timestepRate ^ ((r.maxCluster : ℤ) - r.timeCluster p i).toNat :=
    calc (1 : ℤ) = 1 * 1 := by norm_num
      _ ≤ _ := mul_le_mul h1 h2 (by norm_num) (by omega)
  have hM' : (r.maxCluster : ℤ) < 2 ^ 32 := by exact_mod_cast hM
  have hexp : ((r.maxCluster : ℤ) - r.timeCluster p i) % 2 ^ 32
      = (r.maxCluster : ℤ) - r.timeCluster p i :=
    Int.emod_eq_of_lt (by have := this.1; omega) (by have := this.1; omega)
  have hw' : w.vwgt (r.ncon * i) = wrapInt ((1 + drToCellRatio * (part mesh p).dynamicRupture i)
      * timestepRate ^ (((r.maxCluster : ℤ) - r.timeCluster p i) % 2 ^ 32).toNat) := this.2.1
  have hval : r.vwgt p (r.ncon * i) = (1 + drToCellRatio * (part mesh p).dynamicRupture i)
      * timestepRate ^ ((r.maxCluster : ℤ) - r.timeCluster p i).toNat := by
    rw [hv, hw', hexp]
    unfold INT_MAX at hfit
    exact wrapInt_of_range _ (by omega) (by omega)
  rw [hval]
  exact hge

theorem computeVertexWeights_weight_ge_one_witness :
    ∃ r, computeVertexWeights scenario id false 4 scenarioTimestep 1 4 2 1 true = some r ∧
      r.maxCluster < 2 ^ 32 ∧
      ∀ p < scenario.length, ∀ i < (part scenario p).elements.length,
        (1 + 1 * (part scenario p).dynamicRupture i)
          * 2 ^ ((r.maxCluster : ℤ) - r.timeCluster p i).toNat ≤ INT_MAX →
        1 ≤ r.vwgt p (r.ncon * i) := by
  obtain ⟨r, hr⟩ := Option.isSome_iff_exists.mp scenario_returns
  have hM : r.maxCluster < 2 ^ 32 := by
    have h := (computeVertexWeights_eq_some hr).1
    rw [(getCluster_scenario 2).2.2] at h
    rw [← Option.some.inj h]
    decide
  exact ⟨r, hr, hM, computeVertexWeights_weight_ge_one (by decide) (by decide) hr hM⟩

/-! ## `enforceDynamicRuptureGTS` -/

theorem part_of_length_le (mesh : Mesh) (p : ℕ) (h : mesh.length ≤ p) :
    (part mesh p).elements = [] := by
  simp [part, List.getElem?_eq_none h]
  rfl

/-- A rank that has an element is a rank of the mesh. -/
theorem rank_lt_of_element (mesh : Mesh) (p e : ℕ) (h : e < (part mesh p).elements.length) :
    p < mesh.length := by
  by_contra hp
  rw [part_of_length_le mesh p (by omega)] at h
  simp at h

theorem localMin_fold (dr cl : ℕ → ℤ) (l : List ℕ) (m : ℤ) :
    l.foldl (fun m e => if dr e > 0 then min m (cl e) else m) m ≤ m ∧
    (∀ e ∈ l, dr e > 0 → l.foldl (fun m e => if dr e > 0 then min m (cl e) else m) m ≤ cl e) ∧
    ((0 ≤ m) → (∀ e ∈ l, 0 ≤ cl e) →
      0 ≤ l.foldl (fun m e => if dr e > 0 then min m (cl e) else m) m) := by
  induction l generalizing m with
  | nil => exact ⟨le_rfl, by simp, fun h _ => h⟩
  | cons a rest ih =>
    simp only [List.foldl_cons]
    obtain ⟨h1, h2, h3⟩ := ih (if dr a > 0 then min m (cl a) else m)
    have hstep : (if dr a > 0 then min m (cl a) else m) ≤ m := by
      split
      · exact min_le_left _ _
      · exact le_rfl
    refine ⟨le_trans h1 hstep, ?_, ?_⟩
    · intro e he hdr
      rcases List.mem_cons.mp he with rfl | he
      · refine le_trans h1 ?_
        rw [if_pos hdr]
        exact min_le_right _ _
      · exact h2 e he hdr
    · intro hm hcl
      apply h3
      · split
        · exact le_min hm (hcl a (by simp))
        · exact hm
      · exact fun e he => hcl e (by simp [he])

theorem foldl_min_le (xs : List ℤ) (x : ℤ) :
    xs.foldl min x ≤ x ∧ (∀ y ∈ xs, xs.foldl min x ≤ y) ∧
    ((0 ≤ x) → (∀ y ∈ xs, 0 ≤ y) → 0 ≤ xs.foldl min x) := by
  induction xs generalizing x with
  | nil => exact ⟨le_rfl, by simp, fun h _ => h⟩
  | cons a rest ih =>
    simp only [List.foldl_cons]
    obtain ⟨h1, h2, h3⟩ := ih (min x a)
    refine ⟨le_trans h1 (min_le_left _ _), ?_, ?_⟩
    · intro y hy
      rcases List.mem_cons.mp hy with rfl | hy
      · exact le_trans h1 (min_le_right _ _)
      · exact h2 y hy
    · intro hx hall
      exact h3 (le_min hx (hall a (by simp))) (fun y hy => hall y (by simp [hy]))

theorem allreduceMin_le (xs : List ℤ) (y : ℤ) (hy : y ∈ xs) : allreduceMin xs ≤ y := by
  cases xs with
  | nil => simp at hy
  | cons x rest =>
    simp only [allreduceMin]
    rcases List.mem_cons.mp hy with rfl | hy
    · exact (foldl_min_le rest _).1
    · exact (foldl_min_le rest x).2.1 y hy

theorem allreduceMin_nonneg (xs : List ℤ) (h : ∀ y ∈ xs, 0 ≤ y) : 0 ≤ allreduceMin xs := by
  cases xs with
  | nil => simp [allreduceMin, INT_MAX]
  | cons x rest =>
    simp only [allreduceMin]
    exact (foldl_min_le rest x).2.2 (h x (by simp)) (fun y hy => h y (by simp [hy]))

/-- `globalMinCluster` is at most the cluster of every element with
`dynamicRupture > 0`. -/
theorem globalMinCluster_le (mesh : Mesh) (dr cl : IntTag) (p e : ℕ)
    (he : e < (part mesh p).elements.length) (hdr : dr p e > 0) :
    globalMinCluster mesh dr cl ≤ cl p e := by
  have hp := rank_lt_of_element mesh p e he
  have h1 : localMinCluster (part mesh p) (dr p) (cl p) ≤ cl p e :=
    (localMin_fold (dr p) (cl p) _ INT_MAX).2.1 e (List.mem_range.mpr he) hdr
  refine le_trans (allreduceMin_le _ _ ?_) h1
  exact List.mem_map.mpr ⟨p, List.mem_range.mpr hp, rfl⟩

theorem globalMinCluster_nonneg (mesh : Mesh) (dr cl : IntTag)
    (h : ∀ p < mesh.length, ∀ e < (part mesh p).elements.length, 0 ≤ cl p e) :
    0 ≤ globalMinCluster mesh dr cl := by
  apply allreduceMin_nonneg
  intro y hy
  obtain ⟨p, hp, rfl⟩ := List.mem_map.mp hy
  exact (localMin_fold (dr p) (cl p) _ INT_MAX).2.2 (by simp [INT_MAX])
    (fun e he => h p (List.mem_range.mp hp) e (List.mem_range.mp he))

/-- The second loop of `enforceDynamicRuptureGTS` over a list of elements: the
count does not go down; clusters do not go up when `gmin` is below the clusters of
the elements with `dynamicRupture > 0`; a count that stays means that nothing was
written and all these elements are at `gmin`; a count that grows means that some
element of the list went down. -/
theorem gtsAssign_fold (dr : ℕ → ℤ) (gmin : ℤ) (l : List ℕ) (st : (ℕ → ℤ) × ℤ) :
    let r := l.foldl (fun st e =>
      if dr e > 0 ∧ st.1 e ≠ gmin then (setTag st.1 e gmin, st.2 + 1) else st) st
    st.2 ≤ r.2 ∧
    (r.2 = st.2 → r.1 = st.1 ∧ ∀ e ∈ l, dr e > 0 → st.1 e = gmin) ∧
    (∀ x, r.1 x = st.1 x ∨ r.1 x = gmin) ∧
    (∀ x, x ∉ l → r.1 x = st.1 x) ∧
    ((∀ e ∈ l, dr e > 0 → gmin ≤ st.1 e) →
      (∀ x, r.1 x ≤ st.1 x) ∧ (st.2 < r.2 → ∃ e ∈ l, r.1 e < st.1 e)) ∧
    (∀ e ∈ l, dr e > 0 → r.1 e = gmin) := by
  induction l generalizing st with
  | nil =>
    intro r
    exact ⟨le_rfl, fun _ => ⟨rfl, by simp⟩, fun _ => Or.inl rfl, fun _ _ => rfl,
      fun _ => ⟨fun _ => le_rfl, fun h => absurd h (lt_irrefl _)⟩, by simp⟩
  | cons a rest ih =>
    intro r
    by_cases hc : dr a > 0 ∧ st.1 a ≠ gmin
    · have hr : r = rest.foldl (fun st e =>
          if dr e > 0 ∧ st.1 e ≠ gmin then (setTag st.1 e gmin, st.2 + 1) else st)
          (setTag st.1 a gmin, st.2 + 1) := by
        simp only [r, List.foldl_cons, if_pos hc]
      obtain ⟨h1, h2, h3, h4, h5, h6⟩ := ih (setTag st.1 a gmin, st.2 + 1)
      rw [← hr] at h1 h2 h3 h4 h5 h6
      simp only at h1 h2 h3 h4 h5 h6
      refine ⟨by omega, fun h => by omega, ?_, ?_, ?_, ?_⟩
      · intro x
        rcases h3 x with h | h
        · by_cases hx : x = a
          · subst hx; right; rw [h, setTag_same]
          · left; rw [h, setTag_other _ _ _ _ hx]
        · exact Or.inr h
      · intro x hx
        have hxa : x ≠ a := fun h => hx (by simp [h])
        rw [h4 x (fun h => hx (by simp [h])), setTag_other _ _ _ _ hxa]
      · intro hle
        have hle' : ∀ e ∈ rest, dr e > 0 → gmin ≤ setTag st.1 a gmin e := by
          intro e he hdr
          by_cases hea : e = a
          · subst hea; rw [setTag_same]
          · rw [setTag_other _ _ _ _ hea]; exact hle e (by simp [he]) hdr
        obtain ⟨h5a, -⟩ := h5 hle'
        have hlt : gmin < st.1 a := lt_of_le_of_ne (hle a (by simp) hc.1) (Ne.symm hc.2)
        have hpoint : ∀ x, r.1 x ≤ st.1 x := by
          intro x
          by_cases hx : x = a
          · subst hx
            have := h5a x
            rw [setTag_same] at this
            omega
          · have := h5a x
            rw [setTag_other _ _ _ _ hx] at this
            exact this
        refine ⟨hpoint, fun _ => ⟨a, by simp, ?_⟩⟩
        have := h5a a
        rw [setTag_same] at this
        omega
      · intro e he hdr
        rcases List.mem_cons.mp he with rfl | he
        · rcases h3 e with h | h
          · rw [h, setTag_same]
          · exact h
        · exact h6 e he hdr
    · have hr : r = rest.foldl (fun st e =>
          if dr e > 0 ∧ st.1 e ≠ gmin then (setTag st.1 e gmin, st.2 + 1) else st) st := by
        simp only [r, List.foldl_cons, if_neg hc]
      obtain ⟨h1, h2, h3, h4, h5, h6⟩ := ih st
      rw [← hr] at h1 h2 h3 h4 h5 h6
      refine ⟨h1, ?_, h3, fun x hx => h4 x (fun h => hx (by simp [h])), ?_, ?_⟩
      · intro h
        obtain ⟨h2a, h2b⟩ := h2 h
        refine ⟨h2a, ?_⟩
        intro e he hdr
        rcases List.mem_cons.mp he with rfl | he
        · by_contra hne
          exact hc ⟨hdr, hne⟩
        · exact h2b e he hdr
      · intro hle
        obtain ⟨h5a, h5b⟩ := h5 (fun e he => hle e (by simp [he]))
        refine ⟨h5a, fun h => ?_⟩
        obtain ⟨e, he, hlt⟩ := h5b h
        exact ⟨e, by simp [he], hlt⟩
      · intro e he hdr
        rcases List.mem_cons.mp he with rfl | he
        · rcases h3 e with h | h
          · rw [h]
            by_contra hne
            exact hc ⟨hdr, hne⟩
          · exact h
        · exact h6 e he hdr

theorem dynamicRupture_foldl_pos (boundary : ℕ → Option ℤ) (faces : List ℕ) (n : ℤ) (f : ℕ)
    (hf : f ∈ faces) (h3 : boundary f = some 3) :
    n < faces.foldl (fun n f => n + (if boundary f = some 3 then 1 else 0)) n := by
  induction faces generalizing n with
  | nil => simp at hf
  | cons a rest ih =>
    simp only [List.foldl_cons]
    rcases List.mem_cons.mp hf with rfl | hf
    · rw [if_pos h3]
      have hmono : ∀ (l : List ℕ) (m : ℤ),
          m ≤ l.foldl (fun n f => n + (if boundary f = some 3 then 1 else 0)) m := by
        intro l
        induction l with
        | nil => intro m; exact le_rfl
        | cons b l ihl =>
          intro m
          simp only [List.foldl_cons]
          refine le_trans ?_ (ihl _)
          split <;> omega
      have := hmono rest (n + 1)
      omega
    · refine lt_of_le_of_lt ?_ (ih _ hf)
      split <;> omega

/-- An element with a face that carries boundary tag 3 has `dynamicRupture > 0`. -/
theorem dynamicRupture_pos_of_face (part : Part) (a f : ℕ) (hf : f ∈ part.faces a)
    (h3 : part.boundary f = some 3) : 0 < part.dynamicRupture a :=
  dynamicRupture_foldl_pos part.boundary _ 0 f hf h3

/-- When `enforceDynamicRuptureGTS` reports no reduction on a rank, it leaves the
cluster tag of the rank as it is, and every element of the rank with
`dynamicRupture > 0` has the cluster `globalMinCluster`. -/
theorem gts_zero (mesh : Mesh) (dr cl : IntTag) (p : ℕ)
    (h : (enforceDynamicRuptureGTS mesh dr cl).2 p = 0) :
    (enforceDynamicRuptureGTS mesh dr cl).1 p = cl p ∧
    ∀ e < (part mesh p).elements.length, dr p e > 0 → cl p e = globalMinCluster mesh dr cl := by
  have := (gtsAssign_fold (dr p) (globalMinCluster mesh dr cl)
    (List.range (part mesh p).elements.length) (cl p, 0)).2.1 h
  exact ⟨this.1, fun e he hdr => this.2 e (List.mem_range.mpr he) hdr⟩

/-- A fixed point, from the evaluation of the two functions. -/
theorem FixedPoint.of_eval (mesh : Mesh) (maxDifference : ℤ)
    (arrive : List Message → List Message) (dr cl : IntTag)
    (h1 : ∀ p < mesh.length, (enforceDynamicRuptureGTS mesh dr cl).2 p = 0)
    (h2 : (enforceMaximumDifference mesh maxDifference arrive dr
        (enforceDynamicRuptureGTS mesh dr cl).1).map
      (fun res => decide (∀ p < mesh.length, res.2 p = 0)) = some true) :
    FixedPoint mesh maxDifference arrive dr cl := by
  refine ⟨h1, ?_⟩
  cases hres : enforceMaximumDifference mesh maxDifference arrive dr
      (enforceDynamicRuptureGTS mesh dr cl).1 with
  | none => rw [hres] at h2; cases h2
  | some res =>
    rw [hres] at h2
    simp only [Option.map_some', Option.some.injEq, decide_eq_true_eq] at h2
    exact ⟨res, rfl, h2⟩

/-- **C4.** At a fixed point of the normalisation loop every element with
`dynamicRupture > 0` has the cluster `globalMinCluster`, which is the least cluster
of all such elements on all ranks; consequently two elements that share a face
with boundary tag 3 (a local face, or a partition-boundary face whose two copies
carry the tag) have equal clusters. -/
theorem fixedPoint_dynamicRupture (mesh : Mesh) (maxDifference : ℤ)
    (arrive : List Message → List Message) (cl : IntTag)
    (hfix : FixedPoint mesh maxDifference arrive (countDynamicRuptureFaces mesh).1 cl) :
    (∀ p e, e < (part mesh p).elements.length → (part mesh p).dynamicRupture e > 0 →
      cl p e = globalMinCluster mesh (countDynamicRuptureFaces mesh).1 cl ∧
      ∀ q e', e' < (part mesh q).elements.length → (part mesh q).dynamicRupture e' > 0 →
        cl p e ≤ cl q e') ∧
    (∀ p a b f, a < (part mesh p).elements.length → b < (part mesh p).elements.length →
      f ∈ (part mesh p).faces a → f ∈ (part mesh p).faces b →
      (part mesh p).boundary f = some 3 → cl p a = cl p b) ∧
    (∀ p q a b f g, a < (part mesh p).elements.length → b < (part mesh q).elements.length →
      f ∈ (part mesh p).faces a → g ∈ (part mesh q).faces b →
      (part mesh p).other f = some (q, g) → (part mesh q).other g = some (p, f) →
      (part mesh p).boundary f = some 3 → (part mesh q).boundary g = some 3 →
      cl p a = cl q b) := by
  have hall : ∀ p e, e < (part mesh p).elements.length → (part mesh p).dynamicRupture e > 0 →
      cl p e = globalMinCluster mesh (countDynamicRuptureFaces mesh).1 cl := by
    intro p e he hdr
    exact (gts_zero mesh _ cl p (hfix.1 p (rank_lt_of_element mesh p e he))).2 e he hdr
  refine ⟨?_, ?_, ?_⟩
  · intro p e he hdr
    refine ⟨hall p e he hdr, fun q e' he' hdr' => ?_⟩
    rw [hall p e he hdr, hall q e' he' hdr']
  · intro p a b f ha hb hfa hfb h3
    rw [hall p a ha (dynamicRupture_pos_of_face _ a f hfa h3),
      hall p b hb (dynamicRupture_pos_of_face _ b f hfb h3)]
  · intro p q a b f g ha hb hfa hgb _ _ h3 h3'
    rw [hall p a ha (dynamicRupture_pos_of_face _ a f hfa h3),
      hall q b hb (dynamicRupture_pos_of_face _ b g hgb h3')]

/-- The mesh of one part `twoFaultFaces` with all clusters 1 is a fixed point. -/
theorem twoFaultFaces_fixedPoint :
    FixedPoint [twoFaultFaces] 1 id (countDynamicRuptureFaces [twoFaultFaces]).1
      (fun _ _ => 1) :=
  FixedPoint.of_eval _ _ _ _ _ (by decide) (by decide)

theorem fixedPoint_dynamicRupture_witness :
    (∀ p e, e < (part [twoFaultFaces] p).elements.length →
      (part [twoFaultFaces] p).dynamicRupture e > 0 →
      (fun _ _ => 1 : IntTag) p e = globalMinCluster [twoFaultFaces]
        (countDynamicRuptureFaces [twoFaultFaces]).1 (fun _ _ => 1) ∧
      ∀ q e', e' < (part [twoFaultFaces] q).elements.length →
        (part [twoFaultFaces] q).dynamicRupture e' > 0 →
        (fun _ _ => 1 : IntTag) p e ≤ (fun _ _ => 1 : IntTag) q e') ∧
    (∀ p a b f, a < (part [twoFaultFaces] p).elements.length →
      b < (part [twoFaultFaces] p).elements.length →
      f ∈ (part [twoFaultFaces] p).faces a → f ∈ (part [twoFaultFaces] p).faces b →
      (part [twoFaultFaces] p).boundary f = some 3 →
      (fun _ _ => 1 : IntTag) p a = (fun _ _ => 1 : IntTag) p b) ∧
    (∀ p q a b f g, a < (part [twoFaultFaces] p).elements.length →
      b < (part [twoFaultFaces] q).elements.length →
      f ∈ (part [twoFaultFaces] p).faces a → g ∈ (part [twoFaultFaces] q).faces b →
      (part [twoFaultFaces] p).other f = some (q, g) →
      (part [twoFaultFaces] q).other g = some (p, f) →
      (part [twoFaultFaces] p).boundary f = some 3 →
      (part [twoFaultFaces] q).boundary g = some 3 →
      (fun _ _ => 1 : IntTag) p a = (fun _ _ => 1 : IntTag) q b) :=
  fixedPoint_dynamicRupture [twoFaultFaces] 1 id (fun _ _ => 1) twoFaultFaces_fixedPoint

/-! ## `enforceMaximumDifference`: the local pass -/

theorem mem_getUp (part : Part) (f x : ℕ) :
    x ∈ part.getUp f ↔ x < part.elements.length ∧ f ∈ part.faces x := by
  simp [Part.getUp, List.mem_filter]

theorem getUp_nodup (part : Part) (f : ℕ) : (part.getUp f).Nodup :=
  (List.nodup_range _).filter _

/-- Of the two elements of a face, the neighbour of one is the other. -/
theorem neighbour_eq (part : Part) (f a b e0 e1 : ℕ) (h : part.getUp f = [e0, e1])
    (ha : a < part.elements.length) (hb : b < part.elements.length) (hab : a ≠ b)
    (hfa : f ∈ part.faces a) (hfb : f ∈ part.faces b) :
    (if e0 = a then e1 else e0) = b := by
  have hma : a ∈ part.getUp f := (mem_getUp part f a).mpr ⟨ha, hfa⟩
  have hmb : b ∈ part.getUp f := (mem_getUp part f b).mpr ⟨hb, hfb⟩
  have hnd := getUp_nodup part f
  rw [h] at hma hmb hnd
  simp only [List.mem_cons, List.mem_singleton, List.not_mem_nil, or_false] at hma hmb
  simp only [List.nodup_cons, List.mem_singleton, List.not_mem_nil, not_false_eq_true,
    List.nodup_nil, and_true] at hnd
  rcases hma with rfl | rfl
  · rw [if_pos rfl]
    rcases hmb with rfl | rfl
    · exact absurd rfl hab
    · rfl
  · rw [if_neg hnd]
    rcases hmb with rfl | rfl
    · rfl
    · exact absurd rfl hab

/-- One face of the local pass. -/
theorem localFace_spec (part : Part) (dr cl : ℕ → ℤ) (e : ℕ) (st r : FaceLoop) (f : ℕ)
    (h : localFace part dr cl e st f = some r) :
    st.numberOfReductions ≤ r.numberOfReductions ∧
    r.timeCluster ≤ st.timeCluster ∧
    (st.numberOfReductions < r.numberOfReductions → r.timeCluster < st.timeCluster) ∧
    (r.difference = st.difference ∨ r.difference = 0) ∧
    (r.numberOfReductions = st.numberOfReductions →
      r.timeCluster = st.timeCluster ∧
      (part.regular f → part.other f = none →
        ∃ e0 e1, part.getUp f = [e0, e1] ∧
          st.timeCluster ≤ cl (if e0 = e then e1 else e0) + r.difference)) ∧
    (0 ≤ st.timeCluster → 0 ≤ st.difference → (∀ x < part.elements.length, 0 ≤ cl x) →
      0 ≤ r.timeCluster) := by
  unfold localFace at h
  simp only [] at h
  by_cases hreg : (part.boundary f).getD (-1) = -1 ∨ (part.boundary f).getD (-1) = 3 ∨
      (part.boundary f).getD (-1) = 6
  · rw [if_pos hreg] at h
    by_cases hsh : (part.other f).isNone
    · rw [if_pos hsh] at h
      split at h
      · rename_i e0 e1 hup
        have hnb : (if e0 = e then e1 else e0) < part.elements.length := by
          have h0 : e0 ∈ part.getUp f := by rw [hup]; simp
          have h1 : e1 ∈ part.getUp f := by rw [hup]; simp
          split
          · exact ((mem_getUp part f e1).mp h1).1
          · exact ((mem_getUp part f e0).mp h0).1
        obtain ⟨nb, hnbdef⟩ : ∃ nb, nb = (if e0 = e then e1 else e0) := ⟨_, rfl⟩
        rw [← hnbdef] at h hnb
        obtain ⟨d, hddef⟩ : ∃ d, d = (if dr nb > 0 then 0 else st.difference) := ⟨_, rfl⟩
        rw [← hddef] at h
        have hd : d = st.difference ∨ d = 0 := by
          rw [hddef]
          split
          · exact Or.inr rfl
          · exact Or.inl rfl
        by_cases hgt : st.timeCluster > cl nb + d
        · rw [if_pos hgt] at h
          have h := Option.some.inj h
          subst h
          refine ⟨by simp, by simp only; omega, fun _ => by simp only; omega, hd,
            fun hc => ?_, ?_⟩
          · simp at hc
          · intro _ hd0 hcl
            have := hcl _ hnb
            simp only
            rcases hd with h | h <;> omega
        · rw [if_neg hgt] at h
          have h := Option.some.inj h
          subst h
          refine ⟨le_rfl, le_rfl, fun hc => absurd hc (lt_irrefl _), hd, fun _ => ⟨rfl, ?_⟩,
            fun h0 _ _ => h0⟩
          intro _ _
          refine ⟨e0, e1, hup, ?_⟩
          rw [← hnbdef]
          simp only
          omega
      · cases h
    · rw [if_neg hsh] at h
      simp only [Option.some.injEq] at h
      subst h
      refine ⟨le_rfl, le_rfl, fun hc => absurd hc (lt_irrefl _), Or.inl rfl,
        fun _ => ⟨rfl, fun _ ho => ?_⟩, fun h0 _ _ => h0⟩
      rw [ho] at hsh
      simp at hsh
  · rw [if_neg hreg] at h
    simp only [Option.some.injEq] at h
    subst h
    exact ⟨le_rfl, le_rfl, fun hc => absurd hc (lt_irrefl _), Or.inl rfl,
      fun _ => ⟨rfl, fun hr _ => absurd hr hreg⟩, fun h0 _ _ => h0⟩

/-- The loop over the faces of one element. -/
theorem faceLoop_spec (part : Part) (maxDifference : ℤ) (dr cl : ℕ → ℤ) (e : ℕ) :
    ∀ (faces : List ℕ) (st r : FaceLoop),
      faces.foldlM (localFace part dr cl e) st = some r →
      0 ≤ st.difference → st.difference ≤ maxDifference →
      st.numberOfReductions ≤ r.numberOfReductions ∧
      r.timeCluster ≤ st.timeCluster ∧
      (st.numberOfReductions < r.numberOfReductions → r.timeCluster < st.timeCluster) ∧
      (r.numberOfReductions = st.numberOfReductions →
        r.timeCluster = st.timeCluster ∧
        ∀ f ∈ faces, part.regular f → part.other f = none →
          ∃ e0 e1, part.getUp f = [e0, e1] ∧
            st.timeCluster ≤ cl (if e0 = e then e1 else e0) + maxDifference) ∧
      (0 ≤ st.timeCluster → (∀ x < part.elements.length, 0 ≤ cl x) → 0 ≤ r.timeCluster) := by
  intro faces
  induction faces with
  | nil =>
    intro st r h _ _
    simp only [List.foldlM_nil] at h
    cases h
    exact ⟨le_rfl, le_rfl, fun hc => absurd hc (lt_irrefl _), fun _ => ⟨rfl, by simp⟩,
      fun h0 _ => h0⟩
  | cons f rest ih =>
    intro st r h hd0 hd1
    simp only [List.foldlM_cons] at h
    cases hmid : localFace part dr cl e st f with
    | none => rw [hmid] at h; cases h
    | some mid =>
      rw [hmid] at h
      simp only [Option.bind_eq_bind, Option.some_bind] at h
      obtain ⟨a1, a2, a3, a4, a5, a6⟩ := localFace_spec part dr cl e st mid f hmid
      have hmd0 : 0 ≤ mid.difference := by rcases a4 with h | h <;> omega
      have hmd1 : mid.difference ≤ maxDifference := by rcases a4 with h | h <;> omega
      obtain ⟨b1, b2, b3, b5, b6⟩ := ih mid r h hmd0 hmd1
      refine ⟨by omega, by omega, ?_, ?_, ?_⟩
      · intro hc
        by_cases hm : st.numberOfReductions < mid.numberOfReductions
        · have := a3 hm; omega
        · have := b3 (by omega); omega
      · intro hc
        have hc1 : mid.numberOfReductions = st.numberOfReductions := by omega
        have hc2 : r.numberOfReductions = mid.numberOfReductions := by omega
        obtain ⟨a5a, a5b⟩ := a5 hc1
        obtain ⟨b5a, b5b⟩ := b5 hc2
        refine ⟨by omega, ?_⟩
        intro g hg hreg ho
        rcases List.mem_cons.mp hg with rfl | hg
        · obtain ⟨e0, e1, hup, hle⟩ := a5b hreg ho
          exact ⟨e0, e1, hup, by omega⟩
        · obtain ⟨e0, e1, hup, hle⟩ := b5b g hg hreg ho
          exact ⟨e0, e1, hup, by omega⟩
      · intro h0 hcl
        exact b6 (a6 h0 hd0 hcl) hcl

/-- The body of the element loop of the local pass. -/
theorem localElement_spec (part : Part) (maxDifference : ℤ) (dr : ℕ → ℤ)
    (st r : (ℕ → ℤ) × ℤ) (e : ℕ) (hmax : 0 ≤ maxDifference)
    (h : localElement part maxDifference dr st e = some r) :
    st.2 ≤ r.2 ∧ (∀ x, r.1 x ≤ st.1 x) ∧
    (st.2 < r.2 → r.1 e < st.1 e) ∧
    (r.2 = st.2 → r.1 = st.1 ∧
      ∀ f ∈ part.faces e, part.regular f → part.other f = none →
        ∃ e0 e1, part.getUp f = [e0, e1] ∧
          st.1 e ≤ st.1 (if e0 = e then e1 else e0) + maxDifference) ∧
    ((∀ x < part.elements.length, 0 ≤ st.1 x) → ∀ x < part.elements.length, 0 ≤ r.1 x) := by
  unfold localElement at h
  cases hloop : (part.faces e).foldlM (localFace part dr st.1 e) ⟨st.1 e, maxDifference, st.2⟩ with
  | none => rw [hloop] at h; cases h
  | some fl =>
    rw [hloop] at h
    simp only [Option.map_some', Option.some.injEq] at h
    subst h
    obtain ⟨b1, b2, b3, b5, b6⟩ := faceLoop_spec part maxDifference dr st.1 e _ _ fl hloop
      hmax le_rfl
    simp only at b1 b2 b3 b5 b6
    refine ⟨b1, ?_, ?_, ?_, ?_⟩
    · intro x
      by_cases hx : x = e
      · subst hx; simp only [setTag_same]; exact b2
      · simp only [setTag_other _ _ _ _ hx]; exact le_rfl
    · intro hc
      simp only [setTag_same]
      exact b3 hc
    · intro hc
      obtain ⟨b5a, b5b⟩ := b5 hc
      refine ⟨?_, b5b⟩
      funext x
      by_cases hx : x = e
      · subst hx; simp only [setTag_same]; exact b5a
      · simp only [setTag_other _ _ _ _ hx]
    · intro hcl x hx
      by_cases hxe : x = e
      · subst hxe; simp only [setTag_same]; exact b6 (hcl x hx) hcl
      · simp only [setTag_other _ _ _ _ hxe]; exact hcl x hx

/-- The element loop of the local pass over a list of elements. -/
theorem localPass_fold (part : Part) (maxDifference : ℤ) (dr : ℕ → ℤ) (hmax : 0 ≤ maxDifference) :
    ∀ (l : List ℕ) (st r : (ℕ → ℤ) × ℤ),
      l.foldlM (localElement part maxDifference dr) st = some r →
      st.2 ≤ r.2 ∧ (∀ x, r.1 x ≤ st.1 x) ∧
      (st.2 < r.2 → ∃ e ∈ l, r.1 e < st.1 e) ∧
      (r.2 = st.2 → r.1 = st.1 ∧
        ∀ e ∈ l, ∀ f ∈ part.faces e, part.regular f → part.other f = none →
          ∃ e0 e1, part.getUp f = [e0, e1] ∧
            st.1 e ≤ st.1 (if e0 = e then e1 else e0) + maxDifference) ∧
      ((∀ x < part.elements.length, 0 ≤ st.1 x) →
        ∀ x < part.elements.length, 0 ≤ r.1 x) := by
  intro l
  induction l with
  | nil =>
    intro st r h
    simp only [List.foldlM_nil] at h
    cases h
    exact ⟨le_rfl, fun _ => le_rfl, fun hc => absurd hc (lt_irrefl _), fun _ => ⟨rfl, by simp⟩,
      fun h => h⟩
  | cons e rest ih =>
    intro st r h
    simp only [List.foldlM_cons] at h
    cases hmid : localElement part maxDifference dr st e with
    | none => rw [hmid] at h; cases h
    | some mid =>
      rw [hmid] at h
      simp only [Option.bind_eq_bind, Option.some_bind] at h
      obtain ⟨a1, a2, a3, a5, a6⟩ := localElement_spec part maxDifference dr st mid e hmax hmid
      obtain ⟨b1, b2, b3, b5, b6⟩ := ih mid r h
      refine ⟨by omega, fun x => le_trans (b2 x) (a2 x), ?_, ?_, fun hcl => b6 (a6 hcl)⟩
      · intro hc
        by_cases hm : st.2 < mid.2
        · exact ⟨e, by simp, lt_of_le_of_lt (b2 e) (a3 hm)⟩
        · obtain ⟨x, hx, hlt⟩ := b3 (by omega)
          exact ⟨x, by simp [hx], lt_of_lt_of_le hlt (a2 x)⟩
      · intro hc
        have hc1 : mid.2 = st.2 := by omega
        have hc2 : r.2 = mid.2 := by omega
        obtain ⟨a5a, a5b⟩ := a5 hc1
        obtain ⟨b5a, b5b⟩ := b5 hc2
        refine ⟨by rw [b5a, a5a], ?_⟩
        intro x hx
        rcases List.mem_cons.mp hx with rfl | hx
        · exact a5b
        · have := b5b x hx
          rw [a5a] at this
          exact this

/-! ## `enforceMaximumDifference`: the remote pass and the whole sweep -/

/-- One received message. -/
theorem receive_spec (part : Part) (maxDifference : ℤ) (st r : (ℕ → ℤ) × ℤ) (m : Message)
    (h : receive part maxDifference st m = some r) :
    ∃ e, part.getUp m.entity = [e] ∧
      st.2 ≤ r.2 ∧ (∀ x, r.1 x ≤ st.1 x) ∧
      (st.2 < r.2 → r.1 e < st.1 e) ∧
      (r.2 = st.2 → r.1 = st.1 ∧
        st.1 e ≤ m.timeCluster + (if m.dynamicRupture > 0 then 0 else maxDifference)) ∧
      (0 ≤ maxDifference → 0 ≤ m.timeCluster → (∀ x < part.elements.length, 0 ≤ st.1 x) →
        ∀ x < part.elements.length, 0 ≤ r.1 x) := by
  unfold receive at h
  simp only [] at h
  split at h
  · rename_i e hup
    refine ⟨e, hup, ?_⟩
    obtain ⟨d, hddef⟩ : ∃ d, d = (if m.dynamicRupture > 0 then 0 else maxDifference) := ⟨_, rfl⟩
    rw [← hddef] at h ⊢
    by_cases hgt : st.1 e > m.timeCluster + d
    · rw [if_pos hgt] at h
      have h := Option.some.inj h
      subst h
      refine ⟨by simp, ?_, ?_, ?_, ?_⟩
      · intro x
        by_cases hx : x = e
        · subst hx; simp only [setTag_same]; omega
        · simp only [setTag_other _ _ _ _ hx]; exact le_rfl
      · intro _; simp only [setTag_same]; omega
      · intro hc; simp at hc
      · intro hmax hm hcl x hx
        by_cases hxe : x = e
        · subst hxe
          simp only [setTag_same]
          have : 0 ≤ d := by rw [hddef]; split <;> omega
          omega
        · simp only [setTag_other _ _ _ _ hxe]; exact hcl x hx
    · rw [if_neg hgt] at h
      have h := Option.some.inj h
      subst h
      exact ⟨le_rfl, fun _ => le_rfl, fun hc => absurd hc (lt_irrefl _),
        fun _ => ⟨rfl, by omega⟩, fun _ _ hcl => hcl⟩
  · cases h

/-- The loop over the received messages. -/
theorem receive_fold (part : Part) (maxDifference : ℤ) :
    ∀ (msgs : List Message) (st r : (ℕ → ℤ) × ℤ),
      msgs.foldlM (receive part maxDifference) st = some r →
      st.2 ≤ r.2 ∧ (∀ x, r.1 x ≤ st.1 x) ∧
      (st.2 < r.2 → ∃ e < part.elements.length, r.1 e < st.1 e) ∧
      (r.2 = st.2 → r.1 = st.1 ∧
        ∀ m ∈ msgs, ∃ e, part.getUp m.entity = [e] ∧
          st.1 e ≤ m.timeCluster + (if m.dynamicRupture > 0 then 0 else maxDifference)) ∧
      (0 ≤ maxDifference → (∀ m ∈ msgs, 0 ≤ m.timeCluster) →
        (∀ x < part.elements.length, 0 ≤ st.1 x) → ∀ x < part.elements.length, 0 ≤ r.1 x) := by
  intro msgs
  induction msgs with
  | nil =>
    intro st r h
    simp only [List.foldlM_nil] at h
    cases h
    exact ⟨le_rfl, fun _ => le_rfl, fun hc => absurd hc (lt_irrefl _), fun _ => ⟨rfl, by simp⟩,
      fun _ _ h => h⟩
  | cons m rest ih =>
    intro st r h
    simp only [List.foldlM_cons] at h
    cases hmid : receive part maxDifference st m with
    | none => rw [hmid] at h; cases h
    | some mid =>
      rw [hmid] at h
      simp only [Option.bind_eq_bind, Option.some_bind] at h
      obtain ⟨e, hup, a1, a2, a3, a5, a6⟩ := receive_spec part maxDifference st mid m hmid
      obtain ⟨b1, b2, b3, b5, b6⟩ := ih mid r h
      have he : e < part.elements.length :=
        ((mem_getUp part m.entity e).mp (by rw [hup]; simp)).1
      refine ⟨by omega, fun x => le_trans (b2 x) (a2 x), ?_, ?_, ?_⟩
      · intro hc
        by_cases hm : st.2 < mid.2
        · exact ⟨e, he, lt_of_le_of_lt (b2 e) (a3 hm)⟩
        · obtain ⟨x, hx, hlt⟩ := b3 (by omega)
          exact ⟨x, hx, lt_of_lt_of_le hlt (a2 x)⟩
      · intro hc
        have hc1 : mid.2 = st.2 := by omega
        have hc2 : r.2 = mid.2 := by omega
        obtain ⟨a5a, a5b⟩ := a5 hc1
        obtain ⟨b5a, b5b⟩ := b5 hc2
        refine ⟨by rw [b5a, a5a], ?_⟩
        intro x hx
        rcases List.mem_cons.mp hx with rfl | hx
        · exact ⟨e, hup, a5b⟩
        · have := b5b x hx
          rw [a5a] at this
          exact this
      · intro hmax hm hcl
        exact b6 hmax (fun x hx => hm x (by simp [hx]))
          (a6 hmax (hm m (by simp)) hcl)

/-- The cluster tag of all ranks after the local pass. -/
theorem sweepOn_eq_some {mesh : Mesh} {maxDifference : ℤ} {arrive : List Message → List Message}
    {dr cl : IntTag} {p : ℕ} {r : (ℕ → ℤ) × ℤ}
    (h : enforceMaximumDifferenceOn mesh maxDifference arrive dr cl p = some r) :
    (∀ q < mesh.length, ∃ lq, localPass (part mesh q) maxDifference (dr q) (cl q) = some lq) ∧
    ∃ l, localPass (part mesh p) maxDifference (dr p) (cl p) = some l ∧
      remotePass (part mesh p) maxDifference p
        (arrive (allSent mesh dr fun q =>
          ((localPass (part mesh q) maxDifference (dr q) (cl q)).getD (cl q, 0)).1)) l
        = some r := by
  unfold enforceMaximumDifferenceOn at h
  split at h
  · rename_i hall
    refine ⟨fun q hq => Option.isSome_iff_exists.mp (hall q hq), ?_⟩
    simp only [] at h
    rw [Option.bind_eq_some] at h
    exact h
  · cases h

theorem sweep_eq_some {mesh : Mesh} {maxDifference : ℤ} {arrive : List Message → List Message}
    {dr cl : IntTag} {res : IntTag × (ℕ → ℤ)}
    (h : enforceMaximumDifference mesh maxDifference arrive dr cl = some res) :
    (∀ p < mesh.length, enforceMaximumDifferenceOn mesh maxDifference arrive dr cl p
      = some (res.1 p, res.2 p)) ∧
    ∀ p, res.1 p = ((enforceMaximumDifferenceOn mesh maxDifference arrive dr cl p).getD
      (cl p, 0)).1 := by
  unfold enforceMaximumDifference at h
  split at h
  · rename_i hall
    have h := Option.some.inj h
    subst h
    refine ⟨fun p hp => ?_, fun p => rfl⟩
    obtain ⟨r, hr⟩ := Option.isSome_iff_exists.mp (hall p hp)
    simp [hr]
  · cases h

theorem mem_allSent (mesh : Mesh) (dr cl : IntTag) (p a f q g : ℕ)
    (ha : a < (part mesh p).elements.length) (hf : f ∈ (part mesh p).faces a)
    (ho : (part mesh p).other f = some (q, g)) :
    (⟨q, g, cl p a, dr p a⟩ : Message) ∈ allSent mesh dr cl := by
  simp only [allSent, List.mem_flatMap, List.mem_range]
  refine ⟨p, rank_lt_of_element mesh p a ha, ?_⟩
  simp only [outbox, List.mem_flatMap, List.mem_range, List.mem_filterMap]
  exact ⟨a, ha, f, hf, by simp [ho]⟩

theorem timeCluster_of_mem_allSent (mesh : Mesh) (dr cl : IntTag) (m : Message)
    (h : m ∈ allSent mesh dr cl) :
    ∃ p e, p < mesh.length ∧ e < (part mesh p).elements.length ∧ m.timeCluster = cl p e := by
  simp only [allSent, List.mem_flatMap, List.mem_range] at h
  obtain ⟨p, hp, h⟩ := h
  simp only [outbox, List.mem_flatMap, List.mem_range, List.mem_filterMap] at h
  obtain ⟨e, he, f, -, hm⟩ := h
  cases ho : (part mesh p).other f with
  | none => rw [ho] at hm; simp at hm
  | some o =>
    rw [ho] at hm
    simp only [Option.map_some', Option.some.injEq] at hm
    exact ⟨p, e, hp, he, by rw [← hm]⟩

theorem allSent_congr (mesh : Mesh) (dr cl cl' : IntTag) (h : ∀ q < mesh.length, cl q = cl' q) :
    allSent mesh dr cl = allSent mesh dr cl' := by
  unfold allSent
  have : ∀ q ∈ List.range mesh.length,
      outbox (part mesh q) (dr q) (cl q) = outbox (part mesh q) (dr q) (cl' q) := by
    intro q hq
    rw [h q (List.mem_range.mp hq)]
  simp only [List.flatMap_def]
  rw [List.map_congr_left this]

theorem gts_fst_of_length_le (mesh : Mesh) (dr cl : IntTag) (p : ℕ) (hp : mesh.length ≤ p) :
    (enforceDynamicRuptureGTS mesh dr cl).1 p = cl p := by
  simp [enforceDynamicRuptureGTS, gtsAssign, part_of_length_le mesh p hp]

/-- At a fixed point `enforceDynamicRuptureGTS` returns the cluster tag it was given. -/
theorem FixedPoint.gts_eq {mesh : Mesh} {maxDifference : ℤ}
    {arrive : List Message → List Message} {dr cl : IntTag}
    (hfix : FixedPoint mesh maxDifference arrive dr cl) :
    (enforceDynamicRuptureGTS mesh dr cl).1 = cl := by
  funext p
  by_cases hp : p < mesh.length
  · exact (gts_zero mesh dr cl p (hfix.1 p hp)).1
  · exact gts_fst_of_length_le mesh dr cl p (by omega)

/-- A sweep that reports no reduction on any rank has found every comparison of
the local pass and of the remote pass satisfied. -/
theorem sweep_zero {mesh : Mesh} {maxDifference : ℤ} {arrive : List Message → List Message}
    {dr cl : IntTag} {res : IntTag × (ℕ → ℤ)} (hmax : 0 ≤ maxDifference)
    (h : enforceMaximumDifference mesh maxDifference arrive dr cl = some res)
    (hz : ∀ p < mesh.length, res.2 p = 0) :
    ∀ p < mesh.length,
      (∀ e < (part mesh p).elements.length, ∀ f ∈ (part mesh p).faces e,
        (part mesh p).regular f → (part mesh p).other f = none →
        ∃ e0 e1, (part mesh p).getUp f = [e0, e1] ∧
          cl p e ≤ cl p (if e0 = e then e1 else e0) + maxDifference) ∧
      (∀ m ∈ arrive (allSent mesh dr cl), m.peer = p →
        ∃ e, (part mesh p).getUp m.entity = [e] ∧
          cl p e ≤ m.timeCluster + (if m.dynamicRupture > 0 then 0 else maxDifference)) := by
  obtain ⟨hon, -⟩ := sweep_eq_some h
  -- on every rank the local pass counts nothing and writes nothing
  have hlocal : ∀ q < mesh.length, ∃ l, localPass (part mesh q) maxDifference (dr q) (cl q)
      = some l ∧ l.2 = 0 ∧ l.1 = cl q ∧
      remotePass (part mesh q) maxDifference q
        (arrive (allSent mesh dr fun q =>
          ((localPass (part mesh q) maxDifference (dr q) (cl q)).getD (cl q, 0)).1)) l
        = some (res.1 q, res.2 q) := by
    intro q hq
    obtain ⟨-, l, hl, hrem⟩ := sweepOn_eq_some (hon q hq)
    obtain ⟨a1, -, -, a5, -⟩ := localPass_fold (part mesh q) maxDifference (dr q) hmax _ _ l hl
    obtain ⟨b1, -, -, -, -⟩ := receive_fold (part mesh q) maxDifference _ _ _ hrem
    simp only at a1 b1
    rw [hz q hq] at b1
    have hl0 : l.2 = 0 := by omega
    exact ⟨l, hl, hl0, (a5 hl0).1, hrem⟩
  have hafter : allSent mesh dr (fun q =>
      ((localPass (part mesh q) maxDifference (dr q) (cl q)).getD (cl q, 0)).1)
      = allSent mesh dr cl := by
    apply allSent_congr
    intro q hq
    obtain ⟨l, hl, -, hl1, -⟩ := hlocal q hq
    simp [hl, hl1]
  intro p hp
  obtain ⟨l, hl, hl0, hl1, hrem⟩ := hlocal p hp
  obtain ⟨-, -, -, a5, -⟩ := localPass_fold (part mesh p) maxDifference (dr p) hmax _ _ l hl
  obtain ⟨-, -, -, b5, -⟩ := receive_fold (part mesh p) maxDifference _ _ _ hrem
  constructor
  · intro e he f hf hreg ho
    exact (a5 hl0).2 e (List.mem_range.mpr he) f hf hreg ho
  · intro m hm hpeer
    have hb := (b5 (by simp only; rw [hz p hp, hl0])).2 m (by
      rw [hafter]
      simp [List.mem_filter, hm, hpeer])
    rw [hl1] at hb
    exact hb

theorem abs_le_of_both (x y d : ℤ) (h1 : x ≤ y + d) (h2 : y ≤ x + d) : |x - y| ≤ d := by
  rw [abs_le]
  constructor <;> omega

/-- **C3**, amended.  At a fixed point of the normalisation loop (with
`maxDifference ≥ 0`, and every packed message delivered), the clusters of two
elements differ by at most `maxDifference` when they share a local face that has
no boundary tag or one of the tags -1, 3, 6, or when they lie on the two sides of
a partition-boundary face.  (A local face with another boundary tag, such as 1 or
5, is skipped by the sweep.) -/
theorem fixedPoint_difference (mesh : Mesh) (maxDifference : ℤ)
    (arrive : List Message → List Message) (dr cl : IntTag)
    (hmax : 0 ≤ maxDifference) (harrive : ∀ l, (arrive l).Perm l)
    (hfix : FixedPoint mesh maxDifference arrive dr cl) :
    (∀ p a b f, a < (part mesh p).elements.length → b < (part mesh p).elements.length →
      a ≠ b → f ∈ (part mesh p).faces a → f ∈ (part mesh p).faces b →
      (part mesh p).other f = none → (part mesh p).regular f →
      |cl p a - cl p b| ≤ maxDifference) ∧
    (∀ p q a b f g, a < (part mesh p).elements.length → b < (part mesh q).elements.length →
      f ∈ (part mesh p).faces a → g ∈ (part mesh q).faces b →
      (part mesh p).other f = some (q, g) → (part mesh q).other g = some (p, f) →
      |cl p a - cl q b| ≤ maxDifference) := by
  have hgts := hfix.gts_eq
  obtain ⟨-, res, hres, hz⟩ := hfix
  rw [hgts] at hres
  have hsweep := sweep_zero hmax hres hz
  constructor
  · intro p a b f ha hb hab hfa hfb ho hreg
    have hp := rank_lt_of_element mesh p a ha
    obtain ⟨hloc, -⟩ := hsweep p hp
    obtain ⟨e0, e1, hup, hle⟩ := hloc a ha f hfa hreg ho
    obtain ⟨e0', e1', hup', hle'⟩ := hloc b hb f hfb hreg ho
    rw [neighbour_eq _ f a b e0 e1 hup ha hb hab hfa hfb] at hle
    rw [neighbour_eq _ f b a e0' e1' hup' hb ha (Ne.symm hab) hfb hfa] at hle'
    exact abs_le_of_both _ _ _ hle hle'
  · -- a message of `a` reaches `b`, and a message of `b` reaches `a`
    have hone : ∀ p q a b f g, a < (part mesh p).elements.length →
        b < (part mesh q).elements.length → f ∈ (part mesh p).faces a →
        g ∈ (part mesh q).faces b → (part mesh p).other f = some (q, g) →
        cl q b ≤ cl p a + maxDifference := by
      intro p q a b f g ha hb hfa hgb ho
      have hq := rank_lt_of_element mesh q b hb
      obtain ⟨-, hrem⟩ := hsweep q hq
      have hm : (⟨q, g, cl p a, dr p a⟩ : Message) ∈ arrive (allSent mesh dr cl) :=
        (harrive _).symm.subset (mem_allSent mesh dr cl p a f q g ha hfa ho)
      obtain ⟨e, hup, hle⟩ := hrem _ hm rfl
      have hbe : b ∈ (part mesh q).getUp g := (mem_getUp _ g b).mpr ⟨hb, hgb⟩
      rw [hup] at hbe
      have hbe' : b = e := by simpa using hbe
      subst hbe'
      simp only at hle
      split at hle <;> omega
    intro p q a b f g ha hb hfa hgb ho ho'
    exact abs_le_of_both _ _ _ (hone q p b a g f hb ha hgb hfa ho')
      (hone p q a b f g ha hb hfa hgb ho)

/-- Counterexample to **C3** as stated: two elements share the local face 0, which
carries boundary tag 5 and so is not a dynamic-rupture face; with the clusters 0
and 5 the state is a fixed point for `maxDifference = 1`, and the clusters differ
by 5. -/
theorem fixedPoint_skips_tagged_face :
    FixedPoint [absorbingInside] 1 id (countDynamicRuptureFaces [absorbingInside]).1
      (fun _ e => if e = 0 then 0 else 5) ∧
    (0 ∈ (part [absorbingInside] 0).faces 0 ∧ 0 ∈ (part [absorbingInside] 0).faces 1 ∧
      (part [absorbingInside] 0).boundary 0 = some 5 ∧
      (part [absorbingInside] 0).other 0 = none) ∧
    ¬ |(fun (_ e : ℕ) => if e = 0 then (0 : ℤ) else 5) 0 0
        - (fun (_ e : ℕ) => if e = 0 then (0 : ℤ) else 5) 0 1| ≤ 1 := by
  refine ⟨FixedPoint.of_eval _ _ _ _ _ (by decide) (by decide), by decide, by decide⟩

/-- The scenario with the clusters 0, 1 on rank 0 and 1, 0 on rank 1 is a fixed
point for `maxDifference = 1`. -/
theorem scenario_fixedPoint :
    FixedPoint scenario 1 id (countDynamicRuptureFaces scenario).1
      (fun p e => if p = 0 then (if e = 0 then 0 else 1) else (if e = 0 then 1 else 0)) :=
  FixedPoint.of_eval _ _ _ _ _ (by decide) (by decide)

theorem fixedPoint_difference_witness :
    (∀ p a b f, a < (part scenario p).elements.length →
      b < (part scenario p).elements.length →
      a ≠ b → f ∈ (part scenario p).faces a → f ∈ (part scenario p).faces b →
      (part scenario p).other f = none → (part scenario p).regular f →
      |(fun (p e : ℕ) => if p = 0 then (if e = 0 then (0 : ℤ) else 1)
            else (if e = 0 then 1 else 0)) p a
        - (fun (p e : ℕ) => if p = 0 then (if e = 0 then (0 : ℤ) else 1)
            else (if e = 0 then 1 else 0)) p b| ≤ 1) ∧
    (∀ p q a b f g, a < (part scenario p).elements.length →
      b < (part scenario q).elements.length →
      f ∈ (part scenario p).faces a → g ∈ (part scenario q).faces b →
      (part scenario p).other f = some (q, g) → (part scenario q).other g = some (p, f) →
      |(fun (p e : ℕ) => if p = 0 then (if e = 0 then (0 : ℤ) else 1)
            else (if e = 0 then 1 else 0)) p a
        - (fun (p e : ℕ) => if p = 0 then (if e = 0 then (0 : ℤ) else 1)
            else (if e = 0 then 1 else 0)) q b| ≤ 1) :=
  fixedPoint_difference scenario 1 id (countDynamicRuptureFaces scenario).1 _
    (by decide) (fun l => List.Perm.refl l) scenario_fixedPoint

/-! ## The normalisation loop -/

/-- `enforceDynamicRuptureGTS` lowers clusters and counts what it lowers. -/
theorem gts_decr (mesh : Mesh) (dr cl : IntTag) :
    (∀ p x, (enforceDynamicRuptureGTS mesh dr cl).1 p x ≤ cl p x) ∧
    (∀ p, 0 ≤ (enforceDynamicRuptureGTS mesh dr cl).2 p) ∧
    (∀ p, 0 < (enforceDynamicRuptureGTS mesh dr cl).2 p →
      ∃ e < (part mesh p).elements.length, (enforceDynamicRuptureGTS mesh dr cl).1 p e < cl p e) ∧
    ((∀ p < mesh.length, ∀ e < (part mesh p).elements.length, 0 ≤ cl p e) →
      ∀ p < mesh.length, ∀ e < (part mesh p).elements.length,
        0 ≤ (enforceDynamicRuptureGTS mesh dr cl).1 p e) := by
  have hfold := fun p => gtsAssign_fold (dr p) (globalMinCluster mesh dr cl)
    (List.range (part mesh p).elements.length) (cl p, 0)
  have hle : ∀ p, ∀ e ∈ List.range (part mesh p).elements.length, dr p e > 0 →
      globalMinCluster mesh dr cl ≤ cl p e :=
    fun p e he hdr => globalMinCluster_le mesh dr cl p e (List.mem_range.mp he) hdr
  refine ⟨?_, ?_, ?_, ?_⟩
  · intro p x
    exact ((hfold p).2.2.2.2.1 (hle p)).1 x
  · intro p
    exact (hfold p).1
  · intro p hpos
    obtain ⟨e, he, hlt⟩ := ((hfold p).2.2.2.2.1 (hle p)).2 hpos
    exact ⟨e, List.mem_range.mp he, hlt⟩
  · intro hnn p hp e he
    rcases (hfold p).2.2.1 e with h | h
    · show 0 ≤ (gtsAssign (part mesh p) (dr p) (cl p) (globalMinCluster mesh dr cl)).1 e
      unfold gtsAssign
      rw [h]
      exact hnn p hp e he
    · show 0 ≤ (gtsAssign (part mesh p) (dr p) (cl p) (globalMinCluster mesh dr cl)).1 e
      unfold gtsAssign
      rw [h]
      exact globalMinCluster_nonneg mesh dr cl hnn

/-- A sweep of `enforceMaximumDifference` lowers clusters and counts what it
lowers. -/
theorem sweep_decr {mesh : Mesh} {maxDifference : ℤ} {arrive : List Message → List Message}
    {dr cl : IntTag} {res : IntTag × (ℕ → ℤ)} (hmax : 0 ≤ maxDifference)
    (harrive : ∀ l, (arrive l).Perm l)
    (h : enforceMaximumDifference mesh maxDifference arrive dr cl = some res) :
    (∀ p x, res.1 p x ≤ cl p x) ∧
    (∀ p < mesh.length, 0 ≤ res.2 p) ∧
    (∀ p < mesh.length, 0 < res.2 p →
      ∃ e < (part mesh p).elements.length, res.1 p e < cl p e) ∧
    ((∀ p < mesh.length, ∀ e < (part mesh p).elements.length, 0 ≤ cl p e) →
      ∀ p < mesh.length, ∀ e < (part mesh p).elements.length, 0 ≤ res.1 p e) := by
  obtain ⟨hon, hfst⟩ := sweep_eq_some h
  have hrank : ∀ p (r : (ℕ → ℤ) × ℤ),
      enforceMaximumDifferenceOn mesh maxDifference arrive dr cl p = some r →
      (∀ x, r.1 x ≤ cl p x) ∧ 0 ≤ r.2 ∧
      (0 < r.2 → ∃ e < (part mesh p).elements.length, r.1 e < cl p e) ∧
      ((∀ p < mesh.length, ∀ e < (part mesh p).elements.length, 0 ≤ cl p e) →
        p < mesh.length → ∀ e < (part mesh p).elements.length, 0 ≤ r.1 e) := by
    intro p r hr
    obtain ⟨hall, l, hl, hrem⟩ := sweepOn_eq_some hr
    obtain ⟨a1, a2, a3, -, a6⟩ :=
      localPass_fold (part mesh p) maxDifference (dr p) hmax _ _ l hl
    obtain ⟨b1, b2, b3, -, b6⟩ := receive_fold (part mesh p) maxDifference _ _ _ hrem
    simp only at a1 a2 a3 a6
    refine ⟨fun x => le_trans (b2 x) (a2 x), by omega, ?_, ?_⟩
    · intro hpos
      by_cases hl0 : 0 < l.2
      · obtain ⟨e, he, hlt⟩ := a3 hl0
        exact ⟨e, List.mem_range.mp he, lt_of_le_of_lt (b2 e) hlt⟩
      · obtain ⟨e, he, hlt⟩ := b3 (by omega)
        exact ⟨e, he, lt_of_lt_of_le hlt (a2 e)⟩
    · intro hnn hp e he
      refine b6 hmax ?_ (a6 (hnn p hp)) e he
      intro m hm
      have hm' : m ∈ allSent mesh dr fun q =>
          ((localPass (part mesh q) maxDifference (dr q) (cl q)).getD (cl q, 0)).1 :=
        (harrive _).subset (List.mem_filter.mp hm).1
      obtain ⟨q, e', hq, he', hmt⟩ := timeCluster_of_mem_allSent _ _ _ m hm'
      rw [hmt]
      obtain ⟨lq, hlq⟩ := hall q hq
      simp only [hlq, Option.getD_some]
      exact (localPass_fold (part mesh q) maxDifference (dr q) hmax _ _ lq hlq).2.2.2.2
        (hnn q hq) e' he'
  refine ⟨?_, ?_, ?_, ?_⟩
  · intro p x
    rw [hfst p]
    cases hr : enforceMaximumDifferenceOn mesh maxDifference arrive dr cl p with
    | none => simp
    | some r => simpa using (hrank p r hr).1 x
  · intro p hp
    exact (hrank p _ (hon p hp)).2.1
  · intro p hp hpos
    exact (hrank p _ (hon p hp)).2.2.1 hpos
  · intro hnn p hp e he
    exact (hrank p _ (hon p hp)).2.2.2 hnn hp e he

theorem receive_fold_frame (part : Part) (maxDifference : ℤ) :
    ∀ (msgs : List Message) (st r : (ℕ → ℤ) × ℤ),
      msgs.foldlM (receive part maxDifference) st = some r →
      ∀ x, part.elements.length ≤ x → r.1 x = st.1 x := by
  intro msgs
  induction msgs with
  | nil =>
    intro st r h x _
    simp only [List.foldlM_nil] at h
    cases h
    rfl
  | cons m rest ih =>
    intro st r h x hx
    simp only [List.foldlM_cons] at h
    cases hmid : receive part maxDifference st m with
    | none => rw [hmid] at h; cases h
    | some mid =>
      rw [hmid] at h
      simp only [Option.bind_eq_bind, Option.some_bind] at h
      rw [ih mid r h x hx]
      unfold receive at hmid
      simp only [] at hmid
      split at hmid
      · rename_i e hup
        have he : e < part.elements.length :=
          ((mem_getUp part m.entity e).mp (by rw [hup]; simp)).1
        obtain ⟨d, hddef⟩ : ∃ d, d = (if m.dynamicRupture > 0 then 0 else maxDifference) :=
          ⟨_, rfl⟩
        rw [← hddef] at hmid
        by_cases hgt : st.1 e > m.timeCluster + d
        · rw [if_pos hgt] at hmid
          have hmid := Option.some.inj hmid
          subst hmid
          exact setTag_other _ _ _ _ (by omega)
        · rw [if_neg hgt] at hmid
          have hmid := Option.some.inj hmid
          subst hmid
          rfl
      · cases hmid

theorem localNumDrFaces_fold (dr : ℕ → ℤ) (l : List ℕ) (n : ℤ) :
    n ≤ l.foldl (fun n e => if dr e > 0 then n + 1 else n) n ∧
    (l.foldl (fun n e => if dr e > 0 then n + 1 else n) n ≤ n → ∀ e ∈ l, ¬ dr e > 0) := by
  induction l generalizing n with
  | nil => exact ⟨le_rfl, by simp⟩
  | cons a rest ih =>
    simp only [List.foldl_cons]
    by_cases ha : dr a > 0
    · rw [if_pos ha]
      obtain ⟨h1, -⟩ := ih (n + 1)
      exact ⟨by omega, fun hle => by omega⟩
    · rw [if_neg ha]
      obtain ⟨h1, h2⟩ := ih n
      refine ⟨h1, fun hle e he => ?_⟩
      rcases List.mem_cons.mp he with rfl | he
      · exact ha
      · exact h2 hle e he

theorem list_sum_nonneg_le (l : List ℤ) (h : ∀ x ∈ l, 0 ≤ x) : ∀ x ∈ l, x ≤ l.sum := by
  induction l with
  | nil => simp
  | cons a rest ih =>
    intro x hx
    rw [List.sum_cons]
    have ha := h a (by simp)
    have hrest : 0 ≤ rest.sum := List.sum_nonneg (fun y hy => h y (by simp [hy]))
    rcases List.mem_cons.mp hx with rfl | hx
    · omega
    · have := ih (fun y hy => h y (by simp [hy])) x hx
      omega

/-- Without an element with `dynamicRupture > 0`, that is when `globalNumDrFaces` is
not positive, `enforceDynamicRuptureGTS` would change and count nothing. -/
theorem gts_of_no_fault (mesh : Mesh) (cl : IntTag)
    (h : ¬ (countDynamicRuptureFaces mesh).2 > 0) :
    enforceDynamicRuptureGTS mesh (countDynamicRuptureFaces mesh).1 cl = (cl, fun _ => 0) := by
  have hnone : ∀ p, ∀ e ∈ List.range (part mesh p).elements.length,
      ¬ (part mesh p).dynamicRupture e > 0 := by
    intro p e he
    by_cases hp : p < mesh.length
    · have hle : localNumDrFaces (part mesh p) ≤ 0 := by
        have hmem : localNumDrFaces (part mesh p) ∈
            (List.range mesh.length).map fun p => localNumDrFaces (part mesh p) :=
          List.mem_map.mpr ⟨p, List.mem_range.mpr hp, rfl⟩
        have := list_sum_nonneg_le _ (fun x hx => by
          obtain ⟨q, -, rfl⟩ := List.mem_map.mp hx
          exact (localNumDrFaces_fold _ _ 0).1) _ hmem
        have h' : (countDynamicRuptureFaces mesh).2 ≤ 0 := by omega
        exact le_trans this h'
      exact (localNumDrFaces_fold _ _ 0).2 hle e he
    · rw [part_of_length_le mesh p (by omega)] at he
      simp at he
  have hfold : ∀ (dr : ℕ → ℤ) (gmin : ℤ) (l : List ℕ) (st : (ℕ → ℤ) × ℤ),
      (∀ e ∈ l, ¬ dr e > 0) →
      l.foldl (fun st e =>
        if dr e > 0 ∧ st.1 e ≠ gmin then (setTag st.1 e gmin, st.2 + 1) else st) st = st := by
    intro dr gmin l
    induction l with
    | nil => intro st _; rfl
    | cons a rest ih =>
      intro st hl
      simp only [List.foldl_cons]
      rw [if_neg (fun hc => hl a (by simp) hc.1)]
      exact ih st (fun e he => hl e (by simp [he]))
  unfold enforceDynamicRuptureGTS gtsAssign
  have hall : ∀ p, (List.range (part mesh p).elements.length).foldl
      (fun st e =>
        if (countDynamicRuptureFaces mesh).1 p e > 0 ∧
            st.1 e ≠ globalMinCluster mesh (countDynamicRuptureFaces mesh).1 cl then
          (setTag st.1 e (globalMinCluster mesh (countDynamicRuptureFaces mesh).1 cl), st.2 + 1)
        else st) ((cl p, 0) : (ℕ → ℤ) × ℤ) = (cl p, 0) :=
    fun p => hfold _ _ _ _ (hnone p)
  simp only [hall]

/-- A sweep that counts nothing on any rank returns the cluster tag it was given. -/
theorem sweep_zero_eq {mesh : Mesh} {maxDifference : ℤ} {arrive : List Message → List Message}
    {dr cl : IntTag} {res : IntTag × (ℕ → ℤ)} (hmax : 0 ≤ maxDifference)
    (h : enforceMaximumDifference mesh maxDifference arrive dr cl = some res)
    (hz : ∀ p < mesh.length, res.2 p = 0) : res.1 = cl := by
  obtain ⟨hon, hfst⟩ := sweep_eq_some h
  funext p
  by_cases hp : p < mesh.length
  · obtain ⟨-, l, hl, hrem⟩ := sweepOn_eq_some (hon p hp)
    obtain ⟨a1, -, -, a5, -⟩ := localPass_fold (part mesh p) maxDifference (dr p) hmax _ _ l hl
    obtain ⟨b1, -, -, b5, -⟩ := receive_fold (part mesh p) maxDifference _ _ _ hrem
    simp only at a1 b1 b5
    rw [hz p hp] at b1 b5
    have hl0 : l.2 = 0 := by omega
    rw [(b5 hl0.symm).1, (a5 hl0).1]
  · rw [hfst p]
    cases hr : enforceMaximumDifferenceOn mesh maxDifference arrive dr cl p with
    | none => rfl
    | some r =>
      obtain ⟨-, l, hl, hrem⟩ := sweepOn_eq_some hr
      have hempty := part_of_length_le mesh p (by omega)
      have hl' : l = (cl p, 0) := by
        unfold localPass at hl
        rw [hempty] at hl
        simpa using hl.symm
      funext x
      have := receive_fold_frame (part mesh p) maxDifference _ _ _ hrem x (by simp [hempty])
      simp only [Option.getD_some]
      rw [this, hl']

/-- An iteration that reports no reduction starts from a fixed point and returns
the cluster tag it started from. -/
theorem normalizeStep_zero {mesh : Mesh} {maxDifference : ℤ}
    {arrive : List Message → List Message} {cl cl' : IntTag} {reductions : ℤ}
    (hmax : 0 ≤ maxDifference) (hred : ¬ reductions > 0)
    (h : normalizeStep mesh maxDifference arrive (countDynamicRuptureFaces mesh).2
      (countDynamicRuptureFaces mesh).1 cl = some (cl', reductions)) :
    FixedPoint mesh maxDifference arrive (countDynamicRuptureFaces mesh).1 cl ∧ cl' = cl := by
  unfold normalizeStep at h
  simp only [] at h
  obtain ⟨g1, g2, g3, -⟩ := gts_decr mesh (countDynamicRuptureFaces mesh).1 cl
  have hgts : (if (countDynamicRuptureFaces mesh).2 > 0 then
        enforceDynamicRuptureGTS mesh (countDynamicRuptureFaces mesh).1 cl
      else (cl, fun _ => 0))
      = enforceDynamicRuptureGTS mesh (countDynamicRuptureFaces mesh).1 cl := by
    split
    · rfl
    · rename_i hno
      exact (gts_of_no_fault mesh cl hno).symm
  rw [hgts] at h
  cases hs : enforceMaximumDifference mesh maxDifference arrive (countDynamicRuptureFaces mesh).1
      (enforceDynamicRuptureGTS mesh (countDynamicRuptureFaces mesh).1 cl).1 with
  | none => rw [hs] at h; cases h
  | some smooth =>
    rw [hs] at h
    simp only [Option.map_some', Option.some.injEq, Prod.mk.injEq] at h
    obtain ⟨hcl, hsum⟩ := h
    have hzero : ∀ p < mesh.length,
        (enforceDynamicRuptureGTS mesh (countDynamicRuptureFaces mesh).1 cl).2 p = 0 ∧
        smooth.2 p = 0 := by
      intro p hp
      by_contra hne
      have hs2 : ∀ q < mesh.length, 0 ≤ smooth.2 q := by
        intro q hq
        obtain ⟨hon, -⟩ := sweep_eq_some hs
        obtain ⟨-, l, hl, hrem⟩ := sweepOn_eq_some (hon q hq)
        have a1 := (localPass_fold (part mesh q) maxDifference _ hmax _ _ l hl).1
        have b1 := (receive_fold (part mesh q) maxDifference _ _ _ hrem).1
        simp only at a1 b1
        omega
      have hmem : (enforceDynamicRuptureGTS mesh (countDynamicRuptureFaces mesh).1 cl).2 p
          + smooth.2 p ∈ (List.range mesh.length).map fun p =>
            (enforceDynamicRuptureGTS mesh (countDynamicRuptureFaces mesh).1 cl).2 p
              + smooth.2 p :=
        List.mem_map.mpr ⟨p, List.mem_range.mpr hp, rfl⟩
      have hle := list_sum_nonneg_le _ (fun x hx => by
        obtain ⟨q, hq, rfl⟩ := List.mem_map.mp hx
        exact add_nonneg (g2 q) (hs2 q (List.mem_range.mp hq))) _ hmem
      have := g2 p
      have := hs2 p hp
      unfold allreduceSum at hsum
      rw [hsum] at hle
      apply hne
      constructor <;> omega
    have hfix : FixedPoint mesh maxDifference arrive (countDynamicRuptureFaces mesh).1 cl :=
      ⟨fun p hp => (hzero p hp).1, smooth, hs, fun p hp => (hzero p hp).2⟩
    refine ⟨hfix, ?_⟩
    rw [← hcl, sweep_zero_eq hmax hs (fun p hp => (hzero p hp).2)]
    exact hfix.gts_eq

/-- The cluster tag with which the loop of `computeVertexWeights` is left is a fixed
point. -/
theorem normalizeLoop_done_fixedPoint {mesh : Mesh} {maxDifference : ℤ}
    {arrive : List Message → List Message} (hmax : 0 ≤ maxDifference) :
    ∀ (fuel iterations : ℕ) (cl cl' : IntTag) (k : ℕ),
      normalizeLoop mesh maxDifference arrive (countDynamicRuptureFaces mesh).2
        (countDynamicRuptureFaces mesh).1 fuel iterations cl = Run.done (cl', k) →
      FixedPoint mesh maxDifference arrive (countDynamicRuptureFaces mesh).1 cl' := by
  intro fuel
  induction fuel with
  | zero => intro _ _ _ _ h; cases h
  | succ fuel ih =>
    intro iterations cl cl' k h
    unfold normalizeLoop at h
    cases hstep : normalizeStep mesh maxDifference arrive (countDynamicRuptureFaces mesh).2
        (countDynamicRuptureFaces mesh).1 cl with
    | none => rw [hstep] at h; cases h
    | some r =>
      obtain ⟨c, reductions⟩ := r
      rw [hstep] at h
      simp only at h
      by_cases hpos : reductions > 0
      · rw [if_pos hpos] at h
        exact ih _ _ _ _ h
      · rw [if_neg hpos] at h
        obtain ⟨hfix, hc⟩ := normalizeStep_zero hmax hpos hstep
        have hcl' : c = cl' := by
          have := Run.done.inj h
          exact (Prod.mk.inj this).1
        rw [← hcl', hc]
        exact hfix

/-! ## The offset table: registration in order -/

theorem Group.new_length (P : ℕ) : (Group.new P).m_offset.length = P + 1 := by
  simp [Group.new]

theorem Group.new_getElem? (P i : ℕ) (h : i ≤ P) :
    (Group.new P).m_offset[i]? = some (if i = 0 then 0 else SIZE_MAX) := by
  simp [Group.new, List.getElem?_range (Nat.lt_succ_of_le h)]

theorem setSizes_spec (setOffset : ℕ → Bool) :
    ∀ (rest : List ℕ) (g : Group) (k acc : ℕ),
      g.m_offset.length = k + rest.length + 1 →
      g.m_offset[k]? = some acc →
      (∀ i, k < i → i < g.m_offset.length → g.m_offset[i]? = some SIZE_MAX) →
      acc + rest.sum < 2 ^ 64 →
      ∃ g', g.setSizes setOffset k rest = some g' ∧
        g'.m_offset.length = g.m_offset.length ∧
        (∀ i < k, g'.m_offset[i]? = g.m_offset[i]?) ∧
        (∀ j ≤ rest.length, g'.m_offset[k + j]? = some (acc + (rest.take j).sum)) := by
  intro rest
  induction rest with
  | nil =>
    intro g k acc _ hk _ _
    refine ⟨g, rfl, rfl, fun _ _ => rfl, ?_⟩
    intro j hj
    have : j = 0 := by simpa using hj
    subst this
    simpa using hk
  | cons s rest ih =>
    intro g k acc hlen hk hunset hsum
    simp only [List.sum_cons, List.length_cons] at hsum hlen
    by_cases hacc : acc = SIZE_MAX
    · -- the predecessor's offset collides with the mark: nothing is written
      have hs : s = 0 ∧ rest.sum = 0 := by
        rw [hacc] at hsum; simp only [SIZE_MAX] at hsum; omega
      have hstep : g.setSize setOffset k s = some (false, g) := by
        simp [Group.setSize, hk, hacc]
      have hk1 : g.m_offset[k + 1]? = some SIZE_MAX := hunset (k + 1) (by omega) (by omega)
      obtain ⟨g', hrun, hl, hlow, hhigh⟩ := ih g (k + 1) SIZE_MAX (by omega) hk1
        (fun i hi hi' => hunset i (by omega) hi') (by rw [hs.2]; simp [SIZE_MAX])
      refine ⟨g', ?_, hl, fun i hi => hlow i (by omega), ?_⟩
      · simp [Group.setSizes, hstep, hrun]
      · intro j hj
        cases j with
        | zero => simpa [hk] using hlow k (by omega)
        | succ j =>
          have := hhigh j (by simpa using hj)
          have e : k + (j + 1) = k + 1 + j := by omega
          rw [e, this, hacc, hs.1]
          simp
    · have hlt : k + 1 < g.m_offset.length := by omega
      have hmod : (acc + s) % 18446744073709551616 = acc + s := Nat.mod_eq_of_lt (by omega)
      have hstep : g.setSize setOffset k s =
          some (setOffset (k + 1), ⟨g.m_offset.set (k + 1) (acc + s), g.persisted ++ [k + 1]⟩) := by
        simp [Group.setSize, hk, hacc, hlt, hmod]
      obtain ⟨g', hrun, hl, hlow, hhigh⟩ :=
        ih ⟨g.m_offset.set (k + 1) (acc + s), g.persisted ++ [k + 1]⟩ (k + 1) (acc + s)
          (by simp; omega)
          (by simp [List.getElem?_set_self hlt])
          (fun i hi hi' => by
            have hne : k + 1 ≠ i := by omega
            simp only [List.length_set] at hi'
            simp only [List.getElem?_set_ne hne]
            exact hunset i (by omega) hi')
          (by omega)
      refine ⟨g', ?_, by simpa using hl, ?_, ?_⟩
      · simp [Group.setSizes, hstep, hrun]
      · intro i hi
        have hne : k + 1 ≠ i := by omega
        simpa [List.getElem?_set_ne hne] using hlow i (by omega)
      · intro j hj
        cases j with
        | zero =>
          have hne : k + 1 ≠ k := by omega
          simpa [List.getElem?_set_ne hne, hk] using hlow k (by omega)
        | succ j =>
          have := hhigh j (by simpa using hj)
          have e : k + (j + 1) = k + 1 + j := by omega
          rw [e, this]
          simp [Nat.add_assoc]

/-- **C6.** Without `PARALLEL`: on a fresh table with `P` partitions, after
`setSize(0, s0)`, ..., `setSize(P-1, s(P-1))` in this order (whatever the hook
returns, every cumulative sum representable in `size_t`), `offset[i]` is the sum
of the sizes `s_j` with `j < i` for every `i` in `0..P`, and `size(i) = s_i` for
every `i < P`. -/
theorem setSize_in_order (setOffset : ℕ → Bool) (sizes : List ℕ)
    (hsum : sizes.sum < 2 ^ 64) :
    ∃ g, (Group.new sizes.length).setSizes setOffset 0 sizes = some g ∧
      g.m_offset.length = sizes.length + 1 ∧
      (∀ i ≤ sizes.length, g.m_offset[i]? = some (sizes.take i).sum) ∧
      (∀ i, ∀ h : i < sizes.length, g.size i = some sizes[i]) := by
  obtain ⟨g, hrun, hl, -, hhigh⟩ := setSizes_spec setOffset sizes (Group.new sizes.length) 0 0
    (by simp [Group.new_length])
    (by simpa using Group.new_getElem? sizes.length 0 (Nat.zero_le _))
    (fun i hi hi' => by
      rw [Group.new_length] at hi'
      rw [Group.new_getElem? _ i (by omega), if_neg (by omega)])
    (by simpa using hsum)
  refine ⟨g, hrun, by rw [hl, Group.new_length], ?_, ?_⟩
  · intro i hi
    simpa using hhigh i hi
  · intro i hi
    have h1 := hhigh (i + 1) hi
    have h0 := hhigh i (by omega)
    simp only [zero_add] at h1 h0
    have hle : (sizes.take (i + 1)).sum ≤ sizes.sum :=
      List.Sublist.sum_le_sum (List.take_sublist _ _) (fun _ _ => Nat.zero_le _)
    have htake : (sizes.take (i + 1)).sum = (sizes.take i).sum + sizes[i] := by
      rw [List.take_succ, List.getElem?_eq_getElem hi, List.sum_append]
      simp [Option.toList]
    simp only [Group.size, h1, h0, htake]
    congr 1
    have : (List.take i sizes).sum + sizes[i] + 2 ^ 64 - (List.take i sizes).sum
        = sizes[i] + 2 ^ 64 := by omega
    rw [this, Nat.add_mod_right]
    exact Nat.mod_eq_of_lt (by omega)

theorem setSize_in_order_witness :
    ∃ g, (Group.new [5, 3, 2].length).setSizes (fun _ => true) 0 [5, 3, 2] = some g ∧
      g.m_offset.length = [5, 3, 2].length + 1 ∧
      (∀ i ≤ [5, 3, 2].length, g.m_offset[i]? = some ([5, 3, 2].take i).sum) ∧
      (∀ i, ∀ h : i < [5, 3, 2].length, g.size i = some [5, 3, 2][i]) :=
  setSize_in_order (fun _ => true) [5, 3, 2] (by decide)

/-- **C7.** Registration out of order fails and changes nothing: when
`offset[k+1]` is the mark `SIZE_MAX` (partition `k` is not registered),
`setSize(k+1, s)` returns `false` and leaves the offset table and the list of
hook calls as they were; the same holds with `PARALLEL` when `k+1` is the least
partition reported in the round. -/
theorem setSize_out_of_order (setOffset : ℕ → Bool) (g : Group) (k s : ℕ)
    (h : g.m_offset[k + 1]? = some SIZE_MAX) :
    g.setSize setOffset (k + 1) s = some (false, g) ∧
    ∀ (mpiRank : ℕ) (buf : List (ℕ × ℕ)),
      findBase buf (buf.getD mpiRank (0, 0)).1 = k + 1 →
      g.setSizeParallel setOffset mpiRank buf = some (false, g) := by
  constructor
  · simp [Group.setSize, h]
  · intro mpiRank buf hbase
    simp only [Group.setSizeParallel, hbase, h]
    simp

theorem setSize_out_of_order_witness :
    (Group.new 3).setSize (fun _ => true) (1 + 1) 7 = some (false, Group.new 3) ∧
    ∀ (mpiRank : ℕ) (buf : List (ℕ × ℕ)),
      findBase buf (buf.getD mpiRank (0, 0)).1 = 1 + 1 →
      (Group.new 3).setSizeParallel (fun _ => true) mpiRank buf = some (false, Group.new 3) :=
  setSize_out_of_order (fun _ => true) (Group.new 3) 1 7 (by decide)

/-- Counterexample to **C8** as stated: on a fresh table with two partitions the
calls `setSize(0, 5)`, `setSize(1, 3)`, `setSize(0, 10)` all succeed and leave the
table `[0, 10, 8]`, whose set entries are not monotone. -/
theorem setSize_reregistration_not_monotone :
    ∃ g, (Group.new 2).setSizeCalls (fun _ => true) [(0, 5), (1, 3), (0, 10)] = some g ∧
      g.m_offset = [0, 10, 8] ∧ ¬ SetEntriesMonotone g.m_offset := by
  refine ⟨⟨[0, 10, 8], [1, 2, 1]⟩, by decide, rfl, ?_⟩
  intro h
  have := h 1 2 10 8 (by decide) (by decide) (by decide) (by decide) (by decide)
  exact absurd this (by decide)

/-! ## The offset table: the invariant of registration in order -/

theorem SIZE_MAX_eq : SIZE_MAX = 18446744073709551615 := by
  norm_num [SIZE_MAX]

theorem registered_append_single (hist : List (ℕ × ℕ)) (p s i : ℕ) :
    registered (hist ++ [(p, s)]) i = if p = i then some s else registered hist i := by
  simp [registered, List.foldl_append]

theorem registered_foldl_of_not_mem (extra : List (ℕ × ℕ)) (i : ℕ) (r : Option ℕ)
    (h : ∀ c ∈ extra, c.1 ≠ i) :
    extra.foldl (fun r c => if c.1 = i then some c.2 else r) r = r := by
  induction extra generalizing r with
  | nil => rfl
  | cons c rest ih =>
    simp only [List.foldl_cons]
    rw [if_neg (h c (by simp))]
    exact ih r (fun x hx => h x (by simp [hx]))

theorem registered_append_of_not_mem (hist extra : List (ℕ × ℕ)) (i : ℕ)
    (h : ∀ c ∈ extra, c.1 ≠ i) :
    registered (hist ++ extra) i = registered hist i := by
  simp only [registered, List.foldl_append]
  exact registered_foldl_of_not_mem extra i _ h

theorem registered_foldl_of_mem (extra : List (ℕ × ℕ)) (p s : ℕ) (r : Option ℕ)
    (hnd : (extra.map (·.1)).Nodup) (h : (p, s) ∈ extra) :
    extra.foldl (fun r c => if c.1 = p then some c.2 else r) r = some s := by
  induction extra generalizing r with
  | nil => simp at h
  | cons c rest ih =>
    simp only [List.map_cons, List.nodup_cons] at hnd
    simp only [List.foldl_cons]
    rcases List.mem_cons.mp h with hc | hc
    · subst hc
      simp only [if_true]
      apply registered_foldl_of_not_mem
      intro x hx hxp
      exact hnd.1 (List.mem_map.mpr ⟨x, hx, hxp⟩)
    · exact ih _ hnd.2 hc

theorem registered_append_of_mem (hist extra : List (ℕ × ℕ)) (p s : ℕ)
    (hnd : (extra.map (·.1)).Nodup) (h : (p, s) ∈ extra) :
    registered (hist ++ extra) p = some s := by
  simp only [registered, List.foldl_append]
  exact registered_foldl_of_mem extra p s _ hnd h

theorem TableInv.fresh (P : ℕ) : TableInv P (Group.new P).m_offset [] where
  len := Group.new_length P
  zero := by simpa using Group.new_getElem? P 0 (Nat.zero_le _)
  sorted := by
    intro i j a b hij ha hb
    have hj : j ≤ P := by
      have := (List.getElem?_eq_some.mp hb).1
      rw [Group.new_length] at this; omega
    rw [Group.new_getElem? P i (by omega)] at ha
    rw [Group.new_getElem? P j hj] at hb
    have ha' := Option.some.inj ha
    have hb' := Option.some.inj hb
    subst ha' hb'
    by_cases h0 : i = 0
    · simp [h0]
    · have : j ≠ 0 := by omega
      simp [h0, this]
  bound := by
    intro i a ha
    have hi : i ≤ P := by
      have := (List.getElem?_eq_some.mp ha).1
      rw [Group.new_length] at this; omega
    rw [Group.new_getElem? P i hi] at ha
    have ha' := Option.some.inj ha
    subst ha'
    by_cases h0 : i = 0
    · right; simp [h0]
    · left; simp [h0]
  frontier := by
    intro i h0 hi _
    rw [Group.new_getElem? P i hi, if_neg (by omega)]
  link := by
    intro i a ha
    have hi : i + 1 ≤ P := by
      have := (List.getElem?_eq_some.mp ha).1
      rw [Group.new_length] at this; omega
    rw [Group.new_getElem? P (i + 1) hi] at ha
    left
    simpa using ha.symm

theorem TableInv.le_max {P : ℕ} {t : List ℕ} {hist : List (ℕ × ℕ)} (h : TableInv P t hist)
    (hS : (hist.map (·.2)).sum < 2 ^ 64) (i a : ℕ) (ha : t[i]? = some a) : a ≤ SIZE_MAX := by
  rcases h.bound i a ha with h1 | h1
  · exact h1.le
  · have := SIZE_MAX_eq; omega

/-- A table that is not written keeps the invariant when pairs are added to the
history, provided the entries behind the partitions of these pairs are not set. -/
theorem TableInv.unchanged {P : ℕ} {t : List ℕ} {hist : List (ℕ × ℕ)} (h : TableInv P t hist)
    (extra : List (ℕ × ℕ)) (hp : ∀ c ∈ extra, ∀ a, t[c.1 + 1]? = some a → a = SIZE_MAX) :
    TableInv P t (hist ++ extra) where
  len := h.len
  zero := h.zero
  sorted := h.sorted
  bound := by
    intro i a ha
    rcases h.bound i a ha with h1 | h1
    · exact Or.inl h1
    · right; simp only [List.map_append, List.sum_append]; omega
  frontier := by
    intro i h0 hi hc
    exact h.frontier i h0 hi (fun c hcm => hc c (by simp [hcm]))
  link := by
    intro i a ha
    by_cases hip : ∃ c ∈ extra, c.1 = i
    · obtain ⟨c, hc, hci⟩ := hip
      subst hci; exact Or.inl (hp c hc a ha)
    · rcases h.link i a ha with h1 | ⟨b, s0, hb, hs0, hab⟩
      · exact Or.inl h1
      · refine Or.inr ⟨b, s0, hb, ?_, hab⟩
        rw [registered_append_of_not_mem hist extra i (fun c hc hci => hip ⟨c, hc, hci⟩)]
        exact hs0

theorem TableInv.setSize {P : ℕ} {g : Group} {hist : List (ℕ × ℕ)}
    (h : TableInv P g.m_offset hist) (setOffset : ℕ → Bool) (p s : ℕ) (hp : p ≤ P)
    (hord : ∀ c ∈ hist, c.1 ≤ p) (hS : (hist.map (·.2)).sum + s < 2 ^ 64) :
    ∃ r, g.setSize setOffset p s = some r ∧ TableInv P r.2.m_offset (hist ++ [(p, s)]) := by
  have hlt : p < g.m_offset.length := by rw [h.len]; omega
  have hS0 : (hist.map (·.2)).sum < 2 ^ 64 := by omega
  obtain ⟨o, ho⟩ : ∃ o, g.m_offset[p]? = some o := ⟨_, List.getElem?_eq_getElem hlt⟩
  by_cases hmax : o = SIZE_MAX
  · refine ⟨(false, g), by simp [Group.setSize, ho, hmax], ?_⟩
    apply h.unchanged [(p, s)]
    intro c hc a ha
    obtain rfl : c = (p, s) := by simpa using hc
    have h1 := h.sorted p (p + 1) o a (by omega) ho ha
    have h2 := h.le_max hS0 _ _ ha
    omega
  · by_cases hP : p + 1 < g.m_offset.length
    · have ho_le : o ≤ (hist.map (·.2)).sum := by
        rcases h.bound p o ho with h1 | h1
        · exact absurd h1 hmax
        · exact h1
      have hmod : (o + s) % 18446744073709551616 = o + s := Nat.mod_eq_of_lt (by omega)
      refine ⟨(setOffset (p + 1), ⟨g.m_offset.set (p + 1) (o + s), g.persisted ++ [p + 1]⟩),
        by simp [Group.setSize, ho, hmax, hP, hmod], ?_⟩
      have hget : ∀ i, (g.m_offset.set (p + 1) (o + s))[i]? =
          if p + 1 = i then some (o + s) else g.m_offset[i]? := by
        intro i
        rw [List.getElem?_set]
        by_cases hi : p + 1 = i
        · subst hi; simp [hP]
        · simp [hi]
      have hfront : ∀ j, p + 1 < j → j ≤ P → g.m_offset[j]? = some SIZE_MAX := by
        intro j hj hjP
        exact h.frontier j (by omega) hjP (fun c hc => by have := hord c hc; omega)
      refine ⟨by simpa using h.len, ?_, ?_, ?_, ?_, ?_⟩
      · show (g.m_offset.set (p + 1) (o + s))[0]? = some 0
        rw [hget, if_neg (by omega)]; exact h.zero
      · intro i j a b hij ha hb
        change (g.m_offset.set (p + 1) (o + s))[i]? = some a at ha
        change (g.m_offset.set (p + 1) (o + s))[j]? = some b at hb
        rw [hget] at ha hb
        have hjP : j ≤ P := by
          have hlen := h.len
          by_cases hj : p + 1 = j
          · omega
          · rw [if_neg hj] at hb
            have := (List.getElem?_eq_some.mp hb).1
            rw [h.len] at this; omega
        by_cases hi : p + 1 = i
        · rw [if_pos hi] at ha
          by_cases hj : p + 1 = j
          · rw [if_pos hj] at hb
            have := Option.some.inj ha; have := Option.some.inj hb; omega
          · rw [if_neg hj] at hb
            rw [hfront j (by omega) hjP] at hb
            have := Option.some.inj ha; have := Option.some.inj hb
            have := SIZE_MAX_eq; omega
        · rw [if_neg hi] at ha
          by_cases hj : p + 1 = j
          · rw [if_pos hj] at hb
            have h1 := h.sorted i p a o (by omega) ha ho
            have := Option.some.inj hb; omega
          · rw [if_neg hj] at hb
            exact h.sorted i j a b hij ha hb
      · intro i a ha
        change (g.m_offset.set (p + 1) (o + s))[i]? = some a at ha
        rw [hget] at ha
        by_cases hi : p + 1 = i
        · rw [if_pos hi] at ha
          right
          have := Option.some.inj ha
          simp; omega
        · rw [if_neg hi] at ha
          rcases h.bound i a ha with h1 | h1
          · exact Or.inl h1
          · right; simp; omega
      · intro i h0 hi hc
        show (g.m_offset.set (p + 1) (o + s))[i]? = some SIZE_MAX
        have hpi : p + 1 < i := hc (p, s) (by simp)
        rw [hget, if_neg (by omega)]
        exact hfront i hpi hi
      · intro i a ha
        change (g.m_offset.set (p + 1) (o + s))[i + 1]? = some a at ha
        show a = SIZE_MAX ∨ ∃ b s', (g.m_offset.set (p + 1) (o + s))[i]? = some b ∧
          registered (hist ++ [(p, s)]) i = some s' ∧ a = b + s'
        rw [hget] at ha
        by_cases hi : p = i
        · subst hi
          rw [if_pos rfl] at ha
          refine Or.inr ⟨o, s, ?_, ?_, (Option.some.inj ha).symm⟩
          · rw [hget, if_neg (by omega)]; exact ho
          · rw [registered_append_single, if_pos rfl]
        · rw [if_neg (by omega)] at ha
          by_cases hi' : p + 1 = i
          · left
            have hiP : i + 1 ≤ P := by
              have := (List.getElem?_eq_some.mp ha).1
              rw [h.len] at this; omega
            rw [hfront (i + 1) (by omega) hiP] at ha
            exact (Option.some.inj ha).symm
          · rcases h.link i a ha with h1 | ⟨b, s0, hb, hs0, hab⟩
            · exact Or.inl h1
            · refine Or.inr ⟨b, s0, ?_, ?_, hab⟩
              · rw [hget, if_neg hi']; exact hb
              · rw [registered_append_single, if_neg hi]; exact hs0
    · refine ⟨(setOffset (p + 1), ⟨g.m_offset, g.persisted ++ [p + 1]⟩),
        by simp [Group.setSize, ho, hmax, hP], ?_⟩
      apply h.unchanged [(p, s)]
      intro c hc a ha
      obtain rfl : c = (p, s) := by simpa using hc
      have := (List.getElem?_eq_some.mp ha).1
      omega

theorem setSizeCalls_inv (setOffset : ℕ → Bool) (P : ℕ) :
    ∀ (rest hist : List (ℕ × ℕ)) (g : Group), TableInv P g.m_offset hist →
      (hist ++ rest).Pairwise (fun a b => a.1 ≤ b.1) →
      (∀ c ∈ rest, c.1 ≤ P) →
      ((hist ++ rest).map (·.2)).sum < 2 ^ 64 →
      ∃ g', g.setSizeCalls setOffset rest = some g' ∧ TableInv P g'.m_offset (hist ++ rest) := by
  intro rest
  induction rest with
  | nil =>
    intro hist g h _ _ _
    exact ⟨g, rfl, by simpa using h⟩
  | cons c rest ih =>
    intro hist g h hord hP hS
    have hsplit : hist ++ c :: rest = (hist ++ [(c.1, c.2)]) ++ rest := by simp
    have hS' : (hist.map (·.2)).sum + c.2 < 2 ^ 64 := by
      simp only [List.map_append, List.sum_append, List.map_cons, List.sum_cons] at hS
      omega
    have hc : ∀ x ∈ hist, x.1 ≤ c.1 := by
      intro x hx
      exact (List.pairwise_append.mp hord).2.2 x hx c (by simp)
    obtain ⟨r, hr, hinv⟩ := h.setSize setOffset c.1 c.2 (hP c (by simp)) hc hS'
    obtain ⟨g', hg', hinv'⟩ := ih (hist ++ [(c.1, c.2)]) r.2 hinv (by rw [← hsplit]; exact hord)
      (fun x hx => hP x (by simp [hx])) (by rw [← hsplit]; exact hS)
    refine ⟨g', ?_, by rw [hsplit]; exact hinv'⟩
    simp [Group.setSizeCalls, hr, hg']

theorem TableInv.offsetInvariant {P : ℕ} {t : List ℕ} {hist : List (ℕ × ℕ)}
    (h : TableInv P t hist) : OffsetInvariant t (registered hist) :=
  ⟨h.zero, h.link, fun i j a b hij ha hb _ _ => h.sorted i j a b hij ha hb⟩

/-! ## The offset table: the collective form -/

theorem findBase_le_init (buf : List (ℕ × ℕ)) (x : ℕ) : findBase buf x ≤ x := by
  induction buf generalizing x with
  | nil => exact le_rfl
  | cons c rest ih =>
    simp only [findBase, List.foldl_cons]
    split
    · exact le_trans (ih c.1) (by omega)
    · exact ih x

theorem findBase_le_mem (buf : List (ℕ × ℕ)) (x : ℕ) : ∀ c ∈ buf, findBase buf x ≤ c.1 := by
  induction buf generalizing x with
  | nil => simp
  | cons c rest ih =>
    intro d hd
    simp only [findBase, List.foldl_cons]
    rcases List.mem_cons.mp hd with hd | hd
    · subst hd
      split
      · exact findBase_le_init rest d.1
      · exact le_trans (findBase_le_init rest x) (by omega)
    · exact ih _ d hd

theorem findBase_mem (buf : List (ℕ × ℕ)) (x : ℕ) :
    findBase buf x = x ∨ ∃ c ∈ buf, findBase buf x = c.1 := by
  induction buf generalizing x with
  | nil => exact Or.inl rfl
  | cons c rest ih =>
    simp only [findBase, List.foldl_cons]
    split
    · rcases ih c.1 with h | ⟨d, hd, h⟩
      · exact Or.inr ⟨c, by simp, h⟩
      · exact Or.inr ⟨d, by simp [hd], h⟩
    · rcases ih x with h | ⟨d, hd, h⟩
      · exact Or.inl h
      · exact Or.inr ⟨d, by simp [hd], h⟩

/-- In a round that reports the partitions `base, ..., base + n - 1`, every rank
finds `base`. -/
theorem findBase_of_perm (buf : List (ℕ × ℕ)) (base n mpiRank : ℕ)
    (hperm : (buf.map (·.1)).Perm (List.range' base n)) (hr : mpiRank < n) :
    findBase buf (buf.getD mpiRank (0, 0)).1 = base := by
  have hlen : buf.length = n := by
    have := hperm.length_eq; simpa using this
  have hmem : ∀ c ∈ buf, base ≤ c.1 ∧ c.1 < base + n := by
    intro c hc
    have : c.1 ∈ List.range' base n := hperm.subset (List.mem_map_of_mem _ hc)
    simpa [List.mem_range'_1] using this
  have hbase : ∃ c ∈ buf, c.1 = base := by
    have : base ∈ buf.map (·.1) := hperm.symm.subset (by simp [List.mem_range'_1]; omega)
    simpa using this
  have hown : (buf.getD mpiRank (0, 0)) ∈ buf := by
    have hlt : mpiRank < buf.length := by omega
    simp [List.getD_eq_getElem?_getD, List.getElem?_eq_getElem hlt]
  obtain ⟨c, hc, hcb⟩ := hbase
  apply le_antisymm
  · rw [← hcb]; exact findBase_le_mem buf _ c hc
  · rcases findBase_mem buf (buf.getD mpiRank (0, 0)).1 with h | ⟨d, hd, h⟩
    · rw [h]; exact (hmem _ hown).1
    · rw [h]; exact (hmem d hd).1

theorem bucket_length (buf : List (ℕ × ℕ)) (t : List ℕ) : (bucket buf t).length = t.length := by
  induction buf generalizing t with
  | nil => rfl
  | cons c rest ih =>
    simp only [bucket]
    split
    · rfl
    · rw [ih]; simp

theorem bucket_get_of_not_mem (buf : List (ℕ × ℕ)) (t : List ℕ) (i : ℕ)
    (hin : ∀ c ∈ buf, c.1 + 1 < 2 ^ 64) (h : ∀ c ∈ buf, c.1 + 1 ≠ i) :
    (bucket buf t)[i]? = t[i]? := by
  induction buf generalizing t with
  | nil => rfl
  | cons c rest ih =>
    simp only [bucket]
    have hmod : (c.1 + 1) % 2 ^ 64 = c.1 + 1 := Nat.mod_eq_of_lt (hin c (by simp))
    rw [hmod]
    split
    · rfl
    · rw [ih _ (fun x hx => hin x (by simp [hx])) (fun x hx => h x (by simp [hx]))]
      exact List.getElem?_set_ne (h c (by simp))

theorem bucket_get_of_mem (buf : List (ℕ × ℕ)) (t : List ℕ) (p s : ℕ)
    (hin : ∀ c ∈ buf, c.1 + 1 < 2 ^ 64) (hlen : ∀ c ∈ buf, c.1 + 1 < t.length)
    (hnd : (buf.map (·.1)).Nodup) (h : (p, s) ∈ buf) :
    (bucket buf t)[p + 1]? = some s := by
  induction buf generalizing t with
  | nil => simp at h
  | cons c rest ih =>
    simp only [List.map_cons, List.nodup_cons] at hnd
    simp only [bucket]
    have hmod : (c.1 + 1) % 2 ^ 64 = c.1 + 1 := Nat.mod_eq_of_lt (hin c (by simp))
    have hc : c.1 + 1 < t.length := hlen c (by simp)
    rw [hmod, if_neg (by omega)]
    rcases List.mem_cons.mp h with heq | hmem
    · subst heq
      rw [bucket_get_of_not_mem rest _ _ (fun x hx => hin x (by simp [hx]))]
      · exact List.getElem?_set_self hc
      · intro x hx hxp
        exact hnd.1 (List.mem_map.mpr ⟨x, hx, by omega⟩)
    · exact ih _ (fun x hx => hin x (by simp [hx]))
        (fun x hx => by simpa using hlen x (by simp [hx])) hnd.2 hmem

theorem accumulate_length (base : ℕ) (is : List ℕ) (t : List ℕ) :
    (accumulate base is t).length = t.length := by
  induction is generalizing t with
  | nil => rfl
  | cons i rest ih =>
    simp only [accumulate]
    split
    · rfl
    · rw [ih]; simp

/-- The running sum that the loop at lines 184-189 produces, as long as no sum
leaves `size_t`: entries up to `base + i0` and beyond `base + i0 + m` are kept,
and entry `base + i0 + j` becomes entry `base + i0` plus the `j` entries after it. -/
theorem accumulate_spec (base : ℕ) :
    ∀ (m i0 : ℕ) (t : List ℕ), base + i0 + m < t.length →
      t.getD (base + i0) 0 + ((List.range' (base + i0 + 1) m).map fun i => t.getD i 0).sum
        < 2 ^ 64 →
      (∀ i, i ≤ base + i0 → (accumulate base (List.range' i0 m) t)[i]? = t[i]?) ∧
      (∀ i, base + i0 + m < i → (accumulate base (List.range' i0 m) t)[i]? = t[i]?) ∧
      (∀ j, j ≤ m → (accumulate base (List.range' i0 m) t)[base + i0 + j]? =
        some (t.getD (base + i0) 0 +
          ((List.range' (base + i0 + 1) j).map fun i => t.getD i 0).sum)) := by
  intro m
  induction m with
  | zero =>
    intro i0 t hlen _
    refine ⟨fun _ _ => rfl, fun _ _ => rfl, ?_⟩
    intro j hj
    have : j = 0 := by omega
    subst this
    have hlt : base + i0 < t.length := by omega
    simp [accumulate, List.getElem?_eq_getElem hlt]
  | succ m ih =>
    intro i0 t hlen hsum
    have hcond : ¬ (base + i0 + 1 ≥ t.length) := by omega
    simp only [List.range'_succ, accumulate, if_neg hcond]
    simp only [List.range'_succ, List.map_cons, List.sum_cons] at hsum
    set v := (t.getD (base + i0 + 1) 0 + t.getD (base + i0) 0) % 2 ^ 64 with hv
    have hv' : v = t.getD (base + i0) 0 + t.getD (base + i0 + 1) 0 := by
      rw [hv, Nat.mod_eq_of_lt (by omega)]; omega
    set t2 := t.set (base + i0 + 1) v with ht2
    have hget : ∀ i, t2[i]? = if base + i0 + 1 = i then some v else t[i]? := by
      intro i
      rw [ht2, List.getElem?_set]
      by_cases hi : base + i0 + 1 = i
      · subst hi; simp [Nat.lt_of_not_ge hcond]
      · simp [hi]
    have hgetD : ∀ i, t2.getD i 0 = if base + i0 + 1 = i then v else t.getD i 0 := by
      intro i
      simp only [List.getD_eq_getElem?_getD, hget]
      split <;> rfl
    have hrest : ((List.range' (base + (i0 + 1) + 1) m).map fun i => t2.getD i 0)
        = ((List.range' (base + i0 + 1 + 1) m).map fun i => t.getD i 0) := by
      apply List.map_congr_left
      intro i hi
      have : base + i0 + 1 + 1 ≤ i := by
        have := (List.mem_range'_1.mp hi).1; omega
      rw [hgetD, if_neg (by omega)]
    have hrest' : ∀ j, ((List.range' (base + (i0 + 1) + 1) j).map fun i => t2.getD i 0)
        = ((List.range' (base + i0 + 1 + 1) j).map fun i => t.getD i 0) := by
      intro j
      apply List.map_congr_left
      intro i hi
      have : base + i0 + 1 + 1 ≤ i := by
        have := (List.mem_range'_1.mp hi).1; omega
      rw [hgetD, if_neg (by omega)]
    have hstart : t2.getD (base + (i0 + 1)) 0 = v := by
      rw [hgetD, if_pos (by omega)]
    obtain ⟨hlow, hhigh, hmid⟩ := ih (i0 + 1) t2 (by rw [ht2]; simp; omega)
      (by rw [hstart, hrest, hv']; omega)
    refine ⟨?_, ?_, ?_⟩
    · intro i hi
      rw [hlow i (by omega), hget, if_neg (by omega)]
    · intro i hi
      rw [hhigh i (by omega), hget, if_neg (by omega)]
    · intro j hj
      cases j with
      | zero =>
        have h0 := hlow (base + i0) (by omega)
        simp only [Nat.add_zero]
        rw [h0, hget, if_neg (by omega)]
        simp [List.getElem?_eq_getElem (show base + i0 < t.length by omega)]
      | succ j =>
        have hj' := hmid j (by omega)
        have e : base + i0 + (j + 1) = base + (i0 + 1) + j := by omega
        rw [e, hj', hstart, hrest' j, hv']
        simp only [List.range'_succ, List.map_cons, List.sum_cons]
        congr 1
        omega

theorem sum_range'_split (f : ℕ → ℕ) (s j k : ℕ) :
    ((List.range' s (j + k)).map f).sum =
      ((List.range' s j).map f).sum + ((List.range' (s + j) k).map f).sum := by
  rw [Nat.add_comm j k, ← List.range'_append_1, List.map_append, List.sum_append]

theorem TableInv.setSizeParallel {P : ℕ} {g : Group} {hist : List (ℕ × ℕ)}
    (h : TableInv P g.m_offset hist) (setOffset : ℕ → Bool) (mpiRank n base : ℕ)
    (buf : List (ℕ × ℕ)) (hr : mpiRank < n)
    (hperm : (buf.map (·.1)).Perm (List.range' base n)) (hin : base + n ≤ P)
    (hP : P + 1 < 2 ^ 64) (hord : ∀ c ∈ hist, c.1 < base + n)
    (hS : (hist.map (·.2)).sum + (buf.map (·.2)).sum < 2 ^ 64) :
    ∃ r, g.setSizeParallel setOffset mpiRank buf = some r ∧
      TableInv P r.2.m_offset (hist ++ buf) := by
  have hbase := findBase_of_perm buf base n mpiRank hperm hr
  have hlenb : buf.length = n := by
    have := hperm.length_eq; simpa using this
  have hmem : ∀ c ∈ buf, base ≤ c.1 ∧ c.1 < base + n := by
    intro c hc
    have : c.1 ∈ List.range' base n := hperm.subset (List.mem_map.mpr ⟨c, hc, rfl⟩)
    simpa [List.mem_range'_1] using this
  have hex : ∀ p, base ≤ p → p < base + n → ∃ c ∈ buf, c.1 = p := by
    intro p h1 h2
    have : p ∈ buf.map (·.1) := hperm.symm.subset (by simp [List.mem_range'_1]; omega)
    simpa using this
  have hnd : (buf.map (·.1)).Nodup := hperm.symm.nodup (List.nodup_range' base n)
  have hlen := h.len
  have hS0 : (hist.map (·.2)).sum < 2 ^ 64 := by omega
  have hlt : base < g.m_offset.length := by omega
  obtain ⟨o, ho⟩ : ∃ o, g.m_offset[base]? = some o := ⟨_, List.getElem?_eq_getElem hlt⟩
  by_cases hmax : o = SIZE_MAX
  · refine ⟨(false, g), by simp only [Group.setSizeParallel, hbase, ho]; simp [hmax], ?_⟩
    apply h.unchanged buf
    intro c hc a ha
    have h1 := h.sorted base (c.1 + 1) o a (by have := hmem c hc; omega) ho ha
    have h2 := h.le_max hS0 _ _ ha
    omega
  · have ho_le : o ≤ (hist.map (·.2)).sum := by
      rcases h.bound base o ho with h1 | h1
      · exact absurd h1 hmax
      · exact h1
    refine ⟨(setOffset ((buf.getD mpiRank (0, 0)).1 + 1),
      ⟨accumulate base (List.range buf.length) (bucket buf g.m_offset),
        g.persisted ++ [(buf.getD mpiRank (0, 0)).1 + 1]⟩),
      by simp only [Group.setSizeParallel, hbase, ho]; simp [hmax], ?_⟩
    -- the table after the bucket loop
    have hin64 : ∀ c ∈ buf, c.1 + 1 < 2 ^ 64 := fun c hc => by
      have := hmem c hc; omega
    have hinlen : ∀ c ∈ buf, c.1 + 1 < g.m_offset.length := fun c hc => by
      have := hmem c hc; omega
    have hb_len : (bucket buf g.m_offset).length = P + 1 := by rw [bucket_length, hlen]
    have hb_out : ∀ i, (i ≤ base ∨ base + n < i) →
        (bucket buf g.m_offset)[i]? = g.m_offset[i]? := by
      intro i hi
      apply bucket_get_of_not_mem _ _ _ hin64
      intro c hc
      have := hmem c hc; omega
    have hb_in : ∀ c ∈ buf, (bucket buf g.m_offset).getD (c.1 + 1) 0 = c.2 := by
      intro c hc
      rw [List.getD_eq_getElem?_getD,
        bucket_get_of_mem buf g.m_offset c.1 c.2 hin64 hinlen hnd hc]
      rfl
    have hb_base : (bucket buf g.m_offset).getD base 0 = o := by
      rw [List.getD_eq_getElem?_getD, hb_out base (Or.inl le_rfl), ho]; rfl
    have hb_sum : ((List.range' (base + 1) n).map fun i => (bucket buf g.m_offset).getD i 0).sum
        = (buf.map (·.2)).sum := by
      have h1 : (List.range' (base + 1) n).map (fun i => (bucket buf g.m_offset).getD i 0)
          = (List.range' base n).map (fun p => (bucket buf g.m_offset).getD (p + 1) 0) := by
        rw [show base + 1 = 1 + base by omega, ← List.map_add_range' 1 base n 1, List.map_map]
        apply List.map_congr_left
        intro a _
        simp [Nat.add_comm]
      have h2 : ((buf.map (·.1)).map fun p => (bucket buf g.m_offset).getD (p + 1) 0)
          = buf.map (·.2) := by
        rw [List.map_map]
        apply List.map_congr_left
        intro c hc
        exact hb_in c hc
      rw [h1, ← (hperm.map _).sum_eq, h2]
    -- the running sums
    obtain ⟨hlow, hhigh, hmid⟩ := accumulate_spec base n 0 (bucket buf g.m_offset)
      (by rw [hb_len]; omega) (by
        simp only [Nat.add_zero]
        rw [hb_base, hb_sum]; omega)
    simp only [Nat.add_zero] at hlow hhigh hmid
    rw [hb_base] at hmid
    rw [← hlenb, ← List.range_eq_range'] at hlow hhigh hmid
    set t' := accumulate base (List.range buf.length) (bucket buf g.m_offset) with ht'
    set x : ℕ → ℕ := fun j =>
      ((List.range' (base + 1) j).map fun i => (bucket buf g.m_offset).getD i 0).sum with hx
    have hx_succ : ∀ j, x (j + 1) = x j + (bucket buf g.m_offset).getD (base + 1 + j) 0 := by
      intro j
      simp only [hx]
      rw [sum_range'_split _ (base + 1) j 1]
      simp
    have hx_mono : ∀ i j, i ≤ j → x i ≤ x j := by
      intro i j hij
      obtain ⟨k, rfl⟩ := Nat.exists_eq_add_of_le hij
      simp only [hx]
      rw [sum_range'_split _ (base + 1) i k]
      omega
    have hx_n : x buf.length = (buf.map (·.2)).sum := by
      simp only [hx]; rw [hlenb]; exact hb_sum
    have hA : ∀ i, i ≤ base → t'[i]? = g.m_offset[i]? := fun i hi => by
      rw [hlow i hi, hb_out i (Or.inl hi)]
    have hB : ∀ j, j ≤ buf.length → t'[base + j]? = some (o + x j) := hmid
    have hC : ∀ i, base + buf.length < i → t'[i]? = g.m_offset[i]? := fun i hi => by
      rw [hhigh i hi, hb_out i (Or.inr (by omega))]
    have hCmax : ∀ i, base + buf.length < i → i ≤ P → t'[i]? = some SIZE_MAX := fun i hi hiP => by
      rw [hC i hi]
      exact h.frontier i (by omega) hiP (fun c hc => by have := hord c hc; omega)
    have hlen' : t'.length = P + 1 := by rw [ht', accumulate_length, hb_len]
    have hle_idx : ∀ i a, t'[i]? = some a → i ≤ P := fun i a ha => by
      have := (List.getElem?_eq_some.mp ha).1; omega
    have hmaxeq := SIZE_MAX_eq
    -- every entry up to `base + n` is at most the last running sum
    have hupper : ∀ i a, t'[i]? = some a → i ≤ base + buf.length → a ≤ o + x buf.length := by
      intro i a ha hi
      by_cases hib : i ≤ base
      · rw [hA i hib] at ha
        have := h.sorted i base a o hib ha ho
        omega
      · obtain ⟨j, rfl⟩ := Nat.exists_eq_add_of_le (Nat.le_of_lt (Nat.lt_of_not_ge hib))
        rw [hB j (by omega)] at ha
        have := hx_mono j buf.length (by omega)
        have := Option.some.inj ha
        omega
    refine ⟨hlen', ?_, ?_, ?_, ?_, ?_⟩
    · show t'[0]? = some 0
      rw [hA 0 (Nat.zero_le _)]; exact h.zero
    · intro i j a b hij ha hb
      change t'[i]? = some a at ha
      change t'[j]? = some b at hb
      by_cases hjC : base + buf.length < j
      · rw [hCmax j hjC (hle_idx j b hb)] at hb
        have hb' := Option.some.inj hb
        by_cases hiC : base + buf.length < i
        · rw [hCmax i hiC (hle_idx i a ha)] at ha
          have := Option.some.inj ha; omega
        · have := hupper i a ha (by omega)
          rw [hx_n] at this
          omega
      · by_cases hjb : j ≤ base
        · rw [hA i (by omega)] at ha
          rw [hA j hjb] at hb
          exact h.sorted i j a b hij ha hb
        · obtain ⟨j', rfl⟩ := Nat.exists_eq_add_of_le (Nat.le_of_lt (Nat.lt_of_not_ge hjb))
          rw [hB j' (by omega)] at hb
          have hb' := Option.some.inj hb
          by_cases hib : i ≤ base
          · rw [hA i hib] at ha
            have := h.sorted i base a o hib ha ho
            omega
          · obtain ⟨i', rfl⟩ := Nat.exists_eq_add_of_le (Nat.le_of_lt (Nat.lt_of_not_ge hib))
            rw [hB i' (by omega)] at ha
            have := Option.some.inj ha
            have := hx_mono i' j' (by omega)
            omega
    · intro i a ha
      change t'[i]? = some a at ha
      by_cases hiC : base + buf.length < i
      · rw [hCmax i hiC (hle_idx i a ha)] at ha
        exact Or.inl (Option.some.inj ha).symm
      · right
        have := hupper i a ha (by omega)
        rw [hx_n] at this
        simp only [List.map_append, List.sum_append]
        omega
    · intro i h0 hi hc
      show t'[i]? = some SIZE_MAX
      obtain ⟨c, hcm, hcb⟩ := hex (base + n - 1) (by omega) (by omega)
      have := hc c (by simp [hcm])
      exact hCmax i (by omega) hi
    · intro i a ha
      change t'[i + 1]? = some a at ha
      show a = SIZE_MAX ∨ ∃ b s', t'[i]? = some b ∧ registered (hist ++ buf) i = some s' ∧
        a = b + s'
      by_cases hiC : base + buf.length < i + 1
      · rw [hCmax (i + 1) hiC (hle_idx _ a ha)] at ha
        exact Or.inl (Option.some.inj ha).symm
      · by_cases hib : i + 1 ≤ base
        · rw [hA (i + 1) hib] at ha
          rcases h.link i a ha with h1 | ⟨b, s0, hb, hs0, hab⟩
          · exact Or.inl h1
          · refine Or.inr ⟨b, s0, ?_, ?_, hab⟩
            · rw [hA i (by omega)]; exact hb
            · rw [registered_append_of_not_mem hist buf i
                (fun c hc => by have := hmem c hc; omega)]
              exact hs0
        · obtain ⟨j, hj⟩ := Nat.exists_eq_add_of_le (show base ≤ i by omega)
          subst hj
          obtain ⟨c, hcm, hcb⟩ := hex (base + j) (by omega) (by omega)
          have e1 : base + j + 1 = base + (j + 1) := by omega
          rw [e1, hB (j + 1) (by omega)] at ha
          refine Or.inr ⟨o + x j, c.2, hB j (by omega), ?_, ?_⟩
          · rw [← hcb]
            exact registered_append_of_mem hist buf c.1 c.2 hnd hcm
          · have h3 := hb_in c hcm
            rw [hcb] at h3
            have h4 := hx_succ j
            have e2 : base + 1 + j = base + j + 1 := by omega
            rw [e2, h3] at h4
            have := Option.some.inj ha
            omega

theorem setSizeRounds_inv (setOffset : ℕ → Bool) (P n mpiRank : ℕ) (hr : mpiRank < n)
    (hP : P + 1 < 2 ^ 64) :
    ∀ (rest : List (ℕ × List (ℕ × ℕ))) (hist : List (ℕ × ℕ)) (g : Group),
      TableInv P g.m_offset hist →
      (∀ c ∈ hist, ∀ r ∈ rest, c.1 < r.1 + n) →
      rest.Pairwise (fun a b => a.1 ≤ b.1) →
      (∀ r ∈ rest, (r.2.map (·.1)).Perm (List.range' r.1 n) ∧ r.1 + n ≤ P) →
      (hist.map (·.2)).sum + ((rest.flatMap (·.2)).map (·.2)).sum < 2 ^ 64 →
      ∃ g', g.setSizeRounds setOffset mpiRank (rest.map (·.2)) = some g' ∧
        TableInv P g'.m_offset (hist ++ rest.flatMap (·.2)) := by
  intro rest
  induction rest with
  | nil =>
    intro hist g h _ _ _ _
    exact ⟨g, rfl, by simpa using h⟩
  | cons r rest ih =>
    intro hist g h hord hpw hperm hS
    simp only [List.flatMap_cons, List.map_append, List.sum_append] at hS
    obtain ⟨res, hres, hinv⟩ := h.setSizeParallel setOffset mpiRank n r.1 r.2 hr
      (hperm r (by simp)).1 (hperm r (by simp)).2 hP (fun c hc => hord c hc r (by simp))
      (by omega)
    have hpw' := List.pairwise_cons.mp hpw
    obtain ⟨g', hg', hinv'⟩ := ih (hist ++ r.2) res.2 hinv
      (by
        intro c hc r' hr'
        rcases List.mem_append.mp hc with hc | hc
        · exact hord c hc r' (by simp [hr'])
        · have h1 : c.1 ∈ List.range' r.1 n :=
            (hperm r (by simp)).1.subset (List.mem_map.mpr ⟨c, hc, rfl⟩)
          have h2 := (List.mem_range'_1.mp h1).2
          have h3 := hpw'.1 r' hr'
          omega)
      hpw'.2 (fun r' hr' => hperm r' (by simp [hr']))
      (by simp only [List.map_append, List.sum_append]; omega)
    refine ⟨g', ?_, ?_⟩
    · simp [Group.setSizeRounds, hres, hg']
    · simpa [List.flatMap_cons, List.append_assoc] using hinv'

/-- **C8**, amended.  Starting from a fresh `Group` with `P` partitions, let the
`setSize` calls be made in non-decreasing partition order, with partitions inside
the table and registered sizes that sum to less than `2 ^ 64`; with `PARALLEL`
let every collective call report the `n` consecutive partitions
`base, ..., base + n - 1` inside the table (in any assignment to the ranks), with
non-decreasing `base`.  Then after every call `offset[0] = 0`, every later entry is
the mark `SIZE_MAX` or the entry before it plus the size registered for the
partition before it (a cumulative count), and the entries that are set are
monotonically non-decreasing. -/
theorem setSize_invariant_in_order (setOffset : ℕ → Bool) (P : ℕ)
    (calls : List (ℕ × ℕ)) (n mpiRank : ℕ) (rounds : List (ℕ × List (ℕ × ℕ)))
    (hcalls : calls.Pairwise (fun a b => a.1 ≤ b.1))
    (hcallsP : ∀ c ∈ calls, c.1 ≤ P)
    (hcallsS : (calls.map (·.2)).sum < 2 ^ 64)
    (hr : mpiRank < n) (hP : P + 1 < 2 ^ 64)
    (hrounds : rounds.Pairwise (fun a b => a.1 ≤ b.1))
    (hperm : ∀ r ∈ rounds, (r.2.map (·.1)).Perm (List.range' r.1 n) ∧ r.1 + n ≤ P)
    (hroundsS : ((rounds.flatMap (·.2)).map (·.2)).sum < 2 ^ 64) :
    (∀ m, ∃ g, (Group.new P).setSizeCalls setOffset (calls.take m) = some g ∧
      OffsetInvariant g.m_offset (registered (calls.take m))) ∧
    (∀ m, ∃ g, (Group.new P).setSizeRounds setOffset mpiRank ((rounds.take m).map (·.2)) = some g ∧
      OffsetInvariant g.m_offset (registered ((rounds.take m).flatMap (·.2)))) := by
  constructor
  · intro m
    have hsub : (calls.take m).Sublist calls := List.take_sublist m calls
    obtain ⟨g, hg, hinv⟩ := setSizeCalls_inv setOffset P (calls.take m) [] (Group.new P)
      (TableInv.fresh P) (by simpa using hcalls.sublist hsub)
      (fun c hc => hcallsP c (hsub.subset hc))
      (by
        have : ((calls.take m).map (·.2)).sum ≤ (calls.map (·.2)).sum :=
          List.Sublist.sum_le_sum (hsub.map _) (fun _ _ => Nat.zero_le _)
        simpa using lt_of_le_of_lt this hcallsS)
    exact ⟨g, hg, by simpa using hinv.offsetInvariant⟩
  · intro m
    have hsub : (rounds.take m).Sublist rounds := List.take_sublist m rounds
    obtain ⟨g, hg, hinv⟩ := setSizeRounds_inv setOffset P n mpiRank hr hP (rounds.take m) []
      (Group.new P) (TableInv.fresh P) (by simp) (hrounds.sublist hsub)
      (fun r hr' => hperm r (hsub.subset hr'))
      (by
        have hsplit : rounds.flatMap (·.2)
            = (rounds.take m).flatMap (·.2) ++ (rounds.drop m).flatMap (·.2) := by
          rw [← List.flatMap_append, List.take_append_drop]
        rw [hsplit, List.map_append, List.sum_append] at hroundsS
        simp only [List.map_nil, List.sum_nil, Nat.zero_add]
        omega)
    exact ⟨g, hg, by simpa using hinv.offsetInvariant⟩

theorem setSize_invariant_in_order_witness :
    (∀ m, ∃ g, (Group.new 4).setSizeCalls (fun _ => true)
        ([(0, 5), (0, 4), (1, 3), (3, 1)].take m) = some g ∧
      OffsetInvariant g.m_offset (registered ([(0, 5), (0, 4), (1, 3), (3, 1)].take m))) ∧
    (∀ m, ∃ g, (Group.new 4).setSizeRounds (fun _ => true) 0
        (([(0, [(1, 3), (0, 5)]), (2, [(2, 1), (3, 2)])].take m).map (·.2)) = some g ∧
      OffsetInvariant g.m_offset
        (registered (([(0, [(1, 3), (0, 5)]), (2, [(2, 1), (3, 2)])].take m).flatMap (·.2)))) :=
  setSize_invariant_in_order (fun _ => true) 4 [(0, 5), (0, 4), (1, 3), (3, 1)] 2 0
    [(0, [(1, 3), (0, 5)]), (2, [(2, 1), (3, 2)])]
    (by decide) (by decide) (by decide) (by decide) (by norm_num) (by decide) (by decide)
    (by decide)

/-! ## `computeEdgeWeights` -/

/-- A loop over the elements with a loop over the faces inside is one loop over the
slots. -/
theorem foldlM_slots {α : Type} (g : ℕ → α → ℕ → Option α) (faces : List ℕ) :
    ∀ (elems : List ℕ) (st : α),
      elems.foldlM (fun st e => faces.foldlM (g e) st) st =
        (elems.flatMap fun e => faces.map fun f => (e, f)).foldlM
          (fun st s => g s.1 st s.2) st := by
  intro elems
  induction elems with
  | nil => intro st; rfl
  | cons e rest ih =>
    intro st
    rw [List.foldlM_cons, List.flatMap_cons, List.foldlM_append]
    have hinner : ∀ (l : List ℕ) (st : α),
        (l.map fun f => (e, f)).foldlM (fun st s => g s.1 st s.2) st = l.foldlM (g e) st := by
      intro l
      induction l with
      | nil => intro st; rfl
      | cons f l ihl =>
        intro st
        simp only [List.map_cons, List.foldlM_cons]
        cases g e st f with
        | none => rfl
        | some st1 => exact ihl st1
    rw [hinner]
    cases faces.foldlM (g e) st with
    | none => rfl
    | some st1 => exact ih st1

/-- The loop of `computeEdgeWeights` over a list of slots, started with `pos` and an
array that has room for the edges of the list: it returns, `pos` has advanced by
the number of edges, the entries outside the visited positions are kept, and the
entry of the `k`-th edge is 100 when its face carries tag 3 and is kept otherwise. -/
theorem edgeLoop_spec (part : Part) (dualGraph : ℕ → ℤ) :
    ∀ (l : List (ℕ × ℕ)) (adj : List ℤ) (pos : ℕ),
      pos + (l.filter fun s => decide (dualGraph (s.1 * 4 + s.2) ≥ 0)).length ≤ adj.length →
      ∃ adj', l.foldlM (fun st s => edgeFace part dualGraph s.1 st s.2) (adj, pos)
          = some (adj', pos + (l.filter fun s => decide (dualGraph (s.1 * 4 + s.2) ≥ 0)).length) ∧
        adj'.length = adj.length ∧
        (∀ i, i < pos → adj'[i]? = adj[i]?) ∧
        (∀ k, ∀ hk : k < (l.filter fun s => decide (dualGraph (s.1 * 4 + s.2) ≥ 0)).length,
          adj'[pos + k]? =
            if part.boundary (part.face
                ((l.filter fun s => decide (dualGraph (s.1 * 4 + s.2) ≥ 0))[k]).1
                ((l.filter fun s => decide (dualGraph (s.1 * 4 + s.2) ≥ 0))[k]).2) = some 3
            then some 100 else adj[pos + k]?) := by
  intro l
  induction l with
  | nil =>
    intro adj pos _
    exact ⟨adj, rfl, rfl, fun _ _ => rfl, fun k hk => absurd hk (by simp)⟩
  | cons s rest ih =>
    intro adj pos hroom
    by_cases hs : dualGraph (s.1 * 4 + s.2) ≥ 0
    · have hfilter : ((s :: rest).filter fun s => decide (dualGraph (s.1 * 4 + s.2) ≥ 0))
          = s :: rest.filter fun s => decide (dualGraph (s.1 * 4 + s.2) ≥ 0) := by
        simp [List.filter_cons, hs]
      rw [hfilter] at hroom ⊢
      simp only [List.length_cons] at hroom ⊢
      have hpos : pos < adj.length := by omega
      by_cases h3 : part.boundary (part.face s.1 s.2) = some 3
      · obtain ⟨adj', hrun, hlen, hlow, hmid⟩ := ih (adj.set pos 100) (pos + 1)
          (by simp only [List.length_set]; omega)
        refine ⟨adj', ?_, by simpa using hlen, ?_, ?_⟩
        · have hstep : edgeFace part dualGraph s.1 (adj, pos) s.2
              = some (adj.set pos 100, pos + 1) := by
            simp only [edgeFace, hs, h3, hpos, if_true]
          rw [List.foldlM_cons, hstep]
          simp only [Option.bind_eq_bind, Option.some_bind]
          rw [hrun]
          congr 2
          omega
        · intro i hi
          rw [hlow i (by omega), List.getElem?_set_ne (by omega)]
        · intro k hk
          cases k with
          | zero =>
            simp only [List.getElem_cons_zero, h3, if_true, Nat.add_zero]
            rw [hlow pos (by omega), List.getElem?_set_self hpos]
          | succ k =>
            simp only [List.getElem_cons_succ]
            have := hmid k (by simpa using hk)
            have e : pos + (k + 1) = pos + 1 + k := by omega
            rw [e, this, List.getElem?_set_ne (by omega)]
      · obtain ⟨adj', hrun, hlen, hlow, hmid⟩ := ih adj (pos + 1) (by omega)
        refine ⟨adj', ?_, hlen, fun i hi => hlow i (by omega), ?_⟩
        · have hstep : edgeFace part dualGraph s.1 (adj, pos) s.2 = some (adj, pos + 1) := by
            simp only [edgeFace, hs, h3, if_true, if_false]
          rw [List.foldlM_cons, hstep]
          simp only [Option.bind_eq_bind, Option.some_bind]
          rw [hrun]
          congr 2
          omega
        · intro k hk
          cases k with
          | zero =>
            simp only [List.getElem_cons_zero, h3, if_false, Nat.add_zero]
            exact hlow pos (by omega)
          | succ k =>
            simp only [List.getElem_cons_succ]
            have := hmid k (by simpa using hk)
            have e : pos + (k + 1) = pos + 1 + k := by omega
            rw [e, this]
    · have hfilter : ((s :: rest).filter fun s => decide (dualGraph (s.1 * 4 + s.2) ≥ 0))
          = rest.filter fun s => decide (dualGraph (s.1 * 4 + s.2) ≥ 0) := by
        simp [List.filter_cons, hs]
      rw [hfilter] at hroom ⊢
      obtain ⟨adj', hrun, hlen, hlow, hmid⟩ := ih adj pos hroom
      refine ⟨adj', ?_, hlen, hlow, hmid⟩
      have hstep : edgeFace part dualGraph s.1 (adj, pos) s.2 = some (adj, pos) := by
        simp only [edgeFace, hs, if_false]
      rw [List.foldlM_cons, hstep]
      simp only [Option.bind_eq_bind, Option.some_bind]
      exact hrun

/-- **C11.** With `nEdges` equal to the number of non-negative slots of the dual
graph, `computeEdgeWeights` returns one entry per such slot, in element-major,
face-minor order: the `k`-th entry belongs to the `k`-th non-negative slot, it is
100 when the face of that slot carries boundary tag 3 and 1 otherwise. -/
theorem computeEdgeWeights_reference (part : Part) (dualGraph : ℕ → ℤ) (nEdges : ℕ)
    (hn : nEdges = (edgeSlots part dualGraph).length) :
    computeEdgeWeights part dualGraph nEdges = some (edgeWeightsReference part dualGraph) ∧
    (edgeWeightsReference part dualGraph).length = nEdges ∧
    ∀ k, ∀ hk : k < (edgeSlots part dualGraph).length,
      ∃ w, (edgeWeightsReference part dualGraph)[k]? = some w ∧ (w = 1 ∨ w = 100) ∧
        (w = 100 ↔ part.boundary (part.face ((edgeSlots part dualGraph)[k]).1
          ((edgeSlots part dualGraph)[k]).2) = some 3) := by
  refine ⟨?_, by simp [edgeWeightsReference, hn], ?_⟩
  · unfold computeEdgeWeights
    rw [foldlM_slots (edgeFace part dualGraph) (List.range 4)]
    obtain ⟨adj', hrun, hlen, -, hmid⟩ := edgeLoop_spec part dualGraph (allSlots part)
      (List.replicate nEdges 1) 0 (by simp [hn, edgeSlots])
    unfold allSlots at hrun
    rw [hrun]
    simp only [Option.map_some', Option.some.injEq]
    apply List.ext_getElem?
    intro i
    by_cases hi : i < (edgeSlots part dualGraph).length
    · have := hmid i hi
      simp only [Nat.zero_add] at this
      rw [this]
      simp only [edgeWeightsReference, List.getElem?_map, List.getElem?_eq_getElem hi,
        Option.map_some']
      have hrep : (List.replicate nEdges (1 : ℤ))[i]? = some 1 := by
        rw [List.getElem?_replicate, if_pos (by omega)]
      by_cases h3 : part.boundary (part.face ((edgeSlots part dualGraph)[i]).1
          ((edgeSlots part dualGraph)[i]).2) = some 3
      · rw [if_pos h3]
        exact if_pos h3
      · rw [if_neg h3, ← hrep]
        exact if_neg h3
    · have h1 : adj'.length ≤ i := by
        rw [hlen, List.length_replicate, hn]; omega
      have h2 : (edgeWeightsReference part dualGraph).length ≤ i := by
        simp only [edgeWeightsReference, List.length_map]; omega
      rw [List.getElem?_eq_none h1, List.getElem?_eq_none h2]
  · intro k hk
    refine ⟨if part.boundary (part.face ((edgeSlots part dualGraph)[k]).1
        ((edgeSlots part dualGraph)[k]).2) = some 3 then 100 else 1, ?_, ?_, ?_⟩
    · simp [edgeWeightsReference, List.getElem?_eq_getElem hk]
    · split
      · exact Or.inr rfl
      · exact Or.inl rfl
    · split
      · simpa
      · simpa

theorem computeEdgeWeights_reference_witness :
    computeEdgeWeights twoFaultFaces (fun i => if i % 4 < 2 then 7 else -1) 6
      = some (edgeWeightsReference twoFaultFaces (fun i => if i % 4 < 2 then 7 else -1)) ∧
    (edgeWeightsReference twoFaultFaces (fun i => if i % 4 < 2 then 7 else -1)).length = 6 ∧
    ∀ k, ∀ hk : k < (edgeSlots twoFaultFaces (fun i => if i % 4 < 2 then 7 else -1)).length,
      ∃ w, (edgeWeightsReference twoFaultFaces (fun i => if i % 4 < 2 then 7 else -1))[k]?
          = some w ∧ (w = 1 ∨ w = 100) ∧
        (w = 100 ↔ twoFaultFaces.boundary (twoFaultFaces.face
          ((edgeSlots twoFaultFaces (fun i => if i % 4 < 2 then 7 else -1))[k]).1
          ((edgeSlots twoFaultFaces (fun i => if i % 4 < 2 then 7 else -1))[k]).2) = some 3) :=
  computeEdgeWeights_reference twoFaultFaces (fun i => if i % 4 < 2 then 7 else -1) 6
    (by decide)

/-! ## The allowed difference in the local pass -/

/-- **C12.** In the local pass the allowed difference of a face depends on the
faces visited before: `difference` is set once per element and stays 0 after the
first neighbour with `dynamicRupture > 0`.  On `faultBesideRegular` with the
clusters 2, 2, 1, 2 and `maxDifference = 1`, element 0 first meets element 1
(`dynamicRupture > 0`, cluster 2) and then element 2 (no dynamic rupture, cluster
1): every face of every element satisfies the bound of its own neighbour
(`2 ≤ 1 + 1` for face 1 of element 0), so the pass with the allowed difference
taken per face changes nothing and counts 0, while the pass of the code lowers
element 0 to cluster 1 and counts one reduction. -/
theorem localPass_difference_carried :
    (∀ e < faultBesideRegular.elements.length, ∀ f ∈ faultBesideRegular.faces e,
      faultBesideRegular.regular f → ∀ nb ∈ faultBesideRegular.getUp f, nb ≠ e →
        faultBesideRegularCluster e ≤ faultBesideRegularCluster nb +
          (if faultBesideRegular.dynamicRupture nb > 0 then 0 else 1)) ∧
    (localPassReference faultBesideRegular 1 faultBesideRegular.dynamicRupture
        faultBesideRegularCluster).map (fun r => ((List.range 4).map r.1, r.2))
      = some ([2, 2, 1, 2], 0) ∧
    (localPass faultBesideRegular 1 faultBesideRegular.dynamicRupture
        faultBesideRegularCluster).map (fun r => ((List.range 4).map r.1, r.2))
      = some ([1, 2, 1, 2], 1) := by
  refine ⟨?_, by decide, by decide⟩
  intro e he f hf hreg nb hnb hne
  have he4 : e < 4 := he
  have hnb4 : nb < 4 := ((mem_getUp faultBesideRegular f nb).mp hnb).1
  have hfnb := ((mem_getUp faultBesideRegular f nb).mp hnb).2
  interval_cases e <;> interval_cases nb <;>
    simp [faultBesideRegular, Part.faces, Downward.toList, Part.regular] at hf hfnb hreg hne ⊢ <;>
    simp_all +decide [faultBesideRegularCluster, Part.dynamicRupture, Part.faces, Downward.toList]

/-! ## The postcondition of `enforceDynamicRuptureGTS` -/

/-- The first loop of `enforceDynamicRuptureGTS` returns its start value or the
cluster of an element with `dynamicRupture > 0`. -/
theorem localMin_fold_mem (dr cl : ℕ → ℤ) (l : List ℕ) (m : ℤ) :
    l.foldl (fun m e => if dr e > 0 then min m (cl e) else m) m = m ∨
    ∃ e ∈ l, dr e > 0 ∧ l.foldl (fun m e => if dr e > 0 then min m (cl e) else m) m = cl e := by
  induction l generalizing m with
  | nil => exact Or.inl rfl
  | cons a rest ih =>
    simp only [List.foldl_cons]
    rcases ih (if dr a > 0 then min m (cl a) else m) with h | ⟨e, he, hdr, h⟩
    · by_cases ha : dr a > 0
      · rw [if_pos ha] at h ⊢
        rcases min_choice m (cl a) with hm | hm
        · exact Or.inl (by rw [h, hm])
        · exact Or.inr ⟨a, by simp, ha, by rw [h, hm]⟩
      · rw [if_neg ha] at h ⊢
        exact Or.inl h
    · exact Or.inr ⟨e, by simp [he], hdr, h⟩

theorem foldl_min_mem (xs : List ℤ) (x : ℤ) : xs.foldl min x = x ∨ xs.foldl min x ∈ xs := by
  induction xs generalizing x with
  | nil => exact Or.inl rfl
  | cons a rest ih =>
    simp only [List.foldl_cons]
    rcases ih (min x a) with h | h
    · rcases min_choice x a with hm | hm
      · exact Or.inl (by rw [h, hm])
      · exact Or.inr (by rw [h, hm]; simp)
    · exact Or.inr (by simp [h])

theorem allreduceMin_mem (xs : List ℤ) (h : xs ≠ []) : allreduceMin xs ∈ xs := by
  cases xs with
  | nil => exact absurd rfl h
  | cons x rest =>
    simp only [allreduceMin]
    rcases foldl_min_mem rest x with h | h
    · rw [h]; simp
    · simp [h]

/-- With clusters that are `int` values and an element with `dynamicRupture > 0`
on some rank, `globalMinCluster` is the cluster of such an element. -/
theorem globalMinCluster_attained (mesh : Mesh) (dr cl : IntTag)
    (hint : ∀ p e, cl p e ≤ INT_MAX) (p e : ℕ) (he : e < (part mesh p).elements.length)
    (hdr : dr p e > 0) :
    ∃ q x, x < (part mesh q).elements.length ∧ dr q x > 0 ∧
      cl q x = globalMinCluster mesh dr cl := by
  have hp := rank_lt_of_element mesh p e he
  have hne : ((List.range mesh.length).map fun p =>
      localMinCluster (part mesh p) (dr p) (cl p)) ≠ [] := by
    intro h
    have hlen := congrArg List.length h
    simp only [List.length_map, List.length_range, List.length_nil] at hlen
    omega
  obtain ⟨q, -, hq⟩ := List.mem_map.mp (allreduceMin_mem _ hne)
  rcases localMin_fold_mem (dr q) (cl q) (List.range (part mesh q).elements.length) INT_MAX
    with h | ⟨x, hx, hxdr, h⟩
  · refine ⟨p, e, he, hdr, le_antisymm ?_ (globalMinCluster_le mesh dr cl p e he hdr)⟩
    have hg : globalMinCluster mesh dr cl = INT_MAX := by
      unfold globalMinCluster
      rw [← hq]
      exact h
    rw [hg]
    exact hint p e
  · refine ⟨q, x, List.mem_range.mp hx, hxdr, ?_⟩
    unfold globalMinCluster
    rw [← hq]
    exact h.symm

/-- The second loop of `enforceDynamicRuptureGTS` over a list without repetition:
the count grows by the number of elements with `dynamicRupture > 0` whose cluster
is not `gmin`, and exactly the elements of the list with `dynamicRupture > 0` are
written. -/
theorem gtsAssign_count (dr : ℕ → ℤ) (gmin : ℤ) (l : List ℕ) (hl : l.Nodup)
    (st : (ℕ → ℤ) × ℤ) :
    (l.foldl (fun st e =>
      if dr e > 0 ∧ st.1 e ≠ gmin then (setTag st.1 e gmin, st.2 + 1) else st) st).2
      = st.2 + ((l.filter fun e => decide (dr e > 0 ∧ st.1 e ≠ gmin)).length : ℤ) ∧
    ∀ x, (l.foldl (fun st e =>
      if dr e > 0 ∧ st.1 e ≠ gmin then (setTag st.1 e gmin, st.2 + 1) else st) st).1 x
      = if x ∈ l ∧ dr x > 0 then gmin else st.1 x := by
  induction l generalizing st with
  | nil => simp
  | cons a rest ih =>
    obtain ⟨ha, hrest⟩ := List.nodup_cons.mp hl
    simp only [List.foldl_cons]
    by_cases hc : dr a > 0 ∧ st.1 a ≠ gmin
    · rw [if_pos hc]
      obtain ⟨h1, h2⟩ := ih hrest (setTag st.1 a gmin, st.2 + 1)
      have hfilter : (rest.filter fun e => decide (dr e > 0 ∧ setTag st.1 a gmin e ≠ gmin))
          = rest.filter fun e => decide (dr e > 0 ∧ st.1 e ≠ gmin) := by
        apply List.filter_congr
        intro x hx
        have hxa : x ≠ a := fun h => ha (h ▸ hx)
        simp only [setTag_other _ _ _ _ hxa]
      refine ⟨?_, ?_⟩
      · rw [h1, hfilter, List.filter_cons, if_pos (by simpa using hc)]
        simp only [List.length_cons]
        push_cast
        ring
      · intro x
        rw [h2 x]
        by_cases hxa : x = a
        · subst hxa
          simp [ha, hc.1, setTag_same]
        · simp only [setTag_other _ _ _ _ hxa, List.mem_cons, hxa, false_or]
    · rw [if_neg hc]
      obtain ⟨h1, h2⟩ := ih hrest st
      refine ⟨?_, ?_⟩
      · rw [h1, List.filter_cons, if_neg (by simpa using hc)]
      · intro x
        rw [h2 x]
        by_cases hxa : x = a
        · subst hxa
          by_cases hd : dr x > 0
          · have : st.1 x = gmin := by
              by_contra hne
              exact hc ⟨hd, hne⟩
            simp [ha, hd, this]
          · simp [ha, hd]
        · simp only [List.mem_cons, hxa, false_or]

/-- **C13.** Postcondition of `enforceDynamicRuptureGTS` (clusters are `int`
values).  With `m` the least cluster of the elements with `dynamicRupture > 0` of
all ranks before the call: after the call every such element has cluster `m`, and
the value returned on a rank is the number of its elements with
`dynamicRupture > 0` whose cluster was not `m`.  Every other cluster is unchanged.
Without an element with `dynamicRupture > 0` the call changes nothing and returns
0 on every rank. -/
theorem enforceDynamicRuptureGTS_post (mesh : Mesh) (dr cl : IntTag)
    (hint : ∀ p e, cl p e ≤ INT_MAX) :
    (∀ m, IsLeast {c | ∃ p e, e < (part mesh p).elements.length ∧ dr p e > 0 ∧ cl p e = c} m →
      (∀ p e, e < (part mesh p).elements.length → dr p e > 0 →
        (enforceDynamicRuptureGTS mesh dr cl).1 p e = m) ∧
      (∀ p, (enforceDynamicRuptureGTS mesh dr cl).2 p =
        (((List.range (part mesh p).elements.length).filter
          fun e => decide (dr p e > 0 ∧ cl p e ≠ m)).length : ℤ))) ∧
    (∀ p e, ¬ (e < (part mesh p).elements.length ∧ dr p e > 0) →
      (enforceDynamicRuptureGTS mesh dr cl).1 p e = cl p e) ∧
    ((∀ p e, e < (part mesh p).elements.length → ¬ dr p e > 0) →
      enforceDynamicRuptureGTS mesh dr cl = (cl, fun _ => 0)) := by
  have hcount := fun p => gtsAssign_count (dr p) (globalMinCluster mesh dr cl)
    (List.range (part mesh p).elements.length) (List.nodup_range _) (cl p, 0)
  have hnew : ∀ p e, (enforceDynamicRuptureGTS mesh dr cl).1 p e =
      if e < (part mesh p).elements.length ∧ dr p e > 0 then globalMinCluster mesh dr cl
      else cl p e := by
    intro p e
    have := (hcount p).2 e
    simp only [List.mem_range] at this
    exact this
  have hret : ∀ p, (enforceDynamicRuptureGTS mesh dr cl).2 p =
      (((List.range (part mesh p).elements.length).filter
        fun e => decide (dr p e > 0 ∧ cl p e ≠ globalMinCluster mesh dr cl)).length : ℤ) := by
    intro p
    have := (hcount p).1
    simp only [zero_add] at this
    exact this
  refine ⟨?_, ?_, ?_⟩
  · intro m hm
    obtain ⟨⟨p, e, he, hdr, hcl⟩, hlow⟩ := hm
    have hgm : globalMinCluster mesh dr cl = m := by
      obtain ⟨q, x, hx, hxdr, hxcl⟩ := globalMinCluster_attained mesh dr cl hint p e he hdr
      apply le_antisymm
      · rw [← hcl]
        exact globalMinCluster_le mesh dr cl p e he hdr
      · rw [← hxcl]
        exact hlow ⟨q, x, hx, hxdr, rfl⟩
    refine ⟨?_, ?_⟩
    · intro q x hx hxdr
      rw [hnew q x, if_pos ⟨hx, hxdr⟩, hgm]
    · intro q
      rw [hret q, hgm]
  · intro p e hne
    rw [hnew p e, if_neg hne]
  · intro hnone
    have h1 : (enforceDynamicRuptureGTS mesh dr cl).1 = cl := by
      funext p e
      rw [hnew p e, if_neg (fun h => hnone p e h.1 h.2)]
    have h2 : (enforceDynamicRuptureGTS mesh dr cl).2 = fun _ => 0 := by
      funext p
      rw [hret p]
      have : ((List.range (part mesh p).elements.length).filter
          fun e => decide (dr p e > 0 ∧ cl p e ≠ globalMinCluster mesh dr cl)) = [] := by
        rw [List.filter_eq_nil_iff]
        intro e he
        have := hnone p e (List.mem_range.mp he)
        simp [this]
      rw [this]
      rfl
    exact Prod.ext h1 h2

theorem enforceDynamicRuptureGTS_post_witness :
    (∀ m, IsLeast {c | ∃ p e, e < (part [twoFaultFaces] p).elements.length ∧
        (fun p e => (part [twoFaultFaces] p).dynamicRupture e) p e > 0 ∧
        (fun _ e => if e = 1 then (1 : ℤ) else 2) p e = c} m →
      (∀ p e, e < (part [twoFaultFaces] p).elements.length →
        (fun p e => (part [twoFaultFaces] p).dynamicRupture e) p e > 0 →
        (enforceDynamicRuptureGTS [twoFaultFaces]
          (fun p e => (part [twoFaultFaces] p).dynamicRupture e)
          (fun _ e => if e = 1 then 1 else 2)).1 p e = m) ∧
      (∀ p, (enforceDynamicRuptureGTS [twoFaultFaces]
          (fun p e => (part [twoFaultFaces] p).dynamicRupture e)
          (fun _ e => if e = 1 then 1 else 2)).2 p =
        (((List.range (part [twoFaultFaces] p).elements.length).filter
          fun e => decide ((fun p e => (part [twoFaultFaces] p).dynamicRupture e) p e > 0 ∧
            (fun _ e => if e = 1 then (1 : ℤ) else 2) p e ≠ m)).length : ℤ))) ∧
    (∀ p e, ¬ (e < (part [twoFaultFaces] p).elements.length ∧
        (fun p e => (part [twoFaultFaces] p).dynamicRupture e) p e > 0) →
      (enforceDynamicRuptureGTS [twoFaultFaces]
        (fun p e => (part [twoFaultFaces] p).dynamicRupture e)
        (fun _ e => if e = 1 then 1 else 2)).1 p e = (fun _ e => if e = 1 then (1 : ℤ) else 2) p e) ∧
    ((∀ p e, e < (part [twoFaultFaces] p).elements.length →
        ¬ (fun p e => (part [twoFaultFaces] p).dynamicRupture e) p e > 0) →
      enforceDynamicRuptureGTS [twoFaultFaces]
        (fun p e => (part [twoFaultFaces] p).dynamicRupture e)
        (fun _ e => if e = 1 then 1 else 2) = ((fun _ e => if e = 1 then (1 : ℤ) else 2), fun _ => 0)) :=
  enforceDynamicRuptureGTS_post [twoFaultFaces]
    (fun p e => (part [twoFaultFaces] p).dynamicRupture e)
    (fun _ e => if e = 1 then 1 else 2)
    (fun _ e => by simp only [INT_MAX]; split <;> decide)

/-! ## Neighbours of elements with dynamic rupture at a fixed point -/

/-- One face of the local pass that counts nothing: the cluster is kept, and on a
local face that the pass looks at the cluster is within the allowed difference of
the neighbour, which is 0 for a neighbour with `dynamicRupture > 0`. -/
theorem localFace_zero (part : Part) (maxDifference : ℤ) (dr cl : ℕ → ℤ) (e : ℕ)
    (st r : FaceLoop) (f : ℕ) (hmax : 0 ≤ maxDifference)
    (h : localFace part dr cl e st f = some r) (hd : st.difference ≤ maxDifference)
    (hc : r.numberOfReductions = st.numberOfReductions) :
    r.timeCluster = st.timeCluster ∧ r.difference ≤ maxDifference ∧
    (part.regular f → part.other f = none →
      ∃ e0 e1, part.getUp f = [e0, e1] ∧
        st.timeCluster ≤ cl (if e0 = e then e1 else e0) +
          (if dr (if e0 = e then e1 else e0) > 0 then 0 else maxDifference)) := by
  unfold localFace at h
  simp only [] at h
  by_cases hreg : (part.boundary f).getD (-1) = -1 ∨ (part.boundary f).getD (-1) = 3 ∨
      (part.boundary f).getD (-1) = 6
  · rw [if_pos hreg] at h
    by_cases hsh : (part.other f).isNone
    · rw [if_pos hsh] at h
      split at h
      · rename_i e0 e1 hup
        obtain ⟨nb, hnbdef⟩ : ∃ nb, nb = (if e0 = e then e1 else e0) := ⟨_, rfl⟩
        rw [← hnbdef] at h
        obtain ⟨d, hddef⟩ : ∃ d, d = (if dr nb > 0 then 0 else st.difference) := ⟨_, rfl⟩
        rw [← hddef] at h
        have hd' : d ≤ (if dr nb > 0 then 0 else maxDifference) := by
          rw [hddef]
          split
          · exact le_rfl
          · exact hd
        have hd'' : d ≤ maxDifference := by
          rw [hddef]
          split
          · exact hmax
          · exact hd
        by_cases hgt : st.timeCluster > cl nb + d
        · rw [if_pos hgt] at h
          have h := Option.some.inj h
          subst h
          simp at hc
        · rw [if_neg hgt] at h
          have h := Option.some.inj h
          subst h
          refine ⟨rfl, hd'', fun _ _ => ⟨e0, e1, hup, ?_⟩⟩
          rw [← hnbdef]
          omega
      · cases h
    · rw [if_neg hsh] at h
      simp only [Option.some.injEq] at h
      subst h
      refine ⟨rfl, hd, fun _ ho => ?_⟩
      rw [ho] at hsh
      simp at hsh
  · rw [if_neg hreg] at h
    simp only [Option.some.injEq] at h
    subst h
    exact ⟨rfl, hd, fun hr _ => absurd hr hreg⟩

/-- The loop over the faces of one element, when it counts nothing. -/
theorem faceLoop_zero (part : Part) (maxDifference : ℤ) (dr cl : ℕ → ℤ) (e : ℕ)
    (hmax : 0 ≤ maxDifference) :
    ∀ (faces : List ℕ) (st r : FaceLoop),
      faces.foldlM (localFace part dr cl e) st = some r →
      st.difference ≤ maxDifference →
      st.numberOfReductions ≤ r.numberOfReductions ∧
      (r.numberOfReductions = st.numberOfReductions →
        r.timeCluster = st.timeCluster ∧
        ∀ f ∈ faces, part.regular f → part.other f = none →
          ∃ e0 e1, part.getUp f = [e0, e1] ∧
            st.timeCluster ≤ cl (if e0 = e then e1 else e0) +
              (if dr (if e0 = e then e1 else e0) > 0 then 0 else maxDifference)) := by
  intro faces
  induction faces with
  | nil =>
    intro st r h _
    simp only [List.foldlM_nil] at h
    cases h
    exact ⟨le_rfl, fun _ => ⟨rfl, by simp⟩⟩
  | cons f rest ih =>
    intro st r h hd
    simp only [List.foldlM_cons] at h
    cases hmid : localFace part dr cl e st f with
    | none => rw [hmid] at h; cases h
    | some mid =>
      rw [hmid] at h
      simp only [Option.bind_eq_bind, Option.some_bind] at h
      obtain ⟨a1, -, -, a4, -, -⟩ := localFace_spec part dr cl e st mid f hmid
      have hmd : mid.difference ≤ maxDifference := by rcases a4 with h | h <;> omega
      obtain ⟨b1, b2⟩ := ih mid r h hmd
      refine ⟨by omega, fun hc => ?_⟩
      have hc1 : mid.numberOfReductions = st.numberOfReductions := by omega
      have hc2 : r.numberOfReductions = mid.numberOfReductions := by omega
      obtain ⟨z1, -, z3⟩ := localFace_zero part maxDifference dr cl e st mid f hmax hmid hd hc1
      obtain ⟨b2a, b2b⟩ := b2 hc2
      refine ⟨by omega, ?_⟩
      intro g hg hreg ho
      rcases List.mem_cons.mp hg with rfl | hg
      · exact z3 hreg ho
      · obtain ⟨e0, e1, hup, hle⟩ := b2b g hg hreg ho
        exact ⟨e0, e1, hup, by omega⟩

/-- The element loop of the local pass over a list of elements, when it counts
nothing: every element is within the allowed difference of each neighbour through
a local face that the pass looks at. -/
theorem localPass_zero (part : Part) (maxDifference : ℤ) (dr : ℕ → ℤ) (hmax : 0 ≤ maxDifference) :
    ∀ (l : List ℕ) (st r : (ℕ → ℤ) × ℤ),
      l.foldlM (localElement part maxDifference dr) st = some r → r.2 = st.2 →
      ∀ e ∈ l, ∀ f ∈ part.faces e, part.regular f → part.other f = none →
        ∃ e0 e1, part.getUp f = [e0, e1] ∧
          st.1 e ≤ st.1 (if e0 = e then e1 else e0) +
            (if dr (if e0 = e then e1 else e0) > 0 then 0 else maxDifference) := by
  intro l
  induction l with
  | nil =>
    intro st r _ _ e he
    simp at he
  | cons a rest ih =>
    intro st r h hc
    simp only [List.foldlM_cons] at h
    cases hmid : localElement part maxDifference dr st a with
    | none => rw [hmid] at h; cases h
    | some mid =>
      rw [hmid] at h
      simp only [Option.bind_eq_bind, Option.some_bind] at h
      obtain ⟨a1, -, -, a5, -⟩ := localElement_spec part maxDifference dr st mid a hmax hmid
      obtain ⟨b1, -, -, -, -⟩ := localPass_fold part maxDifference dr hmax rest mid r h
      have hc1 : mid.2 = st.2 := by omega
      have hc2 : r.2 = mid.2 := by omega
      obtain ⟨a5a, -⟩ := a5 hc1
      intro e he
      rcases List.mem_cons.mp he with rfl | he
      · unfold localElement at hmid
        cases hloop : (part.faces e).foldlM (localFace part dr st.1 e)
            ⟨st.1 e, maxDifference, st.2⟩ with
        | none => rw [hloop] at hmid; cases hmid
        | some fl =>
          rw [hloop] at hmid
          simp only [Option.map_some', Option.some.injEq] at hmid
          have hfl : fl.numberOfReductions = st.2 := by rw [← hmid] at hc1; exact hc1
          exact ((faceLoop_zero part maxDifference dr st.1 e hmax _ _ fl hloop le_rfl).2 hfl).2
      · have := ih mid r h hc2 e he
        rw [a5a] at this
        exact this

/-- A sweep that reports no reduction on any rank has found every element within
the allowed difference of each neighbour through a local face that the sweep looks
at; the allowed difference is 0 for a neighbour with `dynamicRupture > 0`. -/
theorem sweep_zero_local {mesh : Mesh} {maxDifference : ℤ}
    {arrive : List Message → List Message} {dr cl : IntTag} {res : IntTag × (ℕ → ℤ)}
    (hmax : 0 ≤ maxDifference)
    (h : enforceMaximumDifference mesh maxDifference arrive dr cl = some res)
    (hz : ∀ p < mesh.length, res.2 p = 0) :
    ∀ p < mesh.length, ∀ e < (part mesh p).elements.length, ∀ f ∈ (part mesh p).faces e,
      (part mesh p).regular f → (part mesh p).other f = none →
      ∃ e0 e1, (part mesh p).getUp f = [e0, e1] ∧
        cl p e ≤ cl p (if e0 = e then e1 else e0) +
          (if dr p (if e0 = e then e1 else e0) > 0 then 0 else maxDifference) := by
  obtain ⟨hon, -⟩ := sweep_eq_some h
  intro p hp e he f hf hreg ho
  obtain ⟨-, l, hl, hrem⟩ := sweepOn_eq_some (hon p hp)
  obtain ⟨a1, -, -, -, -⟩ := localPass_fold (part mesh p) maxDifference (dr p) hmax _ _ l hl
  obtain ⟨b1, -, -, -, -⟩ := receive_fold (part mesh p) maxDifference _ _ _ hrem
  simp only at a1 b1
  rw [hz p hp] at b1
  have hl0 : l.2 = 0 := by omega
  exact localPass_zero (part mesh p) maxDifference (dr p) hmax _ _ l hl hl0 e
    (List.mem_range.mpr he) f hf hreg ho

/-- The part `faultBesideRegular` with the clusters 0, 1, 0, 1 and
`maxDifference = 1` is a fixed point of the normalisation loop, although element 1,
which has `dynamicRupture > 0`, and its neighbour element 0 through the untagged
face 0 have the clusters 1 and 0. -/
theorem fixedPoint_fault_neighbour_differs :
    FixedPoint [faultBesideRegular] 1 id (countDynamicRuptureFaces [faultBesideRegular]).1
      (fun _ e => if e = 1 ∨ e = 3 then 1 else 0) ∧
    (countDynamicRuptureFaces [faultBesideRegular]).1 0 1 > 0 ∧
    0 ∈ (part [faultBesideRegular] 0).faces 0 ∧ 0 ∈ (part [faultBesideRegular] 0).faces 1 ∧
    (part [faultBesideRegular] 0).boundary 0 = none ∧
    (part [faultBesideRegular] 0).other 0 = none ∧
    (fun (_ : ℕ) (e : ℕ) => if e = 1 ∨ e = 3 then (1 : ℤ) else 0) 0 0 ≠
      (fun (_ : ℕ) (e : ℕ) => if e = 1 ∨ e = 3 then (1 : ℤ) else 0) 0 1 :=
  ⟨FixedPoint.of_eval _ _ _ _ _ (by decide) (by decide), by decide, by decide, by decide,
    by decide, by decide, by decide⟩

/-- **C14**, amended.  At a fixed point of the normalisation loop (with
`maxDifference ≥ 0`, and every packed message delivered), let `a` and `b` be two
elements that share a local face that the sweep looks at, or that lie on the two
sides of a partition-boundary face, and let `b` have `dynamicRupture > 0`.  Then
the cluster of `a` is at most the cluster of `b`, and at least that cluster minus
`maxDifference`; the two clusters are equal when `a` has `dynamicRupture > 0` as
well. -/
theorem fixedPoint_fault_neighbour (mesh : Mesh) (maxDifference : ℤ)
    (arrive : List Message → List Message) (dr cl : IntTag)
    (hmax : 0 ≤ maxDifference) (harrive : ∀ l, (arrive l).Perm l)
    (hfix : FixedPoint mesh maxDifference arrive dr cl) :
    (∀ p a b f, a < (part mesh p).elements.length → b < (part mesh p).elements.length →
      a ≠ b → f ∈ (part mesh p).faces a → f ∈ (part mesh p).faces b →
      (part mesh p).other f = none → (part mesh p).regular f → dr p b > 0 →
      cl p a ≤ cl p b ∧ cl p b ≤ cl p a + maxDifference ∧ (dr p a > 0 → cl p a = cl p b)) ∧
    (∀ p q a b f g, a < (part mesh p).elements.length → b < (part mesh q).elements.length →
      f ∈ (part mesh p).faces a → g ∈ (part mesh q).faces b →
      (part mesh p).other f = some (q, g) → (part mesh q).other g = some (p, f) →
      dr q b > 0 →
      cl p a ≤ cl q b ∧ cl q b ≤ cl p a + maxDifference ∧ (dr p a > 0 → cl p a = cl q b)) := by
  have hgts := hfix.gts_eq
  obtain ⟨-, res, hres, hz⟩ := hfix
  rw [hgts] at hres
  have hloc := sweep_zero_local hmax hres hz
  have hsweep := sweep_zero hmax hres hz
  constructor
  · intro p a b f ha hb hab hfa hfb ho hreg hdr
    have hp := rank_lt_of_element mesh p a ha
    obtain ⟨e0, e1, hup, hle⟩ := hloc p hp a ha f hfa hreg ho
    obtain ⟨e0', e1', hup', hle'⟩ := hloc p hp b hb f hfb hreg ho
    rw [neighbour_eq _ f a b e0 e1 hup ha hb hab hfa hfb, if_pos hdr] at hle
    rw [neighbour_eq _ f b a e0' e1' hup' hb ha (Ne.symm hab) hfb hfa] at hle'
    refine ⟨by omega, ?_, fun hdra => ?_⟩
    · split at hle' <;> omega
    · rw [if_pos hdra] at hle'
      omega
  · have hone : ∀ p q a b f g, a < (part mesh p).elements.length →
        b < (part mesh q).elements.length → f ∈ (part mesh p).faces a →
        g ∈ (part mesh q).faces b → (part mesh p).other f = some (q, g) →
        cl q b ≤ cl p a + (if dr p a > 0 then 0 else maxDifference) := by
      intro p q a b f g ha hb hfa hgb ho
      have hq := rank_lt_of_element mesh q b hb
      obtain ⟨-, hrem⟩ := hsweep q hq
      have hm : (⟨q, g, cl p a, dr p a⟩ : Message) ∈ arrive (allSent mesh dr cl) :=
        (harrive _).symm.subset (mem_allSent mesh dr cl p a f q g ha hfa ho)
      obtain ⟨e, hup, hle⟩ := hrem _ hm rfl
      have hbe : b ∈ (part mesh q).getUp g := (mem_getUp _ g b).mpr ⟨hb, hgb⟩
      rw [hup] at hbe
      have hbe' : b = e := by simpa using hbe
      subst hbe'
      exact hle
    intro p q a b f g ha hb hfa hgb ho ho' hdr
    have h1 := hone q p b a g f hb ha hgb hfa ho'
    have h2 := hone p q a b f g ha hb hfa hgb ho
    rw [if_pos hdr] at h1
    refine ⟨by omega, ?_, fun hdra => ?_⟩
    · split at h2 <;> omega
    · rw [if_pos hdra] at h2
      omega

theorem fixedPoint_fault_neighbour_witness :
    (∀ p a b f, a < (part [twoFaultFaces] p).elements.length →
      b < (part [twoFaultFaces] p).elements.length →
      a ≠ b → f ∈ (part [twoFaultFaces] p).faces a → f ∈ (part [twoFaultFaces] p).faces b →
      (part [twoFaultFaces] p).other f = none → (part [twoFaultFaces] p).regular f →
      (countDynamicRuptureFaces [twoFaultFaces]).1 p b > 0 →
      (fun _ _ => 1 : IntTag) p a ≤ (fun _ _ => 1 : IntTag) p b ∧
      (fun _ _ => 1 : IntTag) p b ≤ (fun _ _ => 1 : IntTag) p a + 1 ∧
      ((countDynamicRuptureFaces [twoFaultFaces]).1 p a > 0 →
        (fun _ _ => 1 : IntTag) p a = (fun _ _ => 1 : IntTag) p b)) ∧
    (∀ p q a b f g, a < (part [twoFaultFaces] p).elements.length →
      b < (part [twoFaultFaces] q).elements.length →
      f ∈ (part [twoFaultFaces] p).faces a → g ∈ (part [twoFaultFaces] q).faces b →
      (part [twoFaultFaces] p).other f = some (q, g) →
      (part [twoFaultFaces] q).other g = some (p, f) →
      (countDynamicRuptureFaces [twoFaultFaces]).1 q b > 0 →
      (fun _ _ => 1 : IntTag) p a ≤ (fun _ _ => 1 : IntTag) q b ∧
      (fun _ _ => 1 : IntTag) q b ≤ (fun _ _ => 1 : IntTag) p a + 1 ∧
      ((countDynamicRuptureFaces [twoFaultFaces]).1 p a > 0 →
        (fun _ _ => 1 : IntTag) p a = (fun _ _ => 1 : IntTag) q b)) :=
  fixedPoint_fault_neighbour [twoFaultFaces] 1 id (countDynamicRuptureFaces [twoFaultFaces]).1
    (fun _ _ => 1) (by decide) (fun l => List.Perm.refl l) twoFaultFaces_fixedPoint

/-! ## One collective `setSize` with consecutive partitions -/

/-- **C15.** `setSize` with `PARALLEL` on a table with `P` partitions (fewer than
`2 ^ 64` entries): when the gathered buffer holds the `n` distinct partitions
`base, ..., base + n - 1` in any assignment to the ranks, `base + n ≤ P`,
`offset[base]` is set and the sums stay in `size_t`, then on every rank the call
passes the check, calls the hook `setOffset(partition + 1)` and returns its
result, and afterwards `offset[base + k]` is `offset[base]` plus the sizes
reported for the partitions `base, ..., base + k - 1`, for every `k` in `1..n`,
while every other entry is unchanged. -/
theorem setSizeParallel_consecutive (setOffset : ℕ → Bool) (g : Group)
    (mpiRank n base P o : ℕ) (buf : List (ℕ × ℕ))
    (hlen : g.m_offset.length = P + 1) (hP : P + 1 < 2 ^ 64) (hr : mpiRank < n)
    (hperm : (buf.map (·.1)).Perm (List.range' base n)) (hin : base + n ≤ P)
    (ho : g.m_offset[base]? = some o) (hset : o ≠ SIZE_MAX)
    (hS : o + (buf.map (·.2)).sum < 2 ^ 64) :
    ∃ t, g.setSizeParallel setOffset mpiRank buf =
        some (setOffset ((buf.getD mpiRank (0, 0)).1 + 1),
          ⟨t, g.persisted ++ [(buf.getD mpiRank (0, 0)).1 + 1]⟩) ∧
      t.length = P + 1 ∧
      (∀ k, 1 ≤ k → k ≤ n → t[base + k]? =
        some (o + ((List.range' base k).map fun p => (registered buf p).getD 0).sum)) ∧
      (∀ i, (i ≤ base ∨ base + n < i) → t[i]? = g.m_offset[i]?) := by
  have hbase := findBase_of_perm buf base n mpiRank hperm hr
  have hlenb : buf.length = n := by
    have := hperm.length_eq; simpa using this
  have hmem : ∀ c ∈ buf, base ≤ c.1 ∧ c.1 < base + n := by
    intro c hc
    have : c.1 ∈ List.range' base n := hperm.subset (List.mem_map.mpr ⟨c, hc, rfl⟩)
    simpa [List.mem_range'_1] using this
  have hex : ∀ p, base ≤ p → p < base + n → ∃ c ∈ buf, c.1 = p := by
    intro p h1 h2
    have : p ∈ buf.map (·.1) := hperm.symm.subset (by simp [List.mem_range'_1]; omega)
    simpa using this
  have hnd : (buf.map (·.1)).Nodup := hperm.symm.nodup (List.nodup_range' base n)
  refine ⟨accumulate base (List.range buf.length) (bucket buf g.m_offset),
    by simp only [Group.setSizeParallel, hbase, ho]; simp [hset], ?_⟩
  -- the table after the bucket loop
  have hin64 : ∀ c ∈ buf, c.1 + 1 < 2 ^ 64 := fun c hc => by
    have := hmem c hc; omega
  have hinlen : ∀ c ∈ buf, c.1 + 1 < g.m_offset.length := fun c hc => by
    have := hmem c hc; omega
  have hb_len : (bucket buf g.m_offset).length = P + 1 := by rw [bucket_length, hlen]
  have hb_out : ∀ i, (i ≤ base ∨ base + n < i) →
      (bucket buf g.m_offset)[i]? = g.m_offset[i]? := by
    intro i hi
    apply bucket_get_of_not_mem _ _ _ hin64
    intro c hc
    have := hmem c hc; omega
  have hb_in : ∀ p, base ≤ p → p < base + n →
      (bucket buf g.m_offset).getD (p + 1) 0 = (registered buf p).getD 0 := by
    intro p h1 h2
    obtain ⟨c, hc, hcp⟩ := hex p h1 h2
    have hcm : (p, c.2) ∈ buf := by rw [← hcp]; exact hc
    rw [List.getD_eq_getElem?_getD,
      bucket_get_of_mem buf g.m_offset p c.2 hin64 hinlen hnd hcm]
    have hreg : registered buf p = some c.2 := registered_foldl_of_mem buf p c.2 none hnd hcm
    rw [hreg]
  have hb_base : (bucket buf g.m_offset).getD base 0 = o := by
    rw [List.getD_eq_getElem?_getD, hb_out base (Or.inl le_rfl), ho]; rfl
  have hb_sum : ∀ k, k ≤ n →
      ((List.range' (base + 1) k).map fun i => (bucket buf g.m_offset).getD i 0).sum
        = ((List.range' base k).map fun p => (registered buf p).getD 0).sum := by
    intro k hk
    rw [show base + 1 = 1 + base by omega, ← List.map_add_range' 1 base k 1, List.map_map]
    congr 1
    apply List.map_congr_left
    intro a ha
    have := List.mem_range'_1.mp ha
    simp only [Function.comp]
    rw [Nat.add_comm 1 a]
    exact hb_in a (by omega) (by omega)
  have hreg_sum : ((List.range' base n).map fun p => (registered buf p).getD 0).sum
      = (buf.map (·.2)).sum := by
    have h2 : ((buf.map (·.1)).map fun p => (registered buf p).getD 0) = buf.map (·.2) := by
      rw [List.map_map]
      apply List.map_congr_left
      intro c hc
      have hreg : registered buf c.1 = some c.2 :=
        registered_foldl_of_mem buf c.1 c.2 none hnd hc
      simp only [Function.comp, hreg]
      rfl
    rw [← (hperm.map _).sum_eq, h2]
  obtain ⟨hlow, hhigh, hmid⟩ := accumulate_spec base n 0 (bucket buf g.m_offset)
    (by rw [hb_len]; omega) (by
      simp only [Nat.add_zero]
      rw [hb_base, hb_sum n le_rfl, hreg_sum]; exact hS)
  simp only [Nat.add_zero] at hlow hhigh hmid
  rw [hb_base] at hmid
  rw [← hlenb, ← List.range_eq_range'] at hlow hhigh hmid
  refine ⟨by rw [accumulate_length, hb_len], ?_, ?_⟩
  · intro k _ hk
    rw [hmid k (by omega), hb_sum k hk]
  · intro i hi
    rcases hi with hi | hi
    · rw [hlow i hi, hb_out i (Or.inl hi)]
    · rw [hhigh i (by omega), hb_out i (Or.inr hi)]

theorem setSizeParallel_consecutive_witness :
    ∃ t, (⟨[0, 5, SIZE_MAX, SIZE_MAX, SIZE_MAX], [1]⟩ : Group).setSizeParallel (fun _ => true) 0
        [(2, 4), (1, 3)] =
        some ((fun _ => true) ((([(2, 4), (1, 3)] : List (ℕ × ℕ)).getD 0 (0, 0)).1 + 1),
          ⟨t, (⟨[0, 5, SIZE_MAX, SIZE_MAX, SIZE_MAX], [1]⟩ : Group).persisted ++
            [(([(2, 4), (1, 3)] : List (ℕ × ℕ)).getD 0 (0, 0)).1 + 1]⟩) ∧
      t.length = 4 + 1 ∧
      (∀ k, 1 ≤ k → k ≤ 2 → t[1 + k]? =
        some (5 + ((List.range' 1 k).map fun p =>
          (registered [(2, 4), (1, 3)] p).getD 0).sum)) ∧
      (∀ i, (i ≤ 1 ∨ 1 + 2 < i) →
        t[i]? = (⟨[0, 5, SIZE_MAX, SIZE_MAX, SIZE_MAX], [1]⟩ : Group).m_offset[i]?) :=
  setSizeParallel_consecutive (fun _ => true) ⟨[0, 5, SIZE_MAX, SIZE_MAX, SIZE_MAX], [1]⟩
    0 2 1 4 5 [(2, 4), (1, 3)] rfl (by norm_num) (by decide) (by decide) (by decide) rfl
    (by rw [SIZE_MAX_eq]; decide) (by norm_num)

/-- The least reported partition does not depend on the order of the pairs or on
the rank that searches it. -/
theorem findBase_perm (buf1 buf2 : List (ℕ × ℕ)) (r1 r2 : ℕ) (hperm : buf1.Perm buf2)
    (h1 : r1 < buf1.length) (h2 : r2 < buf2.length) :
    findBase buf1 (buf1.getD r1 (0, 0)).1 = findBase buf2 (buf2.getD r2 (0, 0)).1 := by
  have hown1 : buf1.getD r1 (0, 0) ∈ buf1 := by
    simp [List.getD_eq_getElem?_getD, List.getElem?_eq_getElem h1]
  have hown2 : buf2.getD r2 (0, 0) ∈ buf2 := by
    simp [List.getD_eq_getElem?_getD, List.getElem?_eq_getElem h2]
  apply le_antisymm
  · rcases findBase_mem buf2 (buf2.getD r2 (0, 0)).1 with h | ⟨d, hd, h⟩
    · rw [h]; exact findBase_le_mem buf1 _ _ (hperm.symm.subset hown2)
    · rw [h]; exact findBase_le_mem buf1 _ d (hperm.symm.subset hd)
  · rcases findBase_mem buf1 (buf1.getD r1 (0, 0)).1 with h | ⟨d, hd, h⟩
    · rw [h]; exact findBase_le_mem buf2 _ _ (hperm.subset hown1)
    · rw [h]; exact findBase_le_mem buf2 _ d (hperm.subset hd)

/-- When every reported partition lies inside the table and the partitions are
pairwise distinct, the loop that stores the gathered sizes does not depend on the
order of the pairs. -/
theorem bucket_perm (buf1 buf2 : List (ℕ × ℕ)) (t : List ℕ) (hperm : buf1.Perm buf2)
    (hnd : (buf1.map (·.1)).Nodup) (hin : ∀ c ∈ buf1, c.1 + 1 < t.length)
    (ht : t.length ≤ 2 ^ 64) : bucket buf1 t = bucket buf2 t := by
  have hnd2 : (buf2.map (·.1)).Nodup := (hperm.map _).nodup_iff.mp hnd
  have hin2 : ∀ c ∈ buf2, c.1 + 1 < t.length := fun c hc => hin c (hperm.symm.subset hc)
  apply List.ext_getElem?
  intro i
  by_cases hi : ∃ c ∈ buf1, c.1 + 1 = i
  · obtain ⟨c, hc, rfl⟩ := hi
    rw [bucket_get_of_mem buf1 t c.1 c.2 (fun x hx => by have := hin x hx; omega) hin hnd hc,
      bucket_get_of_mem buf2 t c.1 c.2 (fun x hx => by have := hin2 x hx; omega) hin2 hnd2
        (hperm.subset hc)]
  · rw [bucket_get_of_not_mem buf1 t i (fun x hx => by have := hin x hx; omega)
        (fun c hc hci => hi ⟨c, hc, hci⟩),
      bucket_get_of_not_mem buf2 t i (fun x hx => by have := hin2 x hx; omega)
        (fun c hc hci => hi ⟨c, hperm.symm.subset hc, hci⟩)]

/-- With pairwise distinct partitions that all lie inside the table, a collective
`setSize` finds the same base partition, takes the same branch and leaves the same
table for every order of the pairs. -/
theorem setSizeParallel_perm_inside (setOffset : ℕ → Bool) (g : Group)
    (buf1 buf2 : List (ℕ × ℕ)) (r1 r2 : ℕ) (hperm : buf1.Perm buf2)
    (h1 : r1 < buf1.length) (h2 : r2 < buf2.length)
    (hnd : (buf1.map (·.1)).Nodup) (hin : ∀ c ∈ buf1, c.1 + 1 < g.m_offset.length)
    (ht : g.m_offset.length ≤ 2 ^ 64) :
    findBase buf1 (buf1.getD r1 (0, 0)).1 = findBase buf2 (buf2.getD r2 (0, 0)).1 ∧
    (g.setSizeParallel setOffset r1 buf1).map (·.2.m_offset) =
      (g.setSizeParallel setOffset r2 buf2).map (·.2.m_offset) := by
  have hbase := findBase_perm buf1 buf2 r1 r2 hperm h1 h2
  refine ⟨hbase, ?_⟩
  unfold Group.setSizeParallel
  simp only []
  rw [← hbase, ← bucket_perm buf1 buf2 g.m_offset hperm hnd hin ht, ← hperm.length_eq]
  cases g.m_offset[findBase buf1 (buf1.getD r1 (0, 0)).1]? with
  | none => rfl
  | some o =>
    simp only []
    split <;> rfl

/-! ## The order of the pairs in a collective `setSize` -/

/-- **C16.** The loop that stores the gathered sizes stops at the first pair whose
partition lies outside the table, so the pairs behind it are not stored and the
result depends on the order of the pairs.  On a table with 3 partitions, after the
round `(0, 5), (1, 3)`, the round with the pairs `(2, 4), (3, 0)` yields the table
`0, 5, 8, 12`; the same two pairs in the other order find the same base partition
2 and pass the same check, but yield the table `0, 5, 8, 7`: the size of partition
2 is not stored and the running sum adds to the mark `SIZE_MAX`. -/
theorem setSizeParallel_order_dependent :
    ([(2, 4), (3, 0)] : List (ℕ × ℕ)).Perm [(3, 0), (2, 4)] ∧
    findBase [(2, 4), (3, 0)] 2 = 2 ∧ findBase [(3, 0), (2, 4)] 3 = 2 ∧
    ((Group.new 3).setSizeRounds (fun _ => true) 0 [[(0, 5), (1, 3)], [(2, 4), (3, 0)]]).map
      (·.m_offset) = some [0, 5, 8, 12] ∧
    ((Group.new 3).setSizeRounds (fun _ => true) 0 [[(0, 5), (1, 3)], [(3, 0), (2, 4)]]).map
      (·.m_offset) = some [0, 5, 8, 7] :=
  ⟨List.Perm.swap _ _ _, by decide, by decide, by decide, by decide⟩

/-! ## What one `setSize` call leaves unchanged -/

/-- The loop that stores the gathered sizes writes only behind the reported
partitions. -/
theorem bucket_frame (buf : List (ℕ × ℕ)) (t : List ℕ) (i : ℕ)
    (h : ∀ c ∈ buf, (c.1 + 1) % 2 ^ 64 ≠ i) : (bucket buf t)[i]? = t[i]? := by
  induction buf generalizing t with
  | nil => rfl
  | cons c rest ih =>
    simp only [bucket]
    split
    · rfl
    · rw [ih _ (fun x hx => h x (by simp [hx]))]
      exact List.getElem?_set_ne (h c (by simp))

/-- The loop of the running sum writes only the entries `basePartition + j + 1`. -/
theorem accumulate_frame (base : ℕ) (js : List ℕ) (t : List ℕ) (i : ℕ)
    (h : ∀ j ∈ js, base + j + 1 ≠ i) : (accumulate base js t)[i]? = t[i]? := by
  induction js generalizing t with
  | nil => rfl
  | cons j rest ih =>
    simp only [accumulate]
    split
    · rfl
    · rw [ih _ (fun x hx => h x (by simp [hx]))]
      exact List.getElem?_set_ne (h j (by simp))

/-- Counterexample to **C17** as stated: on a fresh table with two partitions the
call `setSize(0, 5)` sets `offset[1] = 5`, and the call `setSize(0, 2)` that
follows it succeeds and lowers this entry to 2. -/
theorem setSize_lowers_set_entry :
    ∃ g r, (Group.new 2).setSizeCalls (fun _ => true) [(0, 5)] = some g ∧
      g.m_offset[1]? = some 5 ∧ 5 ≠ SIZE_MAX ∧
      g.setSize (fun _ => true) 0 2 = some (true, r) ∧ r.m_offset[1]? = some 2 :=
  ⟨⟨[0, 5, SIZE_MAX], [1]⟩, ⟨[0, 2, SIZE_MAX], [1, 1]⟩, by decide, by decide, by decide,
    by decide, by decide⟩

/-- **C17**, amended.  A call of `setSize` changes only the entries that it writes.
Without `PARALLEL`, `setSize(partition, size)` leaves every entry other than
`offset[partition + 1]` as it was; so when `offset[partition + 1]` was not set
before the call, every entry that was set before the call is still set after it,
with the same value.  With `PARALLEL`, the call leaves every entry as it was that
lies neither behind a reported partition nor among
`offset[basePartition + 1], ..., offset[basePartition + n]` for the `n` ranks; so
when no entry behind `basePartition` was set before the call (and no reported
partition is `SIZE_MAX`), every entry that was set before the call is still set
after it, with the same value.  (An entry that is written again can go down.) -/
theorem setSize_frame (setOffset : ℕ → Bool) (g : Group) :
    (∀ partition size r, g.setSize setOffset partition size = some r →
      ∀ i, i ≠ partition + 1 → r.2.m_offset[i]? = g.m_offset[i]?) ∧
    (∀ partition size r, g.setSize setOffset partition size = some r →
      (∀ a, g.m_offset[partition + 1]? = some a → a = SIZE_MAX) →
      ∀ (i a : ℕ), g.m_offset[i]? = some a → a ≠ SIZE_MAX → r.2.m_offset[i]? = some a) ∧
    (∀ mpiRank buf r, g.setSizeParallel setOffset mpiRank buf = some r →
      ∀ i, (∀ c ∈ buf, (c.1 + 1) % 2 ^ 64 ≠ i) →
        (i ≤ findBase buf (buf.getD mpiRank (0, 0)).1 ∨
          findBase buf (buf.getD mpiRank (0, 0)).1 + buf.length < i) →
        r.2.m_offset[i]? = g.m_offset[i]?) ∧
    (∀ mpiRank buf r, g.setSizeParallel setOffset mpiRank buf = some r →
      (∀ c ∈ buf, c.1 < SIZE_MAX) →
      (∀ (i a : ℕ), g.m_offset[i]? = some a → a ≠ SIZE_MAX →
        i ≤ findBase buf (buf.getD mpiRank (0, 0)).1) →
      ∀ (i a : ℕ), g.m_offset[i]? = some a → a ≠ SIZE_MAX → r.2.m_offset[i]? = some a) := by
  have hframe : ∀ partition size r, g.setSize setOffset partition size = some r →
      ∀ i, i ≠ partition + 1 → r.2.m_offset[i]? = g.m_offset[i]? := by
    intro partition size r h i hi
    unfold Group.setSize at h
    simp only [] at h
    cases ho : g.m_offset[partition]? with
    | none => rw [ho] at h; cases h
    | some o =>
      rw [ho] at h
      simp only [] at h
      by_cases hmax : o = SIZE_MAX
      · rw [if_pos hmax] at h
        cases h
        rfl
      · rw [if_neg hmax] at h
        cases h
        simp only []
        split
        · exact List.getElem?_set_ne (Ne.symm hi)
        · rfl
  have hframeParallel : ∀ mpiRank buf r, g.setSizeParallel setOffset mpiRank buf = some r →
      ∀ i, (∀ c ∈ buf, (c.1 + 1) % 2 ^ 64 ≠ i) →
        (i ≤ findBase buf (buf.getD mpiRank (0, 0)).1 ∨
          findBase buf (buf.getD mpiRank (0, 0)).1 + buf.length < i) →
        r.2.m_offset[i]? = g.m_offset[i]? := by
    intro mpiRank buf r h i hbuf hi
    unfold Group.setSizeParallel at h
    simp only [] at h
    cases ho : g.m_offset[findBase buf (buf.getD mpiRank (0, 0)).1]? with
    | none => rw [ho] at h; cases h
    | some o =>
      rw [ho] at h
      simp only [] at h
      by_cases hmax : o = SIZE_MAX
      · rw [if_pos hmax] at h
        cases h
        rfl
      · rw [if_neg hmax] at h
        cases h
        simp only []
        rw [accumulate_frame _ _ _ _ (fun j hj => by
          have := List.mem_range.mp hj
          omega), bucket_frame _ _ _ hbuf]
  refine ⟨hframe, ?_, hframeParallel, ?_⟩
  · intro partition size r h hunset i a hia ha
    rw [hframe partition size r h i (fun hi => ha (hunset a (hi ▸ hia))), hia]
  · intro mpiRank buf r h hbuf hbefore i a hia ha
    have hi := hbefore i a hia ha
    rw [hframeParallel mpiRank buf r h i (fun c hc => by
      have h1 := findBase_le_mem buf (buf.getD mpiRank (0, 0)).1 c hc
      have h2 := hbuf c hc
      rw [SIZE_MAX_eq] at h2
      have hmod : (c.1 + 1) % 18446744073709551616 = c.1 + 1 := Nat.mod_eq_of_lt (by omega)
      norm_num
      omega) (Or.inl hi), hia]

/-! ## Clusters stay non-negative and only go down, as long as no sum overflows -/

/-- One face of the local pass: the `int` sum is the mathematical sum when the
clusters of the rank are at least `-2 ^ 31` and, with `maxDifference` added, at most
`INT_MAX`. -/
theorem localFaceInt_eq (part : Part) (maxDifference : ℤ) (dr cl : ℕ → ℤ) (e : ℕ)
    (st : FaceLoop) (f : ℕ)
    (hcl : ∀ x < part.elements.length, 0 ≤ cl x ∧ cl x + maxDifference ≤ INT_MAX)
    (hd0 : 0 ≤ st.difference) (hd1 : st.difference ≤ maxDifference) :
    localFaceInt part dr cl e st f = localFace part dr cl e st f := by
  unfold localFaceInt localFace
  simp only []
  split
  · split
    · split
      · rename_i e0 e1 hup
        have hnb : (if e0 = e then e1 else e0) < part.elements.length := by
          have h0 : e0 ∈ part.getUp f := by rw [hup]; simp
          have h1 : e1 ∈ part.getUp f := by rw [hup]; simp
          split
          · exact ((mem_getUp part f e1).mp h1).1
          · exact ((mem_getUp part f e0).mp h0).1
        have hr := hcl _ hnb
        generalize (if e0 = e then e1 else e0) = nb at hr
        have hw : wrapInt (cl nb + (if dr nb > 0 then 0 else st.difference))
            = cl nb + (if dr nb > 0 then 0 else st.difference) := by
          unfold INT_MAX at hr
          apply wrapInt_of_range
          · split <;> omega
          · split <;> omega
        rw [hw]
      · rfl
    · rfl
  · rfl

/-- The loop over the faces of one element. -/
theorem faceLoopInt_eq (part : Part) (maxDifference : ℤ) (dr cl : ℕ → ℤ) (e : ℕ)
    (hcl : ∀ x < part.elements.length, 0 ≤ cl x ∧ cl x + maxDifference ≤ INT_MAX) :
    ∀ (faces : List ℕ) (st : FaceLoop), 0 ≤ st.difference → st.difference ≤ maxDifference →
      faces.foldlM (localFaceInt part dr cl e) st = faces.foldlM (localFace part dr cl e) st := by
  intro faces
  induction faces with
  | nil => intro st _ _; rfl
  | cons f rest ih =>
    intro st hd0 hd1
    simp only [List.foldlM_cons]
    rw [localFaceInt_eq part maxDifference dr cl e st f hcl hd0 hd1]
    cases hmid : localFace part dr cl e st f with
    | none => rfl
    | some mid =>
      obtain ⟨-, -, -, a4, -, -⟩ := localFace_spec part dr cl e st mid f hmid
      simp only [Option.bind_eq_bind, Option.some_bind]
      exact ih mid (by rcases a4 with h | h <;> omega) (by rcases a4 with h | h <;> omega)

/-- The local pass over a list of elements. -/
theorem localPassInt_fold_eq (part : Part) (maxDifference : ℤ) (dr : ℕ → ℤ)
    (hmax : 0 ≤ maxDifference) :
    ∀ (l : List ℕ) (st : (ℕ → ℤ) × ℤ),
      (∀ x < part.elements.length, 0 ≤ st.1 x ∧ st.1 x + maxDifference ≤ INT_MAX) →
      l.foldlM (localElementInt part maxDifference dr) st
        = l.foldlM (localElement part maxDifference dr) st := by
  intro l
  induction l with
  | nil => intro st _; rfl
  | cons e rest ih =>
    intro st hcl
    simp only [List.foldlM_cons]
    have hstep : localElementInt part maxDifference dr st e
        = localElement part maxDifference dr st e := by
      unfold localElementInt localElement
      rw [faceLoopInt_eq part maxDifference dr st.1 e hcl _ _ hmax le_rfl]
    rw [hstep]
    cases hmid : localElement part maxDifference dr st e with
    | none => rfl
    | some mid =>
      obtain ⟨-, a2, -, -, a6⟩ := localElement_spec part maxDifference dr st mid e hmax hmid
      simp only [Option.bind_eq_bind, Option.some_bind]
      apply ih
      intro x hx
      have := hcl x hx
      have := a2 x
      exact ⟨a6 (fun y hy => (hcl y hy).1) x hx, by omega⟩

theorem localPassInt_eq (part : Part) (maxDifference : ℤ) (dr cl : ℕ → ℤ)
    (hmax : 0 ≤ maxDifference)
    (hcl : ∀ x < part.elements.length, 0 ≤ cl x ∧ cl x + maxDifference ≤ INT_MAX) :
    localPassInt part maxDifference dr cl = localPass part maxDifference dr cl :=
  localPassInt_fold_eq part maxDifference dr hmax _ (cl, 0) hcl

/-- One received message: the `int` sum is the mathematical sum when the received
cluster is at least 0 and, with `maxDifference` added, at most `INT_MAX`; on a
rank without elements both versions end the job. -/
theorem receiveInt_eq (part : Part) (maxDifference : ℤ) (st : (ℕ → ℤ) × ℤ) (m : Message)
    (hmax : 0 ≤ maxDifference)
    (hm : part.elements = [] ∨ (0 ≤ m.timeCluster ∧ m.timeCluster + maxDifference ≤ INT_MAX)) :
    receiveInt part maxDifference st m = receive part maxDifference st m := by
  unfold receiveInt receive
  simp only []
  split
  · rename_i e hup
    have he : e < part.elements.length :=
      ((mem_getUp part m.entity e).mp (by rw [hup]; simp)).1
    rcases hm with hm | hm
    · rw [hm] at he
      simp at he
    · have hw : wrapInt (m.timeCluster + (if m.dynamicRupture > 0 then 0 else maxDifference))
          = m.timeCluster + (if m.dynamicRupture > 0 then 0 else maxDifference) := by
        unfold INT_MAX at hm
        apply wrapInt_of_range
        · split <;> omega
        · split <;> omega
      rw [hw]
  · rfl

theorem receiveInt_fold_eq (part : Part) (maxDifference : ℤ) (hmax : 0 ≤ maxDifference) :
    ∀ (msgs : List Message) (st : (ℕ → ℤ) × ℤ),
      (∀ m ∈ msgs, part.elements = [] ∨
        (0 ≤ m.timeCluster ∧ m.timeCluster + maxDifference ≤ INT_MAX)) →
      msgs.foldlM (receiveInt part maxDifference) st
        = msgs.foldlM (receive part maxDifference) st := by
  intro msgs
  induction msgs with
  | nil => intro st _; rfl
  | cons m rest ih =>
    intro st hm
    simp only [List.foldlM_cons]
    rw [receiveInt_eq part maxDifference st m hmax (hm m (by simp))]
    cases receive part maxDifference st m with
    | none => rfl
    | some mid =>
      simp only [Option.bind_eq_bind, Option.some_bind]
      exact ih mid (fun x hx => hm x (by simp [hx]))

/-- With clusters that are at least 0 and, with `maxDifference ≥ 0` added, at most
`INT_MAX`, and every packed message delivered, no sum of the sweep leaves the range
of `int`: the sweep with the `int` sums is the sweep with the mathematical sums. -/
theorem enforceMaximumDifferenceInt_eq (mesh : Mesh) (maxDifference : ℤ)
    (arrive : List Message → List Message) (dr cl : IntTag)
    (hmax : 0 ≤ maxDifference) (harrive : ∀ l, (arrive l).Perm l)
    (hcl : ∀ p < mesh.length, ∀ e < (part mesh p).elements.length,
      0 ≤ cl p e ∧ cl p e + maxDifference ≤ INT_MAX) :
    enforceMaximumDifferenceInt mesh maxDifference arrive dr cl
      = enforceMaximumDifference mesh maxDifference arrive dr cl := by
  have hlocal : ∀ q, localPassInt (part mesh q) maxDifference (dr q) (cl q)
      = localPass (part mesh q) maxDifference (dr q) (cl q) := by
    intro q
    apply localPassInt_eq _ _ _ _ hmax
    intro x hx
    exact hcl q (rank_lt_of_element mesh q x hx) x hx
  have hon : ∀ p, enforceMaximumDifferenceOnInt mesh maxDifference arrive dr cl p
      = enforceMaximumDifferenceOn mesh maxDifference arrive dr cl p := by
    intro p
    unfold enforceMaximumDifferenceOnInt enforceMaximumDifferenceOn
    simp only [hlocal]
    split
    · rename_i hall
      cases hl : localPass (part mesh p) maxDifference (dr p) (cl p) with
      | none => rfl
      | some l =>
        simp only [Option.some_bind]
        unfold remotePassInt remotePass
        apply receiveInt_fold_eq _ _ hmax
        intro m hm
        by_cases hp : p < mesh.length
        · right
          have hm' := (List.mem_filter.mp hm).1
          have hsent := (harrive _).subset hm'
          obtain ⟨q, e, hq, he, hmc⟩ := timeCluster_of_mem_allSent mesh dr _ m hsent
          obtain ⟨lq, hlq⟩ := Option.isSome_iff_exists.mp (hall q hq)
          obtain ⟨-, a2, -, -, a6⟩ :=
            localPass_fold (part mesh q) maxDifference (dr q) hmax _ _ lq hlq
          simp only at a2 a6
          rw [hmc, hlq]
          simp only [Option.getD_some]
          have := hcl q hq e he
          have := a2 e
          exact ⟨a6 (fun y hy => (hcl q hq y hy).1) e he, by omega⟩
        · left
          exact part_of_length_le mesh p (by omega)
    · rfl
  unfold enforceMaximumDifferenceInt enforceMaximumDifference
  simp only [hon]

/-- Counterexample to **C18** as stated: on the one-rank scenario with the clusters
0, 1, 2, 0 (all at least 0) and `maxDifference = INT_MAX`, element 0 compares its
cluster 0 with `2 + INT_MAX` computed in `int`, which is `-2147483647`, and is
lowered to this negative cluster. -/
theorem sweep_overflow_negative_cluster :
    (0 : ℤ) ≤ 2147483647 ∧
    (∀ e < 4, (0 : ℤ) ≤ (fun (_ : ℕ) (e : ℕ) => if e = 1 then (1 : ℤ) else if e = 2 then 2 else 0)
      0 e) ∧
    (enforceMaximumDifferenceInt [scenarioLocal] 2147483647 id
        (countDynamicRuptureFaces [scenarioLocal]).1
        (fun _ e => if e = 1 then 1 else if e = 2 then 2 else 0)).map
      (fun r => (List.range 4).map (r.1 0)) = some [-2147483647, 1, 0, 0] := by
  refine ⟨by decide, by decide, by decide⟩

/-- **C18**, amended.  Let all clusters be at least 0, `maxDifference ≥ 0`, every
cluster plus `maxDifference` at most `INT_MAX` (so that no sum of the sweep leaves
the range of `int`), and let every packed message be delivered.  After a call of
`enforceDynamicRuptureGTS` the cluster of every element is at least 0 and at most
its value before the call; the same holds after a sweep of
`enforceMaximumDifference` (local and remote pass, sums computed in `int`) that
returns. -/
theorem clusters_nonneg_decreasing (mesh : Mesh) (maxDifference : ℤ)
    (arrive : List Message → List Message) (dr cl : IntTag)
    (hmax : 0 ≤ maxDifference) (harrive : ∀ l, (arrive l).Perm l)
    (hnn : ∀ p < mesh.length, ∀ e < (part mesh p).elements.length, 0 ≤ cl p e)
    (hfit : ∀ p < mesh.length, ∀ e < (part mesh p).elements.length,
      cl p e + maxDifference ≤ INT_MAX) :
    (∀ p < mesh.length, ∀ e < (part mesh p).elements.length,
      0 ≤ (enforceDynamicRuptureGTS mesh dr cl).1 p e ∧
        (enforceDynamicRuptureGTS mesh dr cl).1 p e ≤ cl p e) ∧
    (∀ res, enforceMaximumDifferenceInt mesh maxDifference arrive dr cl = some res →
      ∀ p < mesh.length, ∀ e < (part mesh p).elements.length,
        0 ≤ res.1 p e ∧ res.1 p e ≤ cl p e) := by
  constructor
  · obtain ⟨h1, -, -, h4⟩ := gts_decr mesh dr cl
    exact fun p hp e he => ⟨h4 hnn p hp e he, h1 p e⟩
  · intro res hres
    rw [enforceMaximumDifferenceInt_eq mesh maxDifference arrive dr cl hmax harrive
      (fun p hp e he => ⟨hnn p hp e he, hfit p hp e he⟩)] at hres
    obtain ⟨h1, -, -, h4⟩ := sweep_decr hmax harrive hres
    exact fun p hp e he => ⟨h4 hnn p hp e he, h1 p e⟩

theorem clusters_nonneg_decreasing_witness :
    (enforceMaximumDifferenceInt scenario 1 id (countDynamicRuptureFaces scenario).1
      (fun p e => if p = 0 then (if e = 0 then 0 else 1) else (if e = 0 then 2 else 0))).isSome
      = true ∧
    ((∀ p < scenario.length, ∀ e < (part scenario p).elements.length,
      0 ≤ (enforceDynamicRuptureGTS scenario (countDynamicRuptureFaces scenario).1
        (fun p e => if p = 0 then (if e = 0 then 0 else 1) else (if e = 0 then 2 else 0))).1 p e ∧
        (enforceDynamicRuptureGTS scenario (countDynamicRuptureFaces scenario).1
          (fun p e => if p = 0 then (if e = 0 then 0 else 1) else (if e = 0 then 2 else 0))).1 p e
          ≤ (fun p e => if p = 0 then (if e = 0 then (0 : ℤ) else 1)
              else (if e = 0 then 2 else 0)) p e) ∧
    (∀ res, enforceMaximumDifferenceInt scenario 1 id (countDynamicRuptureFaces scenario).1
        (fun p e => if p = 0 then (if e = 0 then 0 else 1) else (if e = 0 then 2 else 0))
        = some res →
      ∀ p < scenario.length, ∀ e < (part scenario p).elements.length,
        0 ≤ res.1 p e ∧ res.1 p e ≤ (fun p e => if p = 0 then (if e = 0 then (0 : ℤ) else 1)
              else (if e = 0 then 2 else 0)) p e)) :=
  ⟨by decide,
    clusters_nonneg_decreasing scenario 1 id (countDynamicRuptureFaces scenario).1
      (fun p e => if p = 0 then (if e = 0 then 0 else 1) else (if e = 0 then 2 else 0))
      (by decide) (fun l => List.Perm.refl l)
      (fun p _ e _ => by simp only []; split_ifs <;> decide)
      (fun p _ e _ => by simp only [INT_MAX]; split_ifs <;> decide)⟩

/-! ## The cluster histogram -/

/-- The count of `countDynamicRuptureFaces` over a list of elements: the number of
elements with `dynamicRupture > 0`. -/
theorem localNumDrFaces_count (dr : ℕ → ℤ) (l : List ℕ) (n : ℤ) :
    l.foldl (fun n e => if dr e > 0 then n + 1 else n) n
      = n + ((l.filter fun e => decide (dr e > 0)).length : ℤ) := by
  induction l generalizing n with
  | nil => simp
  | cons a rest ih =>
    simp only [List.foldl_cons]
    rw [ih]
    by_cases ha : dr a > 0
    · rw [if_pos ha, List.filter_cons, if_pos (by simpa using ha)]
      simp only [List.length_cons]
      push_cast
      ring
    · rw [if_neg ha, List.filter_cons, if_neg (by simpa using ha)]

/-- **C20.** Whenever `computeVertexWeights` returns: `globalNumDrFaces` is the
number of elements of all ranks with `dynamicRupture > 0`; `ncon` is 2 if and only
if `enableDRWeights` is set and this number is positive, and 1 otherwise; and when
`ncon` is 2 the second weight `vwgt[2 * i + 1]` of every local element is 1 if the
element has `dynamicRupture > 0` and 0 otherwise. -/
theorem computeVertexWeights_ncon {mesh : Mesh} {arrive : List Message → List Message}
    {ndebug : Bool} {fuel : ℕ} {timestep : ℕ → ℕ → ℚ} {globalMinTimestep globalMaxTimestep : ℚ}
    {timestepRate drToCellRatio : ℤ} {enableDRWeights : Bool} {r : VertexWeights}
    (h : computeVertexWeights mesh arrive ndebug fuel timestep globalMinTimestep
      globalMaxTimestep timestepRate drToCellRatio enableDRWeights = some r) :
    (countDynamicRuptureFaces mesh).2 =
      ((List.range mesh.length).map fun p =>
        (((List.range (part mesh p).elements.length).filter
          fun e => decide ((part mesh p).dynamicRupture e > 0)).length : ℤ)).sum ∧
    (r.ncon = 2 ↔ (enableDRWeights = true ∧ (countDynamicRuptureFaces mesh).2 > 0)) ∧
    (r.ncon ≠ 2 → r.ncon = 1) ∧
    (r.ncon = 2 → ∀ p < mesh.length, ∀ i < (part mesh p).elements.length,
      r.vwgt p (2 * i + 1) = if (part mesh p).dynamicRupture i > 0 then 1 else 0) := by
  obtain ⟨-, hncon, hloop⟩ := computeVertexWeights_eq_some h
  refine ⟨?_, ?_, ?_, ?_⟩
  · simp only [countDynamicRuptureFaces]
    congr 1
    apply List.map_congr_left
    intro p _
    unfold localNumDrFaces
    rw [localNumDrFaces_count, zero_add]
  · rw [hncon]
    unfold numConstraints
    cases enableDRWeights
    · simp
    · by_cases hpos : (countDynamicRuptureFaces mesh).2 > 0
      · simp [hpos]
      · simp [hpos]
  · rw [hncon]
    unfold numConstraints
    intro hne
    split
    · split
      · rename_i h1 h2
        simp [numConstraints, h1, h2] at hne
      · rfl
    · rfl
  · intro h2 p hp i hi
    obtain ⟨w, hw, hv, -⟩ := hloop p hp
    have hwr := (weightLoop_written ndebug r.ncon r.maxCluster timestepRate drToCellRatio
      ((countDynamicRuptureFaces mesh).1 p) (r.timeCluster p) (by omega) _ w hw).2 i hi
    have := hwr.2.2 (by omega)
    rw [h2] at this
    rw [hv, this]
    rfl

theorem computeVertexWeights_ncon_witness :
    ∃ r, computeVertexWeights [twoFaultFaces] id false 4 (fun _ e => if e = 1 then 2 else 1)
        1 2 2 1 true = some r ∧ r.ncon = 2 ∧
      ((countDynamicRuptureFaces [twoFaultFaces]).2 =
        ((List.range [twoFaultFaces].length).map fun p =>
          (((List.range (part [twoFaultFaces] p).elements.length).filter
            fun e => decide ((part [twoFaultFaces] p).dynamicRupture e > 0)).length : ℤ)).sum ∧
      (r.ncon = 2 ↔ (true = true ∧ (countDynamicRuptureFaces [twoFaultFaces]).2 > 0)) ∧
      (r.ncon ≠ 2 → r.ncon = 1) ∧
      (r.ncon = 2 → ∀ p < [twoFaultFaces].length,
        ∀ i < (part [twoFaultFaces] p).elements.length,
        r.vwgt p (2 * i + 1) = if (part [twoFaultFaces] p).dynamicRupture i > 0 then 1 else 0)) := by
  have hinit : ∀ e : ℕ, getCluster 4 (if e = 1 then 2 else 1) 1 (toUnsigned 2)
      = some (if e = 1 then 1 else 0) := by
    intro e
    split_ifs
    · exact (getCluster_scenario 2).2.1
    · exact (getCluster_scenario 2).1
  have hv : (computeVertexWeights [twoFaultFaces] id false 4 (fun _ e => if e = 1 then 2 else 1)
      1 2 2 1 true).map (fun r => r.ncon) = some 2 := by
    simp only [computeVertexWeights, hinit, (getCluster_scenario 2).2.1]
    decide
  cases hr : computeVertexWeights [twoFaultFaces] id false 4 (fun _ e => if e = 1 then 2 else 1)
      1 2 2 1 true with
  | none => rw [hr] at hv; cases hv
  | some r =>
    rw [hr] at hv
    simp only [Option.map_some', Option.some.injEq] at hv
    exact ⟨r, rfl, hv, computeVertexWeights_ncon hr⟩

/-! ## The scenario of the specification -/

/-- **C21.** The scenario with the clusters 0, 1, 2, 0, no element with dynamic
rupture and `maxDifference = 1`, where the elements 0 and 2 share an untagged face
and there is no other adjacency.  On two ranks (the face is a partition boundary,
the messages arriving in either order) and on one rank (the face is local): one
sweep of `enforceMaximumDifference` lowers the cluster of element 2 to 1, leaves
the other three clusters as they are and reports one reduction in total; the
sweep after it reports none and changes nothing. -/
theorem scenario_sweeps :
    (countDynamicRuptureFaces scenario).2 = 0 ∧
    (∀ arrive ∈ [id, List.reverse],
      (enforceMaximumDifference scenario 1 arrive (countDynamicRuptureFaces scenario).1
          (fun p e => if p = 0 then (if e = 0 then 0 else 1) else (if e = 0 then 2 else 0))).map
        (fun r => (List.range 2).map fun p => ((List.range 2).map (r.1 p), r.2 p))
        = some [([0, 1], 0), ([1, 0], 1)] ∧
      ((enforceMaximumDifference scenario 1 arrive (countDynamicRuptureFaces scenario).1
          (fun p e => if p = 0 then (if e = 0 then 0 else 1) else (if e = 0 then 2 else 0))).bind
        fun r => enforceMaximumDifference scenario 1 arrive
          (countDynamicRuptureFaces scenario).1 r.1).map
        (fun r => (List.range 2).map fun p => ((List.range 2).map (r.1 p), r.2 p))
        = some [([0, 1], 0), ([1, 0], 0)]) ∧
    (countDynamicRuptureFaces [scenarioLocal]).2 = 0 ∧
    (enforceMaximumDifference [scenarioLocal] 1 id (countDynamicRuptureFaces [scenarioLocal]).1
        (fun _ e => if e = 1 then 1 else if e = 2 then 2 else 0)).map
      (fun r => ((List.range 4).map (r.1 0), r.2 0)) = some ([0, 1, 1, 0], 1) ∧
    ((enforceMaximumDifference [scenarioLocal] 1 id (countDynamicRuptureFaces [scenarioLocal]).1
        (fun _ e => if e = 1 then 1 else if e = 2 then 2 else 0)).bind
      fun r => enforceMaximumDifference [scenarioLocal] 1 id
        (countDynamicRuptureFaces [scenarioLocal]).1 r.1).map
      (fun r => ((List.range 4).map (r.1 0), r.2 0)) = some ([0, 1, 1, 0], 0) := by
  refine ⟨by decide, ?_, by decide, by decide, by decide⟩
  intro arrive harrive
  simp only [List.mem_cons, List.mem_singleton, List.not_mem_nil, or_false] at harrive
  rcases harrive with rfl | rfl
  · exact ⟨by decide, by decide⟩
  · exact ⟨by decide, by decide⟩

/-! ## Sequences of moves of the normalisation loop -/

/-- A sequence of calls of `enforceDynamicRuptureGTS` and sweeps of
`enforceMaximumDifference` raises no cluster and takes none below zero. -/
theorem normalizeMoves_decr {mesh : Mesh} {maxDifference : ℤ}
    {arrive : List Message → List Message} {dr : IntTag} (hmax : 0 ≤ maxDifference)
    (harrive : ∀ l, (arrive l).Perm l) :
    ∀ (moves : List Bool) (cl cl' : IntTag),
      (∀ p < mesh.length, ∀ e < (part mesh p).elements.length, 0 ≤ cl p e) →
      normalizeMoves mesh maxDifference arrive dr moves cl = some cl' →
      (∀ p < mesh.length, ∀ e < (part mesh p).elements.length, 0 ≤ cl' p e) ∧
      (∀ p x, cl' p x ≤ cl p x) := by
  intro moves
  induction moves with
  | nil =>
    intro cl cl' hnn h
    simp only [normalizeMoves, Option.some.injEq] at h
    subst h
    exact ⟨hnn, fun _ _ => le_rfl⟩
  | cons m rest ih =>
    intro cl cl' hnn h
    cases m with
    | true =>
      simp only [normalizeMoves] at h
      obtain ⟨g1, -, -, g4⟩ := gts_decr mesh dr cl
      obtain ⟨i1, i2⟩ := ih _ cl' (g4 hnn) h
      exact ⟨i1, fun p x => le_trans (i2 p x) (g1 p x)⟩
    | false =>
      simp only [normalizeMoves] at h
      cases hs : enforceMaximumDifference mesh maxDifference arrive dr cl with
      | none => rw [hs] at h; cases h
      | some res =>
        rw [hs] at h
        simp only [Option.some_bind] at h
        obtain ⟨s1, -, -, s4⟩ := sweep_decr hmax harrive hs
        obtain ⟨i1, i2⟩ := ih _ cl' (s4 hnn) h
        exact ⟨i1, fun p x => le_trans (i2 p x) (s1 p x)⟩


/-- With `rate = 1` every call of `getCluster` returns 0. -/
theorem getCluster_rate_one (fuel : ℕ) (timestep globalMin : ℚ) :
    getCluster fuel timestep globalMin (toUnsigned 1) = some 0 := by
  have h : toUnsigned 1 = 1 := by decide
  simp [getCluster, h]

/-- **C24.** `computeVertexWeights` calls `ipow` with the exponent 0 for every
element whose cluster is `maxCluster`, which the assertion `y > 0` of `ipow`
rejects, although the line after the assertion returns 1 for `y == 0`.  On the
scenario of the specification with `timestepRate = 1` (global time stepping), every
cluster and `maxCluster` are 0: with the assertion compiled in the run is ended by
it, with the assertion compiled out the run returns and every first weight is
`(1 + 0) * 1 = 1`. -/
theorem ipow_assertion_fails :
    ipow false 1 (0 - 0) = none ∧ ipow true 1 (0 - 0) = some 1 ∧
    computeVertexWeights scenario id false 4 scenarioTimestep 1 4 1 1 true = none ∧
    (computeVertexWeights scenario id true 4 scenarioTimestep 1 4 1 1 true).map
      (fun r => (r.maxCluster, (List.range 2).map fun p => (List.range 2).map fun e =>
        (r.timeCluster p e, r.vwgt p (r.ncon * e))))
      = some (0, [[(0, 1), (0, 1)], [(0, 1), (0, 1)]]) := by
  refine ⟨by decide, by decide, ?_, ?_⟩
  · apply Option.not_isSome_iff_eq_none.mp
    simp only [computeVertexWeights, getCluster_rate_one]
    decide
  · simp only [computeVertexWeights, getCluster_rate_one]
    decide

/-! ## The arithmetic of `double` -/

theorem sizeLoop_spec : ∀ (fuel n : ℕ), n ≤ fuel → n ≠ 0 →
    2 ^ (Binary64.sizeLoop fuel n - 1) ≤ n ∧ n < 2 ^ Binary64.sizeLoop fuel n ∧
      1 ≤ Binary64.sizeLoop fuel n := by
  intro fuel
  induction fuel with
  | zero => intro n h hn; omega
  | succ fuel ih =>
    intro n h hn
    rw [Binary64.sizeLoop, if_neg hn]
    by_cases h2 : n / 2 = 0
    · have h1 : n = 1 := by omega
      subst h1
      have : Binary64.sizeLoop fuel (1 / 2) = 0 := by
        cases fuel <;> simp [Binary64.sizeLoop]
      rw [this]
      decide
    · obtain ⟨a1, a2, a3⟩ := ih (n / 2) (by omega) h2
      refine ⟨?_, ?_, by omega⟩
      · have e : Binary64.sizeLoop fuel (n / 2) + 1 - 1
            = (Binary64.sizeLoop fuel (n / 2) - 1) + 1 := by omega
        rw [e, pow_succ]
        omega
      · rw [pow_succ]
        omega

/-- A number other than 0 with `L` binary digits lies in `[2 ^ (L - 1), 2 ^ L)`. -/
theorem bitLength_spec (n : ℕ) (hn : n ≠ 0) :
    2 ^ (Binary64.bitLength n - 1) ≤ n ∧ n < 2 ^ Binary64.bitLength n ∧
      1 ≤ Binary64.bitLength n :=
  sizeLoop_spec n n le_rfl hn

/-- Every value of `round` is a `double`. -/
theorem round_isDouble (s : Bool) (n : ℕ) (E : ℤ) : (Binary64.round s n E).IsDouble := by
  unfold Binary64.round
  by_cases hn : n = 0
  · rw [if_pos hn]
    simp [Binary64.IsDouble]
  rw [if_neg hn]
  obtain ⟨hL1, hL2, hL3⟩ := bitLength_spec n hn
  simp only []
  generalize hsh : max ((Binary64.bitLength n : ℤ) - 53) (-1074 - E) = sh
  by_cases h0 : sh ≤ 0
  · rw [if_pos h0]
    by_cases h971 : 971 < E + sh
    · rw [if_pos h971]
      trivial
    · rw [if_neg h971]
      refine ⟨?_, by omega, by omega⟩
      have hj : Binary64.bitLength n + (-sh).toNat ≤ 53 := by omega
      calc n * 2 ^ (-sh).toNat < 2 ^ Binary64.bitLength n * 2 ^ (-sh).toNat :=
            Nat.mul_lt_mul_of_pos_right hL2 (Nat.two_pow_pos _)
        _ = 2 ^ (Binary64.bitLength n + (-sh).toNat) := (pow_add _ _ _).symm
        _ ≤ 2 ^ 53 := Nat.pow_le_pow_right (by decide) hj
  · rw [if_neg h0]
    have hq : n / 2 ^ sh.toNat < 2 ^ 53 := by
      rw [Nat.div_lt_iff_lt_mul (Nat.two_pow_pos _)]
      calc n < 2 ^ Binary64.bitLength n := hL2
        _ ≤ 2 ^ (53 + sh.toNat) := Nat.pow_le_pow_right (by decide) (by omega)
        _ = 2 ^ 53 * 2 ^ sh.toNat := pow_add _ _ _
    generalize hq1 : (if 2 ^ sh.toNat < 2 * (n % 2 ^ sh.toNat) ∨
        (2 * (n % 2 ^ sh.toNat) = 2 ^ sh.toNat ∧ n / 2 ^ sh.toNat % 2 = 1)
        then n / 2 ^ sh.toNat + 1 else n / 2 ^ sh.toNat) = q1
    have hq1le : q1 ≤ 2 ^ 53 := by
      rw [← hq1]
      split <;> omega
    by_cases h53 : q1 = 2 ^ 53
    · rw [if_pos h53]
      by_cases h971 : 971 < E + sh + 1
      · rw [if_pos h971]
        trivial
      · rw [if_neg h971]
        exact ⟨by decide, by omega, by omega⟩
    · rw [if_neg h53]
      by_cases h971 : 971 < E + sh
      · rw [if_pos h971]
        trivial
      · rw [if_neg h971]
        exact ⟨by omega, by omega, by omega⟩

/-- The product of a positive `double` `m * 2 ^ e` and an integer `r ≥ 2`, rounded:
`+inf`, or a positive `double` of at least twice the value. -/
theorem round_grow (m r : ℕ) (e : ℤ) (hm0 : 0 < m) (hm : m < 2 ^ 53)
    (he : -1074 ≤ e) (hr : 2 ≤ r) :
    Binary64.round false (m * r) e = Binary64.infinite false ∨
    ∃ m1 e1, Binary64.round false (m * r) e = Binary64.finite false m1 e1 ∧
      m1 < 2 ^ 53 ∧ -1074 ≤ e1 ∧ e1 ≤ 971 ∧
      2 * (m * 2 ^ (e + 1074).toNat) ≤ m1 * 2 ^ (e1 + 1074).toNat := by
  have hdouble := round_isDouble false (m * r) e
  have hmr : 2 * m ≤ m * r := by
    rw [Nat.mul_comm 2 m]
    exact Nat.mul_le_mul_left m hr
  have hn : m * r ≠ 0 := by omega
  obtain ⟨hL1, hL2, hL3⟩ := bitLength_spec (m * r) hn
  unfold Binary64.round at hdouble ⊢
  rw [if_neg hn] at hdouble ⊢
  simp only [] at hdouble ⊢
  generalize hsh : max ((Binary64.bitLength (m * r) : ℤ) - 53) (-1074 - e) = sh at hdouble ⊢
  by_cases h0 : sh ≤ 0
  · rw [if_pos h0] at hdouble ⊢
    by_cases h971 : 971 < e + sh
    · left
      rw [if_pos h971]
    · right
      rw [if_neg h971] at hdouble ⊢
      refine ⟨_, _, rfl, hdouble.1, hdouble.2.1, hdouble.2.2, ?_⟩
      have e1 : (e + 1074).toNat = (-sh).toNat + (e + sh + 1074).toNat := by omega
      rw [e1, pow_add]
      calc 2 * (m * (2 ^ (-sh).toNat * 2 ^ (e + sh + 1074).toNat))
          = (2 * m) * (2 ^ (-sh).toNat * 2 ^ (e + sh + 1074).toNat) := by ring
        _ ≤ (m * r) * (2 ^ (-sh).toNat * 2 ^ (e + sh + 1074).toNat) :=
            Nat.mul_le_mul_right _ hmr
        _ = m * r * 2 ^ (-sh).toNat * 2 ^ (e + sh + 1074).toNat := by ring
  · rw [if_neg h0] at hdouble ⊢
    have hk : sh.toNat + 53 = Binary64.bitLength (m * r) := by omega
    have hlow : 2 ^ sh.toNat * 2 ^ 52 ≤ m * r := by
      rw [← pow_add]
      have : sh.toNat + 52 = Binary64.bitLength (m * r) - 1 := by omega
      rw [this]
      exact hL1
    have hrem : m * r % 2 ^ sh.toNat < 2 ^ sh.toNat := Nat.mod_lt _ (Nat.two_pow_pos _)
    have hdiv := Nat.div_add_mod (m * r) (2 ^ sh.toNat)
    have hfloor : 2 * m ≤ 2 ^ sh.toNat * (m * r / 2 ^ sh.toNat) := by
      by_cases h3 : 3 ≤ r
      · have h3m : 3 * m ≤ m * r := by
          rw [Nat.mul_comm 3 m]
          exact Nat.mul_le_mul_left m h3
        generalize 2 ^ sh.toNat * (m * r / 2 ^ sh.toNat) = fl at hdiv ⊢
        generalize m * r % 2 ^ sh.toNat = rem at hdiv hrem
        generalize 2 ^ sh.toNat = P at hrem hlow
        generalize m * r = p at *
        omega
      · have h2 : r = 2 := by omega
        subst h2
        have hlt : 2 ^ (Binary64.bitLength (m * 2) - 1) < 2 ^ 54 :=
          lt_of_le_of_lt hL1 (by omega)
        have hL54 : Binary64.bitLength (m * 2) - 1 < 54 :=
          (Nat.pow_lt_pow_iff_right (by decide)).mp hlt
        have hk1 : sh.toNat = 1 := by omega
        rw [hk1]
        omega
    generalize hq1 : (if 2 ^ sh.toNat < 2 * (m * r % 2 ^ sh.toNat) ∨
        (2 * (m * r % 2 ^ sh.toNat) = 2 ^ sh.toNat ∧ m * r / 2 ^ sh.toNat % 2 = 1)
        then m * r / 2 ^ sh.toNat + 1 else m * r / 2 ^ sh.toNat) = q1 at hdouble ⊢
    have hq1ge : m * r / 2 ^ sh.toNat ≤ q1 := by
      rw [← hq1]
      split <;> omega
    have hval : 2 * (m * 2 ^ (e + 1074).toNat) ≤ q1 * 2 ^ (e + sh + 1074).toNat := by
      have e1 : (e + sh + 1074).toNat = sh.toNat + (e + 1074).toNat := by omega
      rw [e1, pow_add]
      calc 2 * (m * 2 ^ (e + 1074).toNat) = (2 * m) * 2 ^ (e + 1074).toNat := by ring
        _ ≤ (2 ^ sh.toNat * (m * r / 2 ^ sh.toNat)) * 2 ^ (e + 1074).toNat :=
            Nat.mul_le_mul_right _ hfloor
        _ ≤ (2 ^ sh.toNat * q1) * 2 ^ (e + 1074).toNat :=
            Nat.mul_le_mul_right _ (Nat.mul_le_mul_left _ hq1ge)
        _ = q1 * (2 ^ sh.toNat * 2 ^ (e + 1074).toNat) := by ring
    by_cases h53 : q1 = 2 ^ 53
    · rw [if_pos h53] at hdouble ⊢
      by_cases h971 : 971 < e + sh + 1
      · left
        rw [if_pos h971]
      · right
        rw [if_neg h971] at hdouble ⊢
        refine ⟨_, _, rfl, hdouble.1, hdouble.2.1, hdouble.2.2, ?_⟩
        have e2 : (e + sh + 1 + 1074).toNat = (e + sh + 1074).toNat + 1 := by omega
        rw [e2, pow_succ]
        rw [h53] at hval
        calc 2 * (m * 2 ^ (e + 1074).toNat) ≤ 2 ^ 53 * 2 ^ (e + sh + 1074).toNat := hval
          _ = 2 ^ 52 * (2 ^ (e + sh + 1074).toNat * 2) := by ring
    · rw [if_neg h53] at hdouble ⊢
      by_cases h971 : 971 < e + sh
      · left
        rw [if_pos h971]
      · right
        rw [if_neg h971] at hdouble ⊢
        exact ⟨_, _, rfl, hdouble.1, hdouble.2.1, hdouble.2.2, hval⟩

/-- Multiplying by an `unsigned` of at least 2 doubles the lower bound. -/
theorem mul_atLeast (x : Binary64) (v r : ℕ) (hx : x.AtLeast v) (hv : 1 ≤ v) (hr : 2 ≤ r) :
    (x.mul (Binary64.ofUnsigned r)).AtLeast (2 * v) ∧
    ((Binary64.ofUnsigned r).mul x).AtLeast (2 * v) := by
  cases x with
  | nan => exact absurd hx (by simp [Binary64.AtLeast])
  | infinite s =>
    have hs : s = false := hx
    subst hs
    have hr0 : r ≠ 0 := by omega
    simp [Binary64.mul, Binary64.ofUnsigned, Binary64.AtLeast, hr0]
  | finite s m e =>
    obtain ⟨hs, hm, he1, he2, hval⟩ : s = false ∧ m < 2 ^ 53 ∧ -1074 ≤ e ∧ e ≤ 971 ∧
      v ≤ m * 2 ^ (e + 1074).toNat := hx
    subst hs
    have hm0 : 0 < m := by
      rcases Nat.eq_zero_or_pos m with h | h
      · rw [h] at hval
        omega
      · exact h
    have h1 : (Binary64.finite false m e).mul (Binary64.ofUnsigned r)
        = Binary64.round false (m * r) e := by
      simp [Binary64.mul, Binary64.ofUnsigned]
    have h2 : (Binary64.ofUnsigned r).mul (Binary64.finite false m e)
        = Binary64.round false (m * r) e := by
      simp [Binary64.mul, Binary64.ofUnsigned, Nat.mul_comm]
    rw [h1, h2]
    have key : (Binary64.round false (m * r) e).AtLeast (2 * v) := by
      rcases round_grow m r e hm0 hm he1 hr with h | ⟨m1, e1, h, a1, a2, a3, a4⟩
      · rw [h]
        rfl
      · rw [h]
        exact ⟨rfl, a1, a2, a3, by omega⟩
    exact ⟨key, key⟩

/-- A positive `double` is at least `2 ^ (-1074)`. -/
theorem atLeast_one (x : Binary64) (hd : x.IsDouble) (hp : x.IsPositive) : x.AtLeast 1 := by
  cases x with
  | nan => exact hp
  | infinite s => exact hp
  | finite s m e =>
    obtain ⟨hs, hm⟩ : s = false ∧ 0 < m := hp
    obtain ⟨h1, h2, h3⟩ : m < 2 ^ 53 ∧ -1074 ≤ e ∧ e ≤ 971 := hd
    exact ⟨hs, h1, h2, h3, Nat.mul_pos hm (Nat.two_pow_pos _)⟩

/-- After `k` loop bodies `upper` is at least `2 ^ (k + 1)` times the least
positive `double`. -/
theorem upperAfter_atLeast (rate : ℕ) (gm : Binary64) (hr : 2 ≤ rate) (hd : gm.IsDouble)
    (hp : gm.IsPositive) : ∀ k, (upperAfter rate gm k).AtLeast (2 ^ (k + 1)) := by
  intro k
  induction k with
  | zero => exact (mul_atLeast gm 1 rate (atLeast_one gm hd hp) le_rfl hr).2
  | succ k ih =>
    have := (mul_atLeast _ (2 ^ (k + 1)) rate ih Nat.one_le_two_pow hr).1
    rw [pow_succ, Nat.mul_comm]
    exact this

/-- No finite `double` reaches `2 ^ 1024`. -/
theorem atLeast_infinite (x : Binary64) (k : ℕ) (hx : x.AtLeast (2 ^ k)) (hk : 2098 ≤ k) :
    x = Binary64.infinite false := by
  cases x with
  | nan => exact absurd hx (by simp [Binary64.AtLeast])
  | infinite s =>
    have hs : s = false := hx
    rw [hs]
  | finite s m e =>
    exfalso
    obtain ⟨-, hm, he1, he2, hval⟩ : s = false ∧ m < 2 ^ 53 ∧ -1074 ≤ e ∧ e ≤ 971 ∧
      2 ^ k ≤ m * 2 ^ (e + 1074).toNat := hx
    have he : 53 + (e + 1074).toNat ≤ k := by omega
    have h2 : m * 2 ^ (e + 1074).toNat < 2 ^ 53 * 2 ^ (e + 1074).toNat :=
      Nat.mul_lt_mul_of_pos_right hm (Nat.two_pow_pos _)
    have h3 : (2 : ℕ) ^ 53 * 2 ^ (e + 1074).toNat ≤ 2 ^ k := by
      rw [← pow_add]
      exact Nat.pow_le_pow_right (by decide) he
    omega

/-- After 2097 loop bodies or more `upper` is `+inf`. -/
theorem upperAfter_infinite (rate : ℕ) (gm : Binary64) (hr : 2 ≤ rate) (hd : gm.IsDouble)
    (hp : gm.IsPositive) (k : ℕ) (hk : 2097 ≤ k) :
    upperAfter rate gm k = Binary64.infinite false :=
  atLeast_infinite (upperAfter rate gm k) (k + 1)
    (upperAfter_atLeast rate gm hr hd hp k) (by omega)

/-- `+inf <= y` holds for `y = +inf` only. -/
theorem le_infinite_left (y : Binary64) (hy : y ≠ Binary64.infinite false) :
    (Binary64.infinite false).le y = false := by
  cases y with
  | nan => rfl
  | finite s m e => rfl
  | infinite s =>
    cases s
    · exact absurd rfl hy
    · rfl

/-- `x <= +inf` holds for every `x` other than a NaN. -/
theorem le_infinite_right (x : Binary64) (hx : x ≠ Binary64.nan) :
    x.le (Binary64.infinite false) = true := by
  cases x with
  | nan => exact absurd rfl hx
  | finite s m e => rfl
  | infinite s => cases s <;> rfl

theorem atLeast_ne_nan (x : Binary64) (v : ℕ) (hx : x.AtLeast v) : x ≠ Binary64.nan := by
  intro h
  rw [h] at hx
  exact hx

/-! ## `getCluster` over `double` -/

/-- The loop of `getCluster`, entered with the value that `upper` has after `j`
bodies, leaves after `k` further bodies when the comparison fails for the first
time there. -/
theorem getClusterLoopDouble_eq (timestep gm : Binary64) (rate : ℕ) :
    ∀ (k fuel j : ℕ), (∀ i < k, (upperAfter rate gm (j + i)).le timestep = true) →
      (upperAfter rate gm (j + k)).le timestep = false → k ≤ fuel → j + k < 2 ^ 32 →
      getClusterLoopDouble timestep rate fuel (upperAfter rate gm j) j = some (j + k) := by
  intro k
  induction k with
  | zero =>
    intro fuel j _ hlt _ _
    have h : (upperAfter rate gm j).le timestep = false := hlt
    cases fuel <;> simp [getClusterLoopDouble, h]
  | succ k ih =>
    intro fuel j hle hlt hk hj
    obtain ⟨fuel, rfl⟩ : ∃ f, fuel = f + 1 := ⟨fuel - 1, by omega⟩
    have h0 : (upperAfter rate gm j).le timestep = true := hle 0 (Nat.succ_pos k)
    have hwrap : (j + 1) % 2 ^ 32 = j + 1 := Nat.mod_eq_of_lt (by omega)
    have hstep : (upperAfter rate gm j).mul (Binary64.ofUnsigned rate)
        = upperAfter rate gm (j + 1) := rfl
    rw [getClusterLoopDouble, if_pos h0, hwrap, hstep, ih fuel (j + 1)]
    · congr 1
      omega
    · intro i hi
      have := hle (i + 1) (by omega)
      have e : j + 1 + i = j + (i + 1) := by omega
      rw [e]
      exact this
    · have e : j + 1 + k = j + (k + 1) := by omega
      rw [e]
      exact hlt
    · omega
    · omega

/-- As long as the comparison holds the loop is not left. -/
theorem getClusterLoopDouble_none (timestep gm : Binary64) (rate : ℕ) :
    ∀ (fuel j cluster : ℕ), (∀ i ≤ fuel, (upperAfter rate gm (j + i)).le timestep = true) →
      getClusterLoopDouble timestep rate fuel (upperAfter rate gm j) cluster = none := by
  intro fuel
  induction fuel with
  | zero =>
    intro j cluster h
    have h0 : (upperAfter rate gm j).le timestep = true := h 0 le_rfl
    simp [getClusterLoopDouble, h0]
  | succ fuel ih =>
    intro j cluster h
    have h0 : (upperAfter rate gm j).le timestep = true := h 0 (Nat.zero_le _)
    have hstep : (upperAfter rate gm j).mul (Binary64.ofUnsigned rate)
        = upperAfter rate gm (j + 1) := rfl
    rw [getClusterLoopDouble, if_pos h0, hstep]
    apply ih
    intro i hi
    have := h (i + 1) (by omega)
    have e : j + 1 + i = j + (i + 1) := by omega
    rw [e]
    exact this

/-- When the comparison `upper <= timestep` fails after `c` bodies for the first
time, with `c` below `2 ^ 32`, `getCluster` returns `c`, after exactly `c` bodies. -/
theorem getClusterDouble_of_first (timestep gm : Binary64) (rate c : ℕ) (hr : rate ≠ 1)
    (hc : c < 2 ^ 32) (hle : ∀ k < c, (upperAfter rate gm k).le timestep = true)
    (hlt : (upperAfter rate gm c).le timestep = false) :
    ∀ fuel, getClusterDouble fuel timestep gm rate = if c ≤ fuel then some c else none := by
  intro fuel
  unfold getClusterDouble
  rw [if_neg hr]
  have hinit : (Binary64.ofUnsigned rate).mul gm = upperAfter rate gm 0 := rfl
  rw [hinit]
  by_cases hf : c ≤ fuel
  · rw [if_pos hf, getClusterLoopDouble_eq timestep gm rate c fuel 0
      (fun i hi => by rw [Nat.zero_add]; exact hle i hi)
      (by rw [Nat.zero_add]; exact hlt) hf (by omega)]
    rw [Nat.zero_add]
  · rw [if_neg hf]
    apply getClusterLoopDouble_none
    intro i hi
    rw [Nat.zero_add]
    exact hle i (by omega)

/-- For a rate of at least 2, a positive `double` as the minimum and a timestep
other than `+inf`, the comparison `upper <= timestep` fails for the first time
after some `c ≤ 2097` bodies, and `getCluster` returns this `c`. -/
theorem getClusterDouble_least (timestep gm : Binary64) (rate : ℕ) (hr : 2 ≤ rate)
    (hd : gm.IsDouble) (hp : gm.IsPositive) (ht : timestep ≠ Binary64.infinite false) :
    ∃ c : ℕ, c ≤ 2097 ∧ IsLeast {c : ℕ | (upperAfter rate gm c).le timestep = false} c ∧
      ∀ fuel, getClusterDouble fuel timestep gm rate = if c ≤ fuel then some c else none := by
  classical
  have hex : ∃ c, (upperAfter rate gm c).le timestep = false :=
    ⟨2097, by rw [upperAfter_infinite rate gm hr hd hp 2097 le_rfl]
              exact le_infinite_left timestep ht⟩
  have hfind : Nat.find hex ≤ 2097 :=
    Nat.find_min' hex (by rw [upperAfter_infinite rate gm hr hd hp 2097 le_rfl]
                          exact le_infinite_left timestep ht)
  refine ⟨Nat.find hex, hfind, ⟨Nat.find_spec hex, fun c1 hc1 => Nat.find_min' hex hc1⟩, ?_⟩
  apply getClusterDouble_of_first timestep gm rate (Nat.find hex) (by omega)
    (lt_of_le_of_lt hfind (by decide))
  · intro k hk
    have := Nat.find_min hex hk
    simpa using this
  · exact Nat.find_spec hex

/-! ## The comparison of `double`s and their exact values -/

theorem scaled_shift (s : Bool) (m : ℕ) (e e0 e1 : ℤ) (h0 : e0 ≤ e1) (h1 : e1 ≤ e) :
    Binary64.scaled s m e e0 = Binary64.scaled s m e e1 * 2 ^ (e1 - e0).toNat := by
  unfold Binary64.scaled
  have he : (e - e0).toNat = (e - e1).toNat + (e1 - e0).toNat := by omega
  rw [he, pow_add, mul_assoc]

/-- Two finite `double`s compare as their multiples of any common power of 2. -/
theorem le_finite_iff (s t : Bool) (m n : ℕ) (e f e0 : ℤ) (he : e0 ≤ e) (hf : e0 ≤ f) :
    (Binary64.finite s m e).le (Binary64.finite t n f) = true ↔
      Binary64.scaled s m e e0 ≤ Binary64.scaled t n f e0 := by
  have hpos : (0 : ℤ) < 2 ^ (min e f - e0).toNat := pow_pos (by decide) _
  rw [scaled_shift s m e e0 (min e f) (le_min he hf) (min_le_left e f),
    scaled_shift t n f e0 (min e f) (le_min he hf) (min_le_right e f),
    mul_le_mul_right hpos]
  simp [Binary64.le]

theorem toRat_scaled (s : Bool) (m : ℕ) (e e0 : ℤ) (he : e0 ≤ e) :
    (Binary64.finite s m e).toRat = (Binary64.scaled s m e e0 : ℚ) * (2 : ℚ) ^ e0 := by
  show (if s then -1 else 1) * (m : ℚ) * (2 : ℚ) ^ e
    = (((if s then -(m : ℤ) else (m : ℤ)) * 2 ^ (e - e0).toNat : ℤ) : ℚ) * (2 : ℚ) ^ e0
  have h2 : (2 : ℚ) ^ e = (2 : ℚ) ^ (e - e0).toNat * (2 : ℚ) ^ e0 := by
    rw [← zpow_natCast, ← zpow_add₀ (by norm_num : (2 : ℚ) ≠ 0)]
    congr 1
    omega
  rw [h2]
  cases s <;> simp <;> ring

/-- Two finite `double`s compare as their exact values. -/
theorem le_iff_toRat (s t : Bool) (m n : ℕ) (e f : ℤ) :
    (Binary64.finite s m e).le (Binary64.finite t n f) = true ↔
      (Binary64.finite s m e).toRat ≤ (Binary64.finite t n f).toRat := by
  have hpos : (0 : ℚ) < (2 : ℚ) ^ (min e f) := zpow_pos (by norm_num) _
  rw [le_finite_iff s t m n e f (min e f) (min_le_left e f) (min_le_right e f),
    toRat_scaled s m e (min e f) (min_le_left e f),
    toRat_scaled t n f (min e f) (min_le_right e f), mul_le_mul_right hpos]
  exact Int.cast_le.symm

/-- Two finite `double`s compare as their exact values. -/
theorem le_iff_toRat_of_isFinite (x y : Binary64) (hx : x.IsFinite) (hy : y.IsFinite) :
    x.le y = true ↔ x.toRat ≤ y.toRat := by
  cases x with
  | nan => exact absurd hx (by simp [Binary64.IsFinite])
  | infinite s => exact absurd hx (by simp [Binary64.IsFinite])
  | finite s m e =>
    cases y with
    | nan => exact absurd hy (by simp [Binary64.IsFinite])
    | infinite t => exact absurd hy (by simp [Binary64.IsFinite])
    | finite t n f => exact le_iff_toRat s t m n e f

/-- With `+inf` as the timestep and a positive minimum the loop of `getCluster` is
never left. -/
theorem getClusterDouble_infinite (gm : Binary64) (rate : ℕ) (hr : 2 ≤ rate)
    (hd : gm.IsDouble) (hp : gm.IsPositive) :
    ∀ fuel, getClusterDouble fuel (Binary64.infinite false) gm rate = none := by
  intro fuel
  have hne : rate ≠ 1 := by omega
  unfold getClusterDouble
  rw [if_neg hne]
  have hinit : (Binary64.ofUnsigned rate).mul gm = upperAfter rate gm 0 := rfl
  rw [hinit]
  apply getClusterLoopDouble_none
  intro i _
  exact le_infinite_right _ (atLeast_ne_nan _ _ (upperAfter_atLeast rate gm hr hd hp _))

/-- Counterexample to **C1** as stated.  With `rate = 3`, `globalMin = 0.3` (the
`double`) and the timestep `0.8999999999999999`, the smallest `c` with
`rate ^ (c + 1) * globalMin > timestep` is 0, since `3 * 0.3 > timestep` in exact
arithmetic; the rounded product `3 * 0.3` of the code is the timestep itself, so
that `getCluster` runs the loop body once and returns 1.  With the timestep `+inf`
(and the same `rate` and `globalMin`) `getCluster` does not return. -/
theorem getCluster_rounded_product :
    2 ≤ 3 ∧ threeTenths.IsPositive ∧
    IsLeast {c : ℕ | belowNineTenths.toRat < (3 : ℚ) ^ (c + 1) * threeTenths.toRat} 0 ∧
    (∀ fuel, getClusterDouble fuel belowNineTenths threeTenths 3
      = if 1 ≤ fuel then some 1 else none) ∧
    (∀ fuel, getClusterDouble fuel (Binary64.infinite false) threeTenths 3 = none) := by
  refine ⟨by decide, by decide, ⟨?_, fun c _ => Nat.zero_le c⟩, ?_, ?_⟩
  · show belowNineTenths.toRat < (3 : ℚ) ^ (0 + 1) * threeTenths.toRat
    norm_num [threeTenths, belowNineTenths, Binary64.toRat]
  · exact getClusterDouble_of_first belowNineTenths threeTenths 3 1 (by decide) (by decide)
      (fun k hk => by
        have h0 : k = 0 := by omega
        subst h0
        decide)
      (by decide)
  · exact getClusterDouble_infinite threeTenths 3 (by decide) (by decide) (by decide)

/-- **C1**, amended.  `getCluster` returns 0 when `rate = 1`, for every timestep
and `globalMin`.  For every `rate ≥ 2`, every `double` `globalMin > 0` and every
timestep other than `+inf` it returns (with enough fuel, and with no other result
for any fuel) the smallest integer `c ≥ 0` for which `upper <= timestep` is false,
where `upper` is the product `rate ^ (c + 1) * globalMin` as computed in `double`,
rounded after every multiplication; when the timestep is finite and the products up
to this `c` are finite and exact, `c` is the smallest integer with
`rate ^ (c + 1) * globalMin > timestep`.  For `rate = 2`, `globalMin = 1` the
timesteps 1, 2, 4, 1 give the clusters 0, 1, 2, 0. -/
theorem getClusterDouble_reference (timestep globalMin : Binary64) (rate : ℕ) :
    (∀ fuel, getClusterDouble fuel timestep globalMin 1 = some 0) ∧
    (2 ≤ rate → globalMin.IsDouble → globalMin.IsPositive →
      timestep ≠ Binary64.infinite false →
      ∃ c : ℕ, IsLeast {c : ℕ | (upperAfter rate globalMin c).le timestep = false} c ∧
        (∀ fuel, c ≤ fuel → getClusterDouble fuel timestep globalMin rate = some c) ∧
        (∀ fuel c1, getClusterDouble fuel timestep globalMin rate = some c1 → c1 = c) ∧
        (timestep.IsFinite →
          (∀ k ≤ c, (upperAfter rate globalMin k).IsFinite ∧
            (upperAfter rate globalMin k).toRat = (rate : ℚ) ^ (k + 1) * globalMin.toRat) →
          IsLeast {c : ℕ | timestep.toRat < (rate : ℚ) ^ (c + 1) * globalMin.toRat} c)) ∧
    [1, 2, 4, 1].map (fun t =>
        getClusterDouble 2 (Binary64.ofUnsigned t) (Binary64.ofUnsigned 1) 2)
      = [some 0, some 1, some 2, some 0] := by
  refine ⟨fun fuel => by simp [getClusterDouble], ?_, by decide⟩
  intro hr hd hp ht
  obtain ⟨c, -, hc, hfuel⟩ := getClusterDouble_least timestep globalMin rate hr hd hp ht
  refine ⟨c, hc, ?_, ?_, ?_⟩
  · intro fuel hf
    rw [hfuel, if_pos hf]
  · intro fuel c1 h
    rw [hfuel] at h
    split at h
    · exact (Option.some.inj h).symm
    · cases h
  · intro hfin hexact
    constructor
    · show timestep.toRat < (rate : ℚ) ^ (c + 1) * globalMin.toRat
      obtain ⟨hf, hv⟩ := hexact c le_rfl
      rw [← hv]
      have hfalse : (upperAfter rate globalMin c).le timestep = false := hc.1
      by_contra hcon
      have := (le_iff_toRat_of_isFinite _ _ hf hfin).mpr (not_lt.mp hcon)
      rw [hfalse] at this
      cases this
    · intro c1 hc1
      by_contra hlt
      have hlt1 : c1 < c := by omega
      have htrue : (upperAfter rate globalMin c1).le timestep = true := by
        by_contra hcon
        have hmem : c1 ∈ {c : ℕ | (upperAfter rate globalMin c).le timestep = false} := by
          simpa using hcon
        have := hc.2 hmem
        omega
      obtain ⟨hf, hv⟩ := hexact c1 hlt1.le
      have hle := (le_iff_toRat_of_isFinite _ _ hf hfin).mp htrue
      rw [hv] at hle
      have hc1' : timestep.toRat < (rate : ℚ) ^ (c1 + 1) * globalMin.toRat := hc1
      exact absurd hle (not_le.mpr hc1')

theorem getClusterDouble_reference_witness :
    getClusterDouble 2 (Binary64.ofUnsigned 4) (Binary64.ofUnsigned 1) 2 = some 2 ∧
    IsLeast {c : ℕ | (upperAfter 2 (Binary64.ofUnsigned 1) c).le
      (Binary64.ofUnsigned 4) = false} 2 ∧
    IsLeast {c : ℕ | (Binary64.ofUnsigned 4).toRat
      < ((2 : ℕ) : ℚ) ^ (c + 1) * (Binary64.ofUnsigned 1).toRat} 2 := by
  obtain ⟨c, h1, -, h3, h4⟩ :=
    (getClusterDouble_reference (Binary64.ofUnsigned 4) (Binary64.ofUnsigned 1) 2).2.1
      (by decide) (by decide) (by decide) (by decide)
  have hc : 2 = c := h3 2 2 (by decide)
  subst hc
  refine ⟨by decide, h1, h4 (by decide) ?_⟩
  intro k hk
  have e0 : upperAfter 2 (Binary64.ofUnsigned 1) 0 = Binary64.finite false (2 ^ 52) (-51) := by
    decide
  have e1 : upperAfter 2 (Binary64.ofUnsigned 1) 1 = Binary64.finite false (2 ^ 52) (-50) := by
    decide
  have e2 : upperAfter 2 (Binary64.ofUnsigned 1) 2 = Binary64.finite false (2 ^ 52) (-49) := by
    decide
  interval_cases k
  · rw [e0]
    exact ⟨trivial, by norm_num [Binary64.toRat, Binary64.ofUnsigned]⟩
  · rw [e1]
    exact ⟨trivial, by norm_num [Binary64.toRat, Binary64.ofUnsigned]⟩
  · rw [e2]
    exact ⟨trivial, by norm_num [Binary64.toRat, Binary64.ofUnsigned]⟩

/-! ## Termination of `getCluster` -/

/-- A zero compares as `0.0`, whatever its sign bit and exponent. -/
theorem le_zero_left (s : Bool) (e : ℤ) (y : Binary64) :
    (Binary64.finite s 0 e).le y = (Binary64.finite false 0 0).le y := by
  cases y with
  | nan => rfl
  | infinite t => rfl
  | finite t n f =>
    have h : ∀ (s : Bool) (e : ℤ), (Binary64.finite s 0 e).le (Binary64.finite t n f) = true ↔
        (0 : ℤ) ≤ (if t then -(n : ℤ) else (n : ℤ)) := by
      intro s e
      rw [le_finite_iff s t 0 n e f (min e f) (min_le_left e f) (min_le_right e f)]
      have hpos : (0 : ℤ) < 2 ^ (f - min e f).toNat := pow_pos (by decide) _
      have hz : Binary64.scaled s 0 e (min e f) = 0 := by
        unfold Binary64.scaled
        cases s <;> simp
      rw [hz]
      unfold Binary64.scaled
      exact mul_nonneg_iff_of_pos_right hpos
    rw [Bool.eq_iff_iff, h s e, h false 0]

/-- With a zero as the minimum `upper` is a zero after every loop body. -/
theorem upperAfter_zero (rate : ℕ) (s : Bool) (e : ℤ) :
    ∀ k, upperAfter rate (Binary64.finite s 0 e) k = Binary64.finite s 0 (-1074) := by
  intro k
  induction k with
  | zero => simp [upperAfter, Binary64.mul, Binary64.ofUnsigned, Binary64.round]
  | succ k ih =>
    rw [upperAfter, ih]
    simp [Binary64.mul, Binary64.ofUnsigned, Binary64.round]

/-- With a zero as the minimum and a timestep of at least 0 the loop of
`getCluster` is never left. -/
theorem getClusterDouble_zero (timestep : Binary64) (rate : ℕ) (s : Bool) (e : ℤ)
    (hr : rate ≠ 1) (ht : (Binary64.finite false 0 0).le timestep = true) :
    ∀ fuel, getClusterDouble fuel timestep (Binary64.finite s 0 e) rate = none := by
  intro fuel
  unfold getClusterDouble
  rw [if_neg hr]
  have hinit : (Binary64.ofUnsigned rate).mul (Binary64.finite s 0 e)
      = upperAfter rate (Binary64.finite s 0 e) 0 := rfl
  rw [hinit]
  apply getClusterLoopDouble_none
  intro i _
  rw [upperAfter_zero, le_zero_left]
  exact ht

/-- Counterexample to **C25** as stated: with `rate = 2`, `globalMin = 1.0` and the
timestep `+inf` (the quotient of a positive insphere radius and the velocity 0)
the condition `upper <= timestep` holds before every loop body, also when `upper`
has become `+inf`, and `getCluster` returns for no amount of fuel. -/
theorem getCluster_infinite_timestep :
    2 ≤ 2 ∧ (Binary64.ofUnsigned 1).IsPositive ∧
    ¬ ∃ fuel c, getClusterDouble fuel (Binary64.infinite false) (Binary64.ofUnsigned 1) 2
      = some c := by
  refine ⟨le_rfl, by decide, ?_⟩
  rintro ⟨fuel, c, h⟩
  rw [getClusterDouble_infinite (Binary64.ofUnsigned 1) 2 le_rfl (by decide) (by decide)] at h
  cases h

/-- **C25**, amended.  For every `rate ≥ 2`: when `globalMin` is a `double`
greater than 0 and the timestep is not `+inf`, the loop of `getCluster` is left
after exactly `c` bodies, where `c ≤ 2097` is the value returned (fuel for `c`
bodies gives the result `c`, less fuel gives none); when the timestep is `+inf` the
loop is never left; and when `globalMin` is a zero and the timestep is at least 0
the loop condition `upper <= timestep` stays true and no amount of fuel gives a
result. -/
theorem getClusterDouble_terminates (timestep globalMin : Binary64) (rate : ℕ) (hr : 2 ≤ rate) :
    (globalMin.IsDouble → globalMin.IsPositive → timestep ≠ Binary64.infinite false →
      ∃ c : ℕ, c ≤ 2097 ∧ ∀ fuel,
        getClusterDouble fuel timestep globalMin rate = if c ≤ fuel then some c else none) ∧
    (globalMin.IsDouble → globalMin.IsPositive →
      ∀ fuel, getClusterDouble fuel (Binary64.infinite false) globalMin rate = none) ∧
    (∀ s e, (Binary64.finite false 0 0).le timestep = true →
      ∀ fuel, getClusterDouble fuel timestep (Binary64.finite s 0 e) rate = none) := by
  refine ⟨?_, ?_, ?_⟩
  · intro hd hp ht
    obtain ⟨c, hc, -, hfuel⟩ := getClusterDouble_least timestep globalMin rate hr hd hp ht
    exact ⟨c, hc, hfuel⟩
  · intro hd hp
    exact getClusterDouble_infinite globalMin rate hr hd hp
  · intro s e ht
    exact getClusterDouble_zero timestep rate s e (by omega) ht

theorem getClusterDouble_terminates_witness :
    (∃ c : ℕ, c ≤ 2097 ∧ ∀ fuel,
      getClusterDouble fuel (Binary64.ofUnsigned 4) (Binary64.ofUnsigned 1) 2
        = if c ≤ fuel then some c else none) ∧
    (∀ fuel, getClusterDouble fuel (Binary64.infinite false) (Binary64.ofUnsigned 1) 2 = none) ∧
    (∀ fuel, getClusterDouble fuel (Binary64.ofUnsigned 4) (Binary64.finite false 0 0) 2 = none) :=
  ⟨(getClusterDouble_terminates (Binary64.ofUnsigned 4) (Binary64.ofUnsigned 1) 2
      (by decide)).1 (by decide) (by decide) (by decide),
    (getClusterDouble_terminates (Binary64.ofUnsigned 4) (Binary64.ofUnsigned 1) 2
      (by decide)).2.1 (by decide) (by decide),
    (getClusterDouble_terminates (Binary64.ofUnsigned 4) (Binary64.ofUnsigned 1) 2
      (by decide)).2.2 false 0 (by decide)⟩

/-! ## The lower bound of the timestep by the cluster, in `double` -/

/-- As long as every cluster plus `maxDifference` fits into an `int`, the moves
with the sums computed in `int` are the moves with the mathematical sums. -/
theorem normalizeMovesInt_eq {mesh : Mesh} {maxDifference : ℤ}
    {arrive : List Message → List Message} {dr : IntTag} (hmax : 0 ≤ maxDifference)
    (harrive : ∀ l, (arrive l).Perm l) (bound : ℤ) (hb : bound + maxDifference ≤ INT_MAX) :
    ∀ (moves : List Bool) (cl : IntTag),
      (∀ p < mesh.length, ∀ e < (part mesh p).elements.length, 0 ≤ cl p e ∧ cl p e ≤ bound) →
      normalizeMovesInt mesh maxDifference arrive dr moves cl
        = normalizeMoves mesh maxDifference arrive dr moves cl := by
  intro moves
  induction moves with
  | nil =>
    intro cl _
    simp only [normalizeMovesInt, normalizeMoves]
  | cons m rest ih =>
    intro cl hcl
    cases m with
    | true =>
      simp only [normalizeMovesInt, normalizeMoves]
      obtain ⟨g1, -, -, g4⟩ := gts_decr mesh dr cl
      apply ih
      intro p hp e he
      exact ⟨g4 (fun p hp e he => (hcl p hp e he).1) p hp e he,
        le_trans (g1 p e) (hcl p hp e he).2⟩
    | false =>
      simp only [normalizeMovesInt, normalizeMoves]
      rw [enforceMaximumDifferenceInt_eq mesh maxDifference arrive dr cl hmax harrive
        (fun p hp e he => ⟨(hcl p hp e he).1, by have := (hcl p hp e he).2; omega⟩)]
      cases hs : enforceMaximumDifference mesh maxDifference arrive dr cl with
      | none => simp only [Option.none_bind]
      | some res =>
        simp only [Option.some_bind]
        obtain ⟨s1, -, -, s4⟩ := sweep_decr hmax harrive hs
        apply ih
        intro p hp e he
        exact ⟨s4 (fun p hp e he => (hcl p hp e he).1) p hp e he,
          le_trans (s1 p e) (hcl p hp e he).2⟩

/-- The computed power `rate ^ c * globalMin` is `+inf` or a positive `double`. -/
theorem computedPower_atLeast (rate : ℕ) (gm : Binary64) (hr : 2 ≤ rate) (hd : gm.IsDouble)
    (hp : gm.IsPositive) : ∀ c, (computedPower rate gm c).AtLeast 1 := by
  intro c
  cases c with
  | zero => exact atLeast_one gm hd hp
  | succ k =>
    have h := upperAfter_atLeast rate gm hr hd hp k
    show (upperAfter rate gm k).AtLeast 1
    have h1 : 1 ≤ 2 ^ (k + 1) := Nat.one_le_two_pow
    cases hx : upperAfter rate gm k with
    | nan => rw [hx] at h; exact h
    | infinite s => rw [hx] at h; exact h
    | finite s m e =>
      rw [hx] at h
      obtain ⟨a1, a2, a3, a4, a5⟩ : s = false ∧ m < 2 ^ 53 ∧ -1074 ≤ e ∧ e ≤ 971 ∧
        2 ^ (k + 1) ≤ m * 2 ^ (e + 1074).toNat := h
      exact ⟨a1, a2, a3, a4, le_trans h1 a5⟩

/-- What is at most a positive `double` `x` is at most every `double` that is
`+inf` or of at least the value of `x`. -/
theorem le_of_atLeast (m : ℕ) (e : ℤ) (y ts : Binary64) (he : -1074 ≤ e)
    (hy : y.AtLeast (m * 2 ^ (e + 1074).toNat)) (hle : y.le ts = true) :
    (Binary64.finite false m e).le ts = true := by
  cases y with
  | nan => exact absurd hy (by simp [Binary64.AtLeast])
  | infinite s =>
    have hs : s = false := hy
    subst hs
    cases ts with
    | nan => cases hle
    | finite t n f => cases hle
    | infinite t =>
      cases t
      · rfl
      · cases hle
  | finite s m1 e1 =>
    obtain ⟨hs, -, h1, -, hval⟩ : s = false ∧ m1 < 2 ^ 53 ∧ -1074 ≤ e1 ∧ e1 ≤ 971 ∧
      m * 2 ^ (e + 1074).toNat ≤ m1 * 2 ^ (e1 + 1074).toNat := hy
    subst hs
    cases ts with
    | nan => cases hle
    | infinite t => exact hle
    | finite t n f =>
      have h0 : min (-1074) f ≤ -1074 := min_le_left _ _
      have hf : min (-1074) f ≤ f := min_le_right _ _
      rw [le_finite_iff false t m1 n e1 f (min (-1074) f) (by omega) hf] at hle
      rw [le_finite_iff false t m n e f (min (-1074) f) (by omega) hf]
      refine le_trans ?_ hle
      rw [scaled_shift false m e (min (-1074) f) (-1074) h0 he,
        scaled_shift false m1 e1 (min (-1074) f) (-1074) h0 h1]
      apply mul_le_mul_of_nonneg_right _ (pow_nonneg (by decide) _)
      unfold Binary64.scaled
      have e2 : (e - -1074).toNat = (e + 1074).toNat := by congr 1
      have e3 : (e1 - -1074).toNat = (e1 + 1074).toNat := by congr 1
      rw [e2, e3]
      simp only [Bool.false_eq_true, if_false]
      exact_mod_cast hval

/-- The computed powers of the rate go up: what is at least the next one is at
least this one. -/
theorem computedPower_step (rate : ℕ) (gm ts : Binary64) (hr : 2 ≤ rate) (hd : gm.IsDouble)
    (hp : gm.IsPositive) (c : ℕ) (hle : (computedPower rate gm (c + 1)).le ts = true) :
    (computedPower rate gm c).le ts = true := by
  have hc := computedPower_atLeast rate gm hr hd hp c
  have hnext : (computedPower rate gm (c + 1) = (computedPower rate gm c).mul
        (Binary64.ofUnsigned rate)) ∨
      (computedPower rate gm (c + 1) = (Binary64.ofUnsigned rate).mul
        (computedPower rate gm c)) := by
    cases c with
    | zero => right; rfl
    | succ k => left; rfl
  cases hx : computedPower rate gm c with
  | nan => rw [hx] at hc; exact absurd hc (by simp [Binary64.AtLeast])
  | infinite s =>
    rw [hx] at hc hnext
    have hs : s = false := hc
    subst hs
    have hr0 : rate ≠ 0 := by omega
    have : computedPower rate gm (c + 1) = Binary64.infinite false := by
      rcases hnext with h | h <;> rw [h] <;> simp [Binary64.mul, Binary64.ofUnsigned, hr0]
    rw [← this]
    exact hle
  | finite s m e =>
    rw [hx] at hc hnext
    obtain ⟨hs, a2, a3, a4, a5⟩ : s = false ∧ m < 2 ^ 53 ∧ -1074 ≤ e ∧ e ≤ 971 ∧
      1 ≤ m * 2 ^ (e + 1074).toNat := hc
    subst hs
    have hself : (Binary64.finite false m e).AtLeast (m * 2 ^ (e + 1074).toNat) :=
      ⟨rfl, a2, a3, a4, le_rfl⟩
    obtain ⟨g1, g2⟩ := mul_atLeast _ _ rate hself a5 hr
    have hy : (computedPower rate gm (c + 1)).AtLeast (2 * (m * 2 ^ (e + 1074).toNat)) := by
      rcases hnext with h | h
      · rw [h]; exact g1
      · rw [h]; exact g2
    have hy1 : (computedPower rate gm (c + 1)).AtLeast (m * 2 ^ (e + 1074).toNat) := by
      cases hz : computedPower rate gm (c + 1) with
      | nan => rw [hz] at hy; exact hy
      | infinite t => rw [hz] at hy; exact hy
      | finite t n f =>
        rw [hz] at hy
        obtain ⟨b1, b2, b3, b4, b5⟩ : t = false ∧ n < 2 ^ 53 ∧ -1074 ≤ f ∧ f ≤ 971 ∧
          2 * (m * 2 ^ (e + 1074).toNat) ≤ n * 2 ^ (f + 1074).toNat := hy
        exact ⟨b1, b2, b3, b4, by omega⟩
    exact le_of_atLeast m e _ ts a3 hy1 hle

/-- A timestep that is at least a computed power of the rate is at least every
lower one. -/
theorem computedPower_mono (rate : ℕ) (gm ts : Binary64) (hr : 2 ≤ rate) (hd : gm.IsDouble)
    (hp : gm.IsPositive) (c : ℕ) :
    ∀ d, (computedPower rate gm (c + d)).le ts = true →
      (computedPower rate gm c).le ts = true := by
  intro d
  induction d with
  | zero => exact fun h => h
  | succ d ih =>
    intro h
    exact ih (computedPower_step rate gm ts hr hd hp (c + d) h)

/-- For `rate ≥ 2`, a positive `double` `globalMin` that is at most a timestep
other than `+inf`: the value `c` of `getCluster` brackets the timestep between the
computed powers `c` and `c + 1` of the rate. -/
theorem getClusterDouble_bounds (timestep gm : Binary64) (rate : ℕ) (hr : 2 ≤ rate)
    (hd : gm.IsDouble) (hp : gm.IsPositive) (ht : timestep ≠ Binary64.infinite false)
    (hmin : gm.le timestep = true) :
    ∃ c : ℕ, c ≤ 2097 ∧
      (∀ fuel, getClusterDouble fuel timestep gm rate = if c ≤ fuel then some c else none) ∧
      (computedPower rate gm c).le timestep = true ∧
      (computedPower rate gm (c + 1)).le timestep = false := by
  obtain ⟨c, hc, hleast, hfuel⟩ := getClusterDouble_least timestep gm rate hr hd hp ht
  refine ⟨c, hc, hfuel, ?_, hleast.1⟩
  cases c with
  | zero => exact hmin
  | succ k =>
    show (upperAfter rate gm k).le timestep = true
    by_contra hcon
    have hk : k ∈ {c : ℕ | (upperAfter rate gm c).le timestep = false} := by
      simpa using hcon
    have := hleast.2 hk
    omega

/-- Counterexample to **C22** as stated.  One rank holds four elements with the
timesteps 0.3, 0.8999999999999999, 0.3, 0.3, so that `globalMin = 0.3 > 0` is at
most every timestep, and `rate = 3`.  The initial cluster of element 1 is 1,
because the rounded product `3 * 0.3` of the code is the timestep of the element;
in exact arithmetic `rate ^ 1 * globalMin` is greater than this timestep. -/
theorem initial_cluster_above_timestep :
    2 ≤ 3 ∧ threeTenths.IsPositive ∧
    (∀ e < (part [scenarioLocal] 0).elements.length,
      threeTenths.le (roundedTimestep 0 e) = true) ∧
    getClusterDouble 1 (roundedTimestep 0 1) threeTenths 3 = some 1 ∧
    initialClustersDouble 1 roundedTimestep threeTenths 3 0 1 = 1 ∧
    ¬ ((3 : ℚ) ^ 1 * threeTenths.toRat ≤ (roundedTimestep 0 1).toRat) := by
  refine ⟨by decide, by decide, by decide, by decide, by decide, ?_⟩
  norm_num [threeTenths, belowNineTenths, roundedTimestep, Binary64.toRat]

/-- **C22**, amended.  Let `rate ≥ 2`, let `globalMin` be a `double` greater than
0 with `globalMin <= timestep(e)` for every element `e` of the mesh, and let no
timestep be `+inf`.  The initial cluster `c` of every element is returned by
`getCluster`, is at most 2097, and brackets the timestep between the products as
the code computes them (rounded after every multiplication): the computed
`rate ^ c * globalMin` is `<= timestep(e)` and the computed
`rate ^ (c + 1) * globalMin` is not.  After every sequence of calls of
`enforceDynamicRuptureGTS` and sweeps of `enforceMaximumDifference` (sums in `int`,
`0 ≤ maxDifference ≤ INT_MAX - 2097`, every packed message delivered) that starts
from the initial clusters, the cluster `c` of every element is at least 0 and the
computed `rate ^ c * globalMin` is still `<= timestep(e)`. -/
theorem computed_cluster_lower_bound (mesh : Mesh) (maxDifference : ℤ)
    (arrive : List Message → List Message) (dr : IntTag) (timestep : ℕ → ℕ → Binary64)
    (globalMin : Binary64) (rate : ℕ) (hr : 2 ≤ rate) (hd : globalMin.IsDouble)
    (hg : globalMin.IsPositive)
    (hmin : ∀ p < mesh.length, ∀ e < (part mesh p).elements.length,
      globalMin.le (timestep p e) = true)
    (hfin : ∀ p < mesh.length, ∀ e < (part mesh p).elements.length,
      timestep p e ≠ Binary64.infinite false)
    (hmax : 0 ≤ maxDifference) (hfit : maxDifference ≤ INT_MAX - 2097)
    (harrive : ∀ l, (arrive l).Perm l) :
    (∀ p < mesh.length, ∀ e < (part mesh p).elements.length, ∃ c : ℕ, c ≤ 2097 ∧
      (∀ fuel, c ≤ fuel → getClusterDouble fuel (timestep p e) globalMin rate = some c) ∧
      (computedPower rate globalMin c).le (timestep p e) = true ∧
      (computedPower rate globalMin (c + 1)).le (timestep p e) = false) ∧
    (∀ fuel, (∀ p < mesh.length, ∀ e < (part mesh p).elements.length,
        (getClusterDouble fuel (timestep p e) globalMin rate).isSome) →
      ∀ moves cl, normalizeMovesInt mesh maxDifference arrive dr moves
          (initialClustersDouble fuel timestep globalMin rate) = some cl →
        ∀ p < mesh.length, ∀ e < (part mesh p).elements.length,
          0 ≤ cl p e ∧
            (computedPower rate globalMin (cl p e).toNat).le (timestep p e) = true) := by
  constructor
  · intro p hp e he
    obtain ⟨c, hc, hfuel, hlo, hhi⟩ := getClusterDouble_bounds (timestep p e) globalMin rate hr
      hd hg (hfin p hp e he) (hmin p hp e he)
    exact ⟨c, hc, fun fuel hf => by rw [hfuel, if_pos hf], hlo, hhi⟩
  · intro fuel hsome moves cl hmoves p hp e he
    have hrange : ∀ p < mesh.length, ∀ e < (part mesh p).elements.length,
        0 ≤ initialClustersDouble fuel timestep globalMin rate p e ∧
          initialClustersDouble fuel timestep globalMin rate p e ≤ 2097 := by
      intro p hp e he
      obtain ⟨c, hc, hfuel, -, -⟩ := getClusterDouble_bounds (timestep p e) globalMin rate hr
        hd hg (hfin p hp e he) (hmin p hp e he)
      simp only [initialClustersDouble]
      rw [hfuel fuel]
      split
      · simp only [Option.getD_some]
        omega
      · simp only [Option.getD_none]
        omega
    rw [normalizeMovesInt_eq hmax harrive 2097 (by omega) moves _ hrange] at hmoves
    obtain ⟨hnn, hle⟩ := normalizeMoves_decr hmax harrive moves _ cl
      (fun p hp e he => (hrange p hp e he).1) hmoves
    refine ⟨hnn p hp e he, ?_⟩
    obtain ⟨c, -, hfuel, hlo, -⟩ := getClusterDouble_bounds (timestep p e) globalMin rate hr
      hd hg (hfin p hp e he) (hmin p hp e he)
    have hinit : initialClustersDouble fuel timestep globalMin rate p e = (c : ℤ) := by
      have hs := hsome p hp e he
      rw [hfuel fuel] at hs
      simp only [initialClustersDouble]
      rw [hfuel fuel]
      split
      · rfl
      · rename_i hc
        rw [if_neg hc] at hs
        simp at hs
    have hcl : (cl p e).toNat ≤ c := by
      have := hle p e
      rw [hinit] at this
      omega
    obtain ⟨d, hd1⟩ : ∃ d, c = (cl p e).toNat + d := ⟨c - (cl p e).toNat, by omega⟩
    rw [hd1] at hlo
    exact computedPower_mono rate globalMin (timestep p e) hr hd hg _ d hlo

theorem computed_cluster_lower_bound_witness :
    (normalizeMovesInt scenario 1 id (countDynamicRuptureFaces scenario).1 [true, false, false]
      (initialClustersDouble 4 scenarioTimestepDouble (Binary64.ofUnsigned 1) 2)).isSome = true ∧
    ((∀ p < scenario.length, ∀ e < (part scenario p).elements.length, ∃ c : ℕ, c ≤ 2097 ∧
      (∀ fuel, c ≤ fuel →
        getClusterDouble fuel (scenarioTimestepDouble p e) (Binary64.ofUnsigned 1) 2 = some c) ∧
      (computedPower 2 (Binary64.ofUnsigned 1) c).le (scenarioTimestepDouble p e) = true ∧
      (computedPower 2 (Binary64.ofUnsigned 1) (c + 1)).le (scenarioTimestepDouble p e)
        = false) ∧
    (∀ fuel, (∀ p < scenario.length, ∀ e < (part scenario p).elements.length,
        (getClusterDouble fuel (scenarioTimestepDouble p e) (Binary64.ofUnsigned 1) 2).isSome) →
      ∀ moves cl, normalizeMovesInt scenario 1 id (countDynamicRuptureFaces scenario).1 moves
          (initialClustersDouble fuel scenarioTimestepDouble (Binary64.ofUnsigned 1) 2)
            = some cl →
        ∀ p < scenario.length, ∀ e < (part scenario p).elements.length,
          0 ≤ cl p e ∧
            (computedPower 2 (Binary64.ofUnsigned 1) (cl p e).toNat).le
              (scenarioTimestepDouble p e) = true)) := by
  refine ⟨by decide, computed_cluster_lower_bound scenario 1 id
    (countDynamicRuptureFaces scenario).1 scenarioTimestepDouble (Binary64.ofUnsigned 1) 2
    (by decide) (by decide) (by decide) ?_ ?_ (by decide) (by decide)
    (fun l => List.Perm.refl l)⟩
  · intro p _ e _
    unfold scenarioTimestepDouble
    split_ifs <;> decide
  · intro p _ e _
    unfold scenarioTimestepDouble
    split_ifs <;> decide

end PUML
